import Mathlib

/-!
# Token-sequence similarity engine (`match_submissions.hpp`)

A shallow embedding of the matching engine and a verification of its specification.

Conventions of the embedding.

* A `std::vector<T>` is a `List T`; `operator[]` is a checked access that faults with
  `Fault.outOfBounds` when the index is outside the container (undefined behaviour in the source).
* The index expressions `i - 1` and `j - 1` of the finder and the division of
  `calculateSimilarity` are checked as well: a difference below zero faults with
  `Fault.underflow` and a divisor of zero with `Fault.divisionByZero`, so that a run without
  a fault has met neither.
* A token is an `int`, embedded as `Int`.  `int` variables are embedded as `Int`; every one of
  them is bounded by a sequence length, so no 32-bit wraparound is modelled for them.
* `size_t` is unsigned 64-bit.  Where the source subtracts unsigned values or multiplies an
  `int` token by a `size_t`, the arithmetic is taken modulo `2 ^ 64` explicitly.
* A counted loop `for (size_t j = 0; j + len <= n; ++j)` visits `j = 0, 1, ..., n - len`
  when `len <= n` and nothing otherwise; it is embedded as an iteration over
  `List.range (n + 1 - len)`.
* `double` values are embedded exactly: a non-negative finite binary64 is a dyadic rational
  `num / 2 ^ exp`, and products and quotients are rounded to 53 significant bits, ties to even.
* A function that can throw or fault returns `Except Fault _`.
-/

namespace MatchSubmissions

/-! ## Faults -/

/-- The ways in which an execution can fail to produce a result. -/
inductive Fault where
  /-- An `operator[]` access outside the bounds of its container. -/
  | outOfBounds
  /-- The exception `std::length_error` thrown by a `std::vector` constructor. -/
  | lengthError
  /-- A loop whose induction variable never advances. -/
  | nonTermination
  /-- A conversion of a non-finite `double` to `int`. -/
  | badConversion
  /-- A division whose divisor is zero. -/
  | divisionByZero
  /-- An index expression `a - b` on `size_t` that wraps below zero. -/
  | underflow
  deriving DecidableEq, Repr

deriving instance DecidableEq for Except

/-- Checked read `xs[i]`. -/
def readAt {α : Type} (xs : List α) (i : Nat) : Except Fault α :=
  match xs[i]? with
  | some x => .ok x
  | none => .error .outOfBounds

/-- Checked write `xs[i] = v`. -/
def writeAt {α : Type} (xs : List α) (i : Nat) (v : α) : Except Fault (List α) :=
  if i < xs.length then .ok (xs.set i v) else .error .outOfBounds

/-- Checked index expression `a - b` on `size_t`, as in `submission1[i - 1]`: below zero the
difference wraps to at least `2 ^ 64 - b`, which is reported as a fault. -/
def indexSub (a b : Nat) : Except Fault Nat :=
  if b ≤ a then .ok (a - b) else .error .underflow

/-! ## Unsigned 64-bit arithmetic -/

/-- The number of values of `size_t`. -/
def U64 : Nat := 2 ^ 64

/-- Conversion of an `int` to `size_t`. -/
def toU64 (x : Int) : Nat := (x % (2 ^ 64 : Int)).toNat

/-- Subtraction of `size_t` values. -/
def subU64 (a b : Nat) : Nat := (a + U64 - b % U64) % U64

/-- Addition of `size_t` values. -/
def addU64 (a b : Nat) : Nat := (a + b) % U64

/-- Multiplication of `size_t` values. -/
def mulU64 (a b : Nat) : Nat := (a * b) % U64

/-- The largest size a `std::vector<size_t>` can be constructed with (`max_size()` on an LP64
platform: `PTRDIFF_MAX / sizeof(size_t)`). -/
def vectorMaxSize : Nat := 2 ^ 60 - 1

/-- The constructor `std::vector<size_t> v(n)`: `n` zero-initialised slots, or
`std::length_error` when `n` exceeds `max_size()`. -/
def vectorNew (n : Nat) : Except Fault (List Nat) :=
  if vectorMaxSize < n then .error .lengthError else .ok (List.replicate n 0)

/-! ## Binary64 arithmetic -/

/-- The `double` values that occur in the program: the dyadic rational `num / 2 ^ exp`,
positive infinity, or NaN. -/
inductive F64 where
  | dy (num exp : Nat)
  | inf
  | nan
  deriving DecidableEq, Repr

/-- The number of low-order bits to drop from `N` so that at most 53 bits remain
(the first argument bounds the number of halvings). -/
def excessBits : Nat → Nat → Nat
  | 0, _ => 0
  | fuel + 1, N => if N < 2 ^ 53 then 0 else excessBits fuel (N / 2) + 1

/-- Round a natural number to 53 significant bits, ties to even. -/
def round53 (N : Nat) : Nat :=
  let s := excessBits N N
  let q := N / 2 ^ s
  let r := N % 2 ^ s
  if s = 0 then N
  else if 2 ^ (s - 1) < r ∨ (r = 2 ^ (s - 1) ∧ q % 2 = 1) then (q + 1) * 2 ^ s else q * 2 ^ s

namespace F64

/-- The literal `0.2`, that is `0x1.999999999999ap-3`. -/
def c02 : F64 := dy 3602879701896397 54

/-- The literal `0.3`, that is `0x1.3333333333333p-2`. -/
def c03 : F64 := dy 5404319552844595 54

/-- The literal `0.8`, that is `0x1.999999999999ap-1`. -/
def c08 : F64 := dy 3602879701896397 52

/-- Conversion of a non-negative integer below `2 ^ 53` to `double` (exact). -/
def ofNat (n : Nat) : F64 := dy n 0

/-- Correctly rounded product. -/
def mul : F64 → F64 → F64
  | dy a e, dy b f => dy (round53 (a * b)) (e + f)
  | nan, _ => nan
  | _, nan => nan
  | inf, dy b _ => if b = 0 then nan else inf
  | dy a _, inf => if a = 0 then nan else inf
  | inf, inf => inf

/-- Correctly rounded quotient `k / len` of two integer-valued doubles.  The quotient is
computed to at least 55 bits (`len * 2 ^ 55 ≤ 2 ^ e`) with a sticky bit for the remainder and
then rounded. -/
def divNat (k len : Nat) : F64 :=
  if len = 0 then (if k = 0 then nan else inf)
  else
    let e := len + 55
    let sticky := if k * 2 ^ e % len = 0 then 0 else 1
    dy (round53 (2 * (k * 2 ^ e / len) + sticky)) (e + 1)

/-- The comparison `x >= y`. -/
def ge : F64 → F64 → Bool
  | dy a e, dy b f => decide (b * 2 ^ e ≤ a * 2 ^ f)
  | inf, dy _ _ => true
  | inf, inf => true
  | _, _ => false

/-- The conversion `static_cast<int>(x)` of a non-negative double (truncation). -/
def trunc : F64 → Except Fault Int
  | dy a e => .ok ((a / 2 ^ e : Nat) : Int)
  | _ => .error .badConversion

end F64

/-! ## Segment comparison and hashing -/

/-- Loop of `calculateSimilarity`: count the agreeing positions. -/
def countMatches (segment1 segment2 : List Int) (start1 start2 : Nat) :
    List Nat → Nat → Except Fault Nat
  | [], matchCount => .ok matchCount
  | i :: rest, matchCount => do
    let a ← readAt segment1 (start1 + i)
    let b ← readAt segment2 (start2 + i)
    countMatches segment1 segment2 start1 start2 rest (if a = b then matchCount + 1 else matchCount)

/-- The function `calculateSimilarity`: the fraction of agreeing positions of two windows.
The division `static_cast<double>(matchCount) / length` is checked: a divisor of zero is
reported as a fault. -/
def calculateSimilarity (segment1 segment2 : List Int) (start1 start2 length : Nat) :
    Except Fault F64 := do
  let matchCount ← countMatches segment1 segment2 start1 start2 (List.range length) 0
  if length = 0 then .error .divisionByZero else pure (F64.divNat matchCount length)

/-- Loop of `isExactMatch`: stop with `false` at the first disagreeing position. -/
def isExactMatchLoop (data1 data2 : List Int) (start1 start2 : Nat) :
    List Nat → Except Fault Bool
  | [] => .ok true
  | i :: rest => do
    let a ← readAt data1 (start1 + i)
    let b ← readAt data2 (start2 + i)
    if a ≠ b then pure false else isExactMatchLoop data1 data2 start1 start2 rest

/-- The function `isExactMatch`. -/
def isExactMatch (data1 data2 : List Int) (start1 start2 length : Nat) : Except Fault Bool :=
  isExactMatchLoop data1 data2 start1 start2 (List.range length)

/-- The constant `primeBase`. -/
def primeBase : Nat := 31

/-- The constant `modulus`, the value of `1e9 + 9`. -/
def modulus : Nat := 1000000009

/-- Loop of `computeSegmentHash`, on the pair `(hashValue, primePower)`.  The token is
converted to `size_t` before the multiplication, which is unsigned 64-bit. -/
def hashLoop (data : List Int) (start : Nat) : List Nat → Nat × Nat → Except Fault (Nat × Nat)
  | [], hp => .ok hp
  | i :: rest, hp => do
    let x ← readAt data (start + i)
    let hashValue := addU64 hp.1 (mulU64 (toU64 x) hp.2 % modulus) % modulus
    let primePower := mulU64 hp.2 primeBase % modulus
    hashLoop data start rest (hashValue, primePower)

/-- The function `computeSegmentHash`. -/
def computeSegmentHash (data : List Int) (start length : Nat) : Except Fault Nat := do
  let hp ← hashLoop data start (List.range length) (0, 1)
  pure hp.1

/-! ## The fallback scanner -/

/-- The start offsets visited by `for (size_t i = 0; i + windowSize <= size; i += stepSize)`.
With `stepSize = 0` and at least one window the loop never ends. -/
def windowStarts (size windowSize stepSize : Nat) : Except Fault (List Nat) :=
  if size < windowSize then .ok []
  else if stepSize = 0 then .error .nonTermination
  else .ok ((List.range ((size - windowSize) / stepSize + 1)).map (fun t => t * stepSize))

/-- The statement `hashMap[hash].push_back(i)` on a
`std::unordered_map<size_t, std::vector<size_t>>`, kept as an association list. -/
def hashMapPush : List (Nat × List Nat) → Nat → Nat → List (Nat × List Nat)
  | [], hash, i => [(hash, [i])]
  | (key, bucket) :: rest, hash, i =>
    if key = hash then (key, bucket ++ [i]) :: rest else (key, bucket) :: hashMapPush rest hash i

/-- First loop of `searchForLongPatterns`: the table of the window fingerprints of
`submission2`. -/
def buildHashMap (submission2 : List Int) (windowSize : Nat) :
    List Nat → List (Nat × List Nat) → Except Fault (List (Nat × List Nat))
  | [], hashMap => .ok hashMap
  | i :: rest, hashMap => do
    let hash ← computeSegmentHash submission2 i windowSize
    buildHashMap submission2 windowSize rest (hashMapPush hashMap hash i)

/-- Body of the loop over a bucket `for (size_t pos : hashMap[hash])`, on the triple
`(maxMatchLength, startIndex1, startIndex2)`. -/
def scanBucket (submission1 submission2 : List Int) (windowSize i : Nat) :
    List Nat → Int × Int × Int → Except Fault (Int × Int × Int)
  | [], best => .ok best
  | pos :: rest, best => do
    let similarityScore ← calculateSimilarity submission1 submission2 i pos windowSize
    if F64.ge similarityScore F64.c08 then
      if toU64 best.1 < windowSize then
        scanBucket submission1 submission2 windowSize i rest ((windowSize : Int), (i : Int), (pos : Int))
      else scanBucket submission1 submission2 windowSize i rest best
    else scanBucket submission1 submission2 windowSize i rest best

/-- Second loop of `searchForLongPatterns`: the windows of `submission1`. -/
def scanWindows (submission1 submission2 : List Int) (windowSize : Nat)
    (hashMap : List (Nat × List Nat)) :
    List Nat → Int × Int × Int → Except Fault (Int × Int × Int)
  | [], best => .ok best
  | i :: rest, best => do
    let hash ← computeSegmentHash submission1 i windowSize
    match hashMap.lookup hash with
    | some bucket => do
      let best ← scanBucket submission1 submission2 windowSize i bucket best
      scanWindows submission1 submission2 windowSize hashMap rest best
    | none => scanWindows submission1 submission2 windowSize hashMap rest best

/-- The function `searchForLongPatterns`; the triple is
`(maxMatchLength, startIndex1, startIndex2)`. -/
def searchForLongPatterns (submission1 submission2 : List Int) (windowSize : Nat)
    (best : Int × Int × Int) : Except Fault (Int × Int × Int) := do
  let stepSize := windowSize / 4
  let starts2 ← windowStarts submission2.length windowSize stepSize
  let hashMap ← buildHashMap submission2 windowSize starts2 []
  let starts1 ← windowStarts submission1.length windowSize stepSize
  scanWindows submission1 submission2 windowSize hashMap starts1 best

/-! ## The exact-match detector -/

/-- The state of `detectExactMatches`: the two usage masks and the running total. -/
structure ExactState where
  usedInSubmission1 : List Bool
  usedInSubmission2 : List Bool
  totalExactMatchLength : Int
  deriving DecidableEq, Repr

/-- The precomputed table `hashesForSubmission2` for one length. -/
def fillHashes (submission2 : List Int) (len : Nat) : List Nat → List Nat → Except Fault (List Nat)
  | [], hashes => .ok hashes
  | j :: rest, hashes => do
    let hash ← computeSegmentHash submission2 j len
    let hashes ← writeAt hashes j hash
    fillHashes submission2 len rest hashes

/-- The loop `for (size_t k = i; k < i + len; ++k)` that looks for a used position of the
window of `submission1`. -/
def windowUsed (usedInSubmission1 : List Bool) : List Nat → Except Fault Bool
  | [] => .ok false
  | k :: rest => do
    let used ← readAt usedInSubmission1 k
    if used then pure true else windowUsed usedInSubmission1 rest

/-- The loop that marks both windows of a confirmed match as used. -/
def markUsed (i j : Nat) : List Nat → List Bool × List Bool → Except Fault (List Bool × List Bool)
  | [], masks => .ok masks
  | k :: rest, masks => do
    let used1 ← writeAt masks.1 (i + k) true
    let used2 ← writeAt masks.2 (j + k) true
    markUsed i j rest (used1, used2)

/-- The loop over the windows of `submission2` for one window of `submission1`; it ends at
the first confirmed match. -/
def scanSubmission2 (submission1 submission2 : List Int) (hashesForSubmission2 : List Nat)
    (hash1 i len : Nat) : List Nat → ExactState → Except Fault ExactState
  | [], st => .ok st
  | j :: rest, st => do
    let used ← readAt st.usedInSubmission2 j
    if used then scanSubmission2 submission1 submission2 hashesForSubmission2 hash1 i len rest st
    else do
      let hash2 ← readAt hashesForSubmission2 j
      if hash1 ≠ hash2 then
        scanSubmission2 submission1 submission2 hashesForSubmission2 hash1 i len rest st
      else do
        let confirmed ← isExactMatch submission1 submission2 i j len
        if confirmed then do
          let masks ← markUsed i j (List.range len) (st.usedInSubmission1, st.usedInSubmission2)
          pure ⟨masks.1, masks.2, st.totalExactMatchLength + (len : Int)⟩
        else scanSubmission2 submission1 submission2 hashesForSubmission2 hash1 i len rest st

/-- The loop over the windows of `submission1` for one length. -/
def scanSubmission1 (submission1 submission2 : List Int) (hashesForSubmission2 : List Nat)
    (len : Nat) : List Nat → ExactState → Except Fault ExactState
  | [], st => .ok st
  | i :: rest, st => do
    let isUsed ← windowUsed st.usedInSubmission1 (List.range' i len)
    if isUsed then scanSubmission1 submission1 submission2 hashesForSubmission2 len rest st
    else do
      let hash1 ← computeSegmentHash submission1 i len
      let st ← scanSubmission2 submission1 submission2 hashesForSubmission2 hash1 i len
        (List.range (submission2.length + 1 - len)) st
      scanSubmission1 submission1 submission2 hashesForSubmission2 len rest st

/-- One iteration of the loop over the lengths.  The table has
`submission2.size() - len + 1` slots, computed on `size_t`. -/
def detectLength (submission1 submission2 : List Int) (st : ExactState) (len : Nat) :
    Except Fault ExactState := do
  let table ← vectorNew (addU64 (subU64 submission2.length len) 1)
  let hashesForSubmission2 ←
    fillHashes submission2 len (List.range (submission2.length + 1 - len)) table
  scanSubmission1 submission1 submission2 hashesForSubmission2 len
    (List.range (submission1.length + 1 - len)) st

/-- The lengths visited by `for (size_t len = maxLength; len >= minLength; --len)`. -/
def candidateLengths : List Nat := [20, 19, 18, 17, 16, 15, 14, 13, 12, 11, 10]

/-- The function `detectExactMatches`. -/
def detectExactMatches (submission1 submission2 : List Int) (st : ExactState) :
    Except Fault ExactState :=
  candidateLengths.foldlM (detectLength submission1 submission2) st

/-! ## The long approximate-match finder -/

/-- The state of the dynamic programme of `findLongestCommonSubsequence`. -/
structure LcsState where
  previousRow : List Int
  currentRow : List Int
  maxLCSLength : Int
  startIndex1 : Int
  startIndex2 : Int
  currentPatternLength : Int
  deriving DecidableEq, Repr

/-- Body of the inner loop, for the cell `(i, j)`. -/
def lcsCell (submission1 submission2 : List Int) (i : Nat) (st : LcsState) (j : Nat) :
    Except Fault LcsState := do
  let a ← readAt submission1 (← indexSub i 1)
  let b ← readAt submission2 (← indexSub j 1)
  if a = b then do
    let diagonal ← readAt st.previousRow (← indexSub j 1)
    let currentRow ← writeAt st.currentRow j (diagonal + 1)
    let currentPatternLength := diagonal + 1
    let windowSize := max currentPatternLength 30
    if currentPatternLength ≥ 30 ∧
        F64.ge (F64.ofNat currentPatternLength.toNat)
          (F64.mul (F64.ofNat windowSize.toNat) F64.c08) = true then
      if currentPatternLength > st.maxLCSLength then
        pure { st with
          currentRow := currentRow
          currentPatternLength := currentPatternLength
          maxLCSLength := currentPatternLength
          startIndex1 := (i : Int) - currentPatternLength
          startIndex2 := (j : Int) - currentPatternLength }
      else pure { st with currentRow := currentRow, currentPatternLength := currentPatternLength }
    else pure { st with currentRow := currentRow, currentPatternLength := currentPatternLength }
  else do
    let currentRow ← writeAt st.currentRow j 0
    pure { st with currentRow := currentRow }

/-- Body of the outer loop: the row `i`, then `std::swap(previousRow, currentRow)`. -/
def lcsRow (submission1 submission2 : List Int) (st : LcsState) (i : Nat) :
    Except Fault LcsState := do
  let st ← (List.range' 1 submission2.length).foldlM (lcsCell submission1 submission2 i) st
  pure { st with previousRow := st.currentRow, currentRow := st.previousRow }

/-- The initial state of the dynamic programme. -/
def lcsInit (n : Nat) : LcsState :=
  { previousRow := List.replicate (n + 1) 0
    currentRow := List.replicate (n + 1) 0
    maxLCSLength := 0
    startIndex1 := 0
    startIndex2 := 0
    currentPatternLength := 0 }

/-- The dynamic programme after its first `rows` rows. -/
def lcsTable (submission1 submission2 : List Int) (rows : Nat) : Except Fault LcsState :=
  (List.range' 1 rows).foldlM (lcsRow submission1 submission2) (lcsInit submission2.length)

/-- The function `findLongestCommonSubsequence`; the result is
`(maxLCSLength, startIndex1, startIndex2)`. -/
def findLongestCommonSubsequence (submission1 submission2 : List Int) :
    Except Fault (Int × Int × Int) := do
  let st ← lcsTable submission1 submission2 submission1.length
  let best : Int × Int × Int := (st.maxLCSLength, st.startIndex1, st.startIndex2)
  let best ← if best.1 < 30 then searchForLongPatterns submission1 submission2 30 best
    else pure best
  if best.1 < 30 then pure (0, 0, 0) else pure best

/-! ## The decision combiner -/

/-- Lines 191 to 206 of `match_submissions`: the thresholds and the assembly of the result. -/
def combine (size1 size2 : Nat) (totalExactMatchLength longestCommonSubsequenceLength
    startIndex1 startIndex2 : Int) : Except Fault (List Int) := do
  let minSubmissionSize := min size1 size2
  let exactThreshold ← F64.trunc (F64.mul (F64.ofNat minSubmissionSize) F64.c02)
  let approximateThreshold ← F64.trunc (F64.mul (F64.ofNat minSubmissionSize) F64.c03)
  let hasSignificantExactMatches := decide (totalExactMatchLength ≥ exactThreshold)
  let hasSignificantLongMatch := decide (longestCommonSubsequenceLength ≥ approximateThreshold)
  if hasSignificantExactMatches || hasSignificantLongMatch then
    pure [1, totalExactMatchLength, longestCommonSubsequenceLength, startIndex1, startIndex2]
  else pure [0, 0, 0, 0, 0]

/-- The all-unused usage masks and the zero total with which `match_submissions` starts
`detectExactMatches`. -/
def exactInit (size1 size2 : Nat) : ExactState :=
  ⟨List.replicate size1 false, List.replicate size2 false, 0⟩

/-- The function `match_submissions`. -/
def match_submissions (submission1 submission2 : List Int) : Except Fault (List Int) := do
  let exact ← detectExactMatches submission1 submission2
    (exactInit submission1.length submission2.length)
  let lcs ← findLongestCommonSubsequence submission1 submission2
  combine submission1.length submission2.length exact.totalExactMatchLength lcs.1 lcs.2.1 lcs.2.2

/-! ## Specification vocabulary -/

/-- The windows `A[p, p + l)` and `B[q, q + l)` lie inside their sequences and are
element-wise equal. -/
def CommonRun (A B : List Int) (p q l : Nat) : Prop :=
  p + l ≤ A.length ∧ q + l ≤ B.length ∧ ∀ k < l, A[p + k]? = B[q + k]?

instance (A B : List Int) (p q l : Nat) : Decidable (CommonRun A B p q l) := by
  unfold CommonRun; infer_instance

/-- The number of positions at which the windows `A[p, p + l)` and `B[q, q + l)` agree. -/
def agreement (A B : List Int) (p q l : Nat) : Nat :=
  (List.range l).countP (fun k => decide (A[p + k]? = B[q + k]?))

/-- The usage mask after the positions `start + k`, for `k` in `ks`, have been marked. -/
def markRange (used : List Bool) (start : Nat) (ks : List Nat) : List Bool :=
  ks.foldl (fun u k => u.set (start + k) true) used

/-- The state after the windows `A[i, i + len)` and `B[j, j + len)` have been claimed by a
confirmed match. -/
def claim (st : ExactState) (i j len : Nat) : ExactState :=
  ⟨markRange st.usedInSubmission1 i (List.range len),
    markRange st.usedInSubmission2 j (List.range len),
    st.totalExactMatchLength + (len : Int)⟩

/-- A window of `B` that the window `A[i, i + len)` can claim: its first position is unused
and the two windows are element-wise equal. -/
def Claimable (A B : List Int) (used2 : List Bool) (i len j : Nat) : Prop :=
  used2[j]? = some false ∧ ∀ k < len, A[i + k]? = B[j + k]?

instance (A B : List Int) (used2 : List Bool) (i len j : Nat) :
    Decidable (Claimable A B used2 i len j) := by
  unfold Claimable; infer_instance

/-- Fault-free reading of the loop over the windows of `B`: the first claimable window among
the offsets `js` is claimed. -/
def claimFirst (A B : List Int) (st : ExactState) (i len : Nat) (js : List Nat) : ExactState :=
  match js.find? (fun j => decide (Claimable A B st.usedInSubmission2 i len j)) with
  | some j => claim st i j len
  | none => st

/-- Fault-free reading of one iteration of the loop over the windows of `A`: a window with a
used position is skipped, otherwise the first claimable window of `B` is claimed. -/
def stepWindow (A B : List Int) (len : Nat) (st : ExactState) (i : Nat) : ExactState :=
  if (List.range' i len).any (fun k => decide (st.usedInSubmission1[k]? = some true)) then st
  else claimFirst A B st i len (List.range (B.length + 1 - len))

/-- The usage masks have the lengths of their sequences. -/
def MasksFit (A B : List Int) (st : ExactState) : Prop :=
  st.usedInSubmission1.length = A.length ∧ st.usedInSubmission2.length = B.length

/-- Fault-free reading of `detectLength`. -/
def stepLength (A B : List Int) (st : ExactState) (len : Nat) : ExactState :=
  (List.range (A.length + 1 - len)).foldl (stepWindow A B len) st

/-- Fault-free reading of `detectExactMatches`. -/
def exactMatches (A B : List Int) (st : ExactState) : ExactState :=
  candidateLengths.foldl (stepLength A B) st

/-- The full table of the dynamic programme: `cell A B i j` is the length of the common run
that ends with `A[i - 1]` and `B[j - 1]` (the table `dp` of `longest_common_subsequence` in the
reference driver, in which every cell of every row is kept). -/
def cell (A B : List Int) : Nat → Nat → Int
  | 0, _ => 0
  | _ + 1, 0 => 0
  | i + 1, j + 1 =>
    match A[i]?, B[j]? with
    | some a, some b => if a = b then cell A B i j + 1 else 0
    | _, _ => 0

/-- The cell `(i', j')` has been computed once the inner loop has finished the cell `(i, j)`;
`n` is the length of a row. -/
def Seen (n i j i' j' : Nat) : Prop :=
  1 ≤ i' ∧ 1 ≤ j' ∧ j' ≤ n ∧ (i' < i ∨ (i' = i ∧ j' ≤ j))

/-- What the triple `(maxLCSLength, startIndex1, startIndex2)` holds once the inner loop has
finished the cell `(i, j)`: the sentinel when no computed cell has reached 30, and otherwise
the value and the start offsets of the first computed cell, in the order of the loops, that
holds the largest value. -/
def Best (A B : List Int) (i j : Nat) (L s1 s2 : Int) : Prop :=
  ((∀ i' j', Seen B.length i j i' j' → cell A B i' j' < 30) ∧ L = 0 ∧ s1 = 0 ∧ s2 = 0) ∨
  (∃ i0 j0, Seen B.length i j i0 j0 ∧ 30 ≤ L ∧ cell A B i0 j0 = L ∧
    s1 = (i0 : Int) - L ∧ s2 = (j0 : Int) - L ∧
    (∀ i' j', Seen B.length i j i' j' → cell A B i' j' ≤ L) ∧
    (∀ i' j', Seen B.length i0 j0 i' j' → (i', j') ≠ (i0, j0) → cell A B i' j' < L))

/-- The invariant of the inner loop of the dynamic programme, after the cell `(i, j)`. -/
def CellInv (A B : List Int) (i j : Nat) (st : LcsState) : Prop :=
  st.previousRow.length = B.length + 1 ∧ st.currentRow.length = B.length + 1 ∧
  (∀ j', j' ≤ B.length → st.previousRow[j']? = some (cell A B (i - 1) j')) ∧
  (∀ j', 1 ≤ j' → j' ≤ j → st.currentRow[j']? = some (cell A B i j')) ∧
  st.currentRow[0]? = some 0 ∧
  Best A B i j st.maxLCSLength st.startIndex1 st.startIndex2

/-- The invariant of the outer loop of the dynamic programme, after the row `i`. -/
def RowInv (A B : List Int) (i : Nat) (st : LcsState) : Prop :=
  st.previousRow.length = B.length + 1 ∧ st.currentRow.length = B.length + 1 ∧
  (∀ j', j' ≤ B.length → st.previousRow[j']? = some (cell A B i j')) ∧
  st.currentRow[0]? = some 0 ∧
  Best A B i B.length st.maxLCSLength st.startIndex1 st.startIndex2

/-- A pair of windows that the fallback scanner accepts: both lie inside their sequences at
offsets on the stride, their fingerprints are equal and their similarity score passes the
test `similarityScore >= 0.8`. -/
def Accepted (A B : List Int) (windowSize i pos : Nat) : Prop :=
  i + windowSize ≤ A.length ∧ pos + windowSize ≤ B.length ∧
  windowSize / 4 ∣ i ∧ windowSize / 4 ∣ pos ∧
  computeSegmentHash A i windowSize = computeSegmentHash B pos windowSize ∧
  F64.ge (F64.divNat (agreement A B i pos windowSize) windowSize) F64.c08 = true

/-- Every offset stored in the table of the fallback scanner is the offset of a window of
`B` on the stride, stored under the fingerprint of that window. -/
def MapOk (B : List Int) (windowSize : Nat) (hashMap : List (Nat × List Nat)) : Prop :=
  ∀ key bucket, (key, bucket) ∈ hashMap → ∀ pos ∈ bucket,
    pos + windowSize ≤ B.length ∧ windowSize / 4 ∣ pos ∧
    computeSegmentHash B pos windowSize = .ok key

/-- What the fallback scanner can leave in the triple it was started with. -/
def ScanResult (A B : List Int) (windowSize : Nat) (best r : Int × Int × Int) : Prop :=
  r = best ∨ ∃ i pos, Accepted A B windowSize i pos ∧
    r = ((windowSize : Int), (i : Int), (pos : Int))

/-! ## Concrete inputs -/

/-- The first submission of the sample driver (`main` of `a.cpp`): the tokens 10 to 29. -/
def sampleSubmission1 : List Int :=
  [10, 11, 12, 13, 14, 15, 16, 17, 18, 19, 20, 21, 22, 23, 24, 25, 26, 27, 28, 29]

/-- The second submission of the sample driver (`main` of `a.cpp`). -/
def sampleSubmission2 : List Int :=
  [0, 1, 10, 11, 12, 13, 50, 51, 14, 15, 16, 17, 18, 19, 20, 21, 22, 23, 24, 25, 26]

/-- The tokens `first, first + 1, ..., first + count - 1`. -/
def tokens (first : Int) (count : Nat) : List Int :=
  (List.range count).map (fun k => first + (k : Int))

/-- Two submissions of 20 tokens each without a common token. -/
def disjointSubmission1 : List Int := tokens 100 20

/-- The companion of `disjointSubmission1`. -/
def disjointSubmission2 : List Int := tokens 0 20

/-- A submission of 19 pairwise distinct tokens. -/
def shortSubmission : List Int := tokens 0 19

/-- A submission of 30 pairwise distinct tokens. -/
def longSubmission : List Int := tokens 0 30

/-- A submission of 21 pairwise distinct tokens `x0, ..., x20`. -/
def overlapSubmission2 : List Int := tokens 0 21

/-- The tokens `x1, ..., x20`, a separator, and the tokens `x0, ..., x19`. -/
def overlapSubmission1 : List Int := tokens 1 20 ++ [100] ++ tokens 0 20

/-- A submission of 20 pairwise distinct tokens `x0, ..., x19`. -/
def sharedSubmission2 : List Int := tokens 0 20

/-- The tokens `x1, ..., x19`, a separator, and the tokens `x0, ..., x18`. -/
def sharedSubmission1 : List Int := tokens 1 19 ++ [100] ++ tokens 0 19

/-- A sequence with negative tokens, and a window of it as a sequence of its own. -/
def signedSubmission : List Int := [5, -3, 7, -2147483648, 9]

/-- The window `signedSubmission[1, 4)`. -/
def signedWindow : List Int := [-3, 7, -2147483648]

/-- The polynomial `data[start] * 31 ^ 0 + ... + data[start + length - 1] * 31 ^ (length - 1)`
over the integers. -/
def polynomial (data : List Int) (start : Nat) : Nat → Int
  | 0 => 0
  | length + 1 => polynomial data start length + data.getD (start + length) 0 * 31 ^ length

/-- The values that the iterations of `computeSegmentHash` compute before any reduction:
`data[start + i] * primePower` with the token converted to `size_t`, the running sum
`hashValue + ...`, and `primePower * primeBase`, as natural numbers. -/
def hashIntermediates (data : List Int) (start : Nat) : List Nat → Nat × Nat → List Nat
  | [], _ => []
  | i :: rest, hp =>
    match data[start + i]? with
    | none => []
    | some x =>
      toU64 x * hp.2 :: (hp.1 + mulU64 (toU64 x) hp.2 % modulus) :: hp.2 * primeBase ::
        hashIntermediates data start rest
          (addU64 hp.1 (mulU64 (toU64 x) hp.2 % modulus) % modulus,
            mulU64 hp.2 primeBase % modulus)

/-- A sequence with a negative token in its second position. -/
def negativeSubmission : List Int := [0, -1]

/-- A submission of 30 tokens that starts with the token `1000000008`. -/
def wrappedSubmission1 : List Int := [1000000008] ++ tokens 1 29

/-- The submission `wrappedSubmission1` with the token `-1` in place of `1000000008`, to
which it is congruent modulo 1000000009. -/
def wrappedSubmission2 : List Int := [-1] ++ tokens 1 29

/-- Fault-free reading of one iteration of the loop over the windows of `A` that also
records the confirmed match `(i, j, len)` in a list; the state is that of `stepWindow`. -/
def traceWindow (A B : List Int) (len : Nat) (sl : ExactState × List (Nat × Nat × Nat))
    (i : Nat) : ExactState × List (Nat × Nat × Nat) :=
  if (List.range' i len).any (fun k => decide (sl.1.usedInSubmission1[k]? = some true)) then sl
  else
    match (List.range (B.length + 1 - len)).find?
        (fun j => decide (Claimable A B sl.1.usedInSubmission2 i len j)) with
    | some j => (claim sl.1 i j len, sl.2 ++ [(i, j, len)])
    | none => sl

/-- Fault-free reading of `detectLength` with the list of the confirmed matches. -/
def traceLength (A B : List Int) (sl : ExactState × List (Nat × Nat × Nat)) (len : Nat) :
    ExactState × List (Nat × Nat × Nat) :=
  (List.range (A.length + 1 - len)).foldl (traceWindow A B len) sl

/-- Fault-free reading of `detectExactMatches` with the list of the confirmed matches
`(i, j, len)`, in the order in which they are confirmed. -/
def exactTrace (A B : List Int) (st : ExactState) : ExactState × List (Nat × Nat × Nat) :=
  candidateLengths.foldl (traceLength A B) (st, [])

/-- The invariant of `detectExactMatches` started from all-unused masks: what the masks and
the total say about the confirmed matches. -/
structure TraceInv (A B : List Int) (sl : ExactState × List (Nat × Nat × Nat)) : Prop where
  fit : MasksFit A B sl.1
  run : ∀ m ∈ sl.2, 10 ≤ m.2.2 ∧ m.2.2 ≤ 20 ∧ CommonRun A B m.1 m.2.1 m.2.2
  used1 : ∀ p, sl.1.usedInSubmission1[p]? = some true ↔
    ∃ m ∈ sl.2, m.1 ≤ p ∧ p < m.1 + m.2.2
  used2 : ∀ p, sl.1.usedInSubmission2[p]? = some true ↔
    ∃ m ∈ sl.2, m.2.1 ≤ p ∧ p < m.2.1 + m.2.2
  disjoint : sl.2.Pairwise (fun m m' => m.1 + m.2.2 ≤ m'.1 ∨ m'.1 + m'.2.2 ≤ m.1)
  total : sl.1.totalExactMatchLength = ((sl.2.map (fun m => m.2.2)).sum : Nat)
  count : sl.1.totalExactMatchLength = (sl.1.usedInSubmission1.count true : Nat)

/-- A submission of 45 equal tokens. -/
def constantSubmission : List Int := List.replicate 45 7

/-- The state in which the first `m` positions of both masks, of length `n`, are used, no
other position is, and the total is `m`. -/
def PrefixUsed (n m : Nat) (st : ExactState) : Prop :=
  st.usedInSubmission1.length = n ∧ st.usedInSubmission2.length = n ∧
  (∀ p, p < n → st.usedInSubmission1[p]? = some (decide (p < m))) ∧
  (∀ p, p < n → st.usedInSubmission2[p]? = some (decide (p < m))) ∧
  st.totalExactMatchLength = (m : Int)

/-- The matches of `k` consecutive windows of length `len` from the offset `m` on, each with
the window of the same offset: `(m, m, len), (m + len, m + len, len), ...`. -/
def tiles (m len k : Nat) : List (Nat × Nat × Nat) :=
  (List.range k).map (fun t => (m + len * t, m + len * t, len))

/-- The state of a self-comparison of `n` tokens after the stage of the length 20 and of the
lengths down to `l + 1`: either the remainder after the windows of length 20 has at most `l`
tokens and is unclaimed, or it has more and has been claimed as one window. -/
def Tail (n l : Nat) (sl : ExactState × List (Nat × Nat × Nat)) : Prop :=
  (n % 20 ≤ l ∧ PrefixUsed n (n - n % 20) sl.1 ∧ sl.2 = tiles 0 20 (n / 20)) ∨
  (l < n % 20 ∧ PrefixUsed n n sl.1 ∧
    sl.2 = tiles 0 20 (n / 20) ++ [(n - n % 20, n - n % 20, n % 20)])

/-- A shared run of 20 pairwise distinct tokens followed by 84 tokens of its own. -/
def runSubmission1 : List Int := tokens 0 20 ++ tokens 1000 84

/-- The shared run of `runSubmission1` followed by 84 other tokens. -/
def runSubmission2 : List Int := tokens 0 20 ++ tokens 2000 84

/-- The submission `runSubmission1` with the token 500 inserted after the shared run. -/
def longerRunSubmission1 : List Int := tokens 0 20 ++ [500] ++ tokens 1000 84

/-- The submission `runSubmission2` with the token 500 inserted after the shared run. -/
def longerRunSubmission2 : List Int := tokens 0 20 ++ [500] ++ tokens 2000 84

/-- A run of 15 tokens and a run of 5 tokens. -/
def straddleSubmission1 : List Int := tokens 0 15 ++ tokens 100 5

/-- The first run, a separator, and both runs of `straddleSubmission1` in a row. -/
def straddleSubmission2 : List Int := tokens 0 15 ++ [900] ++ tokens 0 15 ++ tokens 100 5

/-- The submission `straddleSubmission1` with the token 500 inserted after the first run. -/
def longerStraddleSubmission1 : List Int := tokens 0 15 ++ [500] ++ tokens 100 5

/-- The submission `straddleSubmission2` with the token 500 inserted after the first run. -/
def longerStraddleSubmission2 : List Int :=
  tokens 0 15 ++ [500] ++ [900] ++ tokens 0 15 ++ tokens 100 5

/-- Every position of `A` whose token occurs in `B` lies in `[a, a + c)`. -/
def SharedWithin (A B : List Int) (a c : Nat) : Prop :=
  ∀ p q : Nat, p < A.length → q < B.length → A[p]? = B[q]? → a ≤ p ∧ p < a + c

/-! # Verification -/

set_option maxRecDepth 100000

/-! ## Binary64 rounding -/

theorem excessBits_spec (fuel : Nat) : ∀ N : Nat, N ≤ fuel →
    N < 2 ^ (53 + excessBits fuel N) ∧
      (excessBits fuel N ≠ 0 → 2 ^ (52 + excessBits fuel N) ≤ N) := by
  induction fuel with
  | zero =>
    intro N h
    have : N = 0 := by omega
    subst this
    simp [excessBits]
  | succ fuel ih =>
    intro N h
    unfold excessBits
    by_cases hN : N < 2 ^ 53
    · rw [if_pos hN]; exact ⟨hN, fun h => absurd rfl h⟩
    · rw [if_neg hN]
      have h2 : N / 2 ≤ fuel := by
        have : 0 < N := by
          rcases Nat.eq_zero_or_pos N with h0 | h0
          · subst h0; simp at hN
          · exact h0
        omega
      obtain ⟨ih1, ih2⟩ := ih (N / 2) h2
      have e1 : 2 ^ (53 + (excessBits fuel (N / 2) + 1)) = 2 * 2 ^ (53 + excessBits fuel (N / 2)) := by
        rw [← Nat.add_assoc, Nat.pow_succ]; ring
      have e2 : 2 ^ (52 + (excessBits fuel (N / 2) + 1)) = 2 * 2 ^ (52 + excessBits fuel (N / 2)) := by
        rw [← Nat.add_assoc, Nat.pow_succ]; ring
      refine ⟨by rw [e1]; omega, fun _ => ?_⟩
      rw [e2]
      by_cases hs : excessBits fuel (N / 2) = 0
      · rw [hs]; simp at hN ⊢; omega
      · have := ih2 hs; omega

/-- Either nothing is dropped and the number is below `2 ^ 53`, or `s ≥ 1` bits are dropped
and the number lies in `[2 ^ (52 + s), 2 ^ (53 + s))`. -/
theorem excessBits_cases (N : Nat) :
    (excessBits N N = 0 ∧ N < 2 ^ 53) ∨
      (1 ≤ excessBits N N ∧ 2 ^ (52 + excessBits N N) ≤ N ∧ N < 2 ^ (53 + excessBits N N)) := by
  obtain ⟨h1, h2⟩ := excessBits_spec N N (Nat.le_refl N)
  by_cases hs : excessBits N N = 0
  · left; rw [hs] at h1; exact ⟨hs, by simpa using h1⟩
  · right; exact ⟨by omega, h2 hs, h1⟩

theorem two_pow_pred {s : Nat} (hs : 1 ≤ s) : 2 ^ s = 2 * 2 ^ (s - 1) := by
  conv_lhs => rw [show s = (s - 1) + 1 by omega]
  rw [Nat.pow_succ]; ring

theorem round53_of_lt {N : Nat} (h : N < 2 ^ 53) : round53 N = N := by
  rcases excessBits_cases N with ⟨h0, _⟩ | ⟨h1, h2, _⟩
  · simp [round53, h0]
  · exfalso
    have : 2 ^ 53 ≤ 2 ^ (52 + excessBits N N) := Nat.pow_le_pow_right (by norm_num) (by omega)
    omega

/-- Rounding never goes below a multiple of the dropped power of two that is below the number. -/
theorem le_round53 {N K : Nat} (hK : 2 ^ excessBits N N ∣ K) (hle : K ≤ N) : K ≤ round53 N := by
  unfold round53
  simp only
  generalize excessBits N N = s at *
  split
  · exact hle
  · obtain ⟨c, rfl⟩ := hK
    have hpos : 0 < 2 ^ s := Nat.pow_pos (by norm_num)
    have hq : c ≤ N / 2 ^ s := by
      rw [Nat.le_div_iff_mul_le hpos]; rw [Nat.mul_comm]; exact hle
    split
    · calc 2 ^ s * c = c * 2 ^ s := Nat.mul_comm _ _
        _ ≤ (N / 2 ^ s + 1) * 2 ^ s := Nat.mul_le_mul_right _ (by omega)
    · calc 2 ^ s * c = c * 2 ^ s := Nat.mul_comm _ _
        _ ≤ (N / 2 ^ s) * 2 ^ s := Nat.mul_le_mul_right _ hq

/-- Rounding moves a number up by at most half of the dropped power of two. -/
theorem round53_le (N : Nat) : round53 N ≤ N + 2 ^ (excessBits N N - 1) := by
  unfold round53
  simp only
  generalize excessBits N N = s at *
  split
  · exact Nat.le_add_right _ _
  · rename_i hs
    have e := two_pow_pred (show 1 ≤ s by omega)
    have hpos : 0 < 2 ^ s := Nat.pow_pos (by norm_num)
    have hdm := Nat.div_add_mod N (2 ^ s)
    have hmod := Nat.mod_lt N hpos
    have hmul : 2 ^ s * (N / 2 ^ s) = N / 2 ^ s * 2 ^ s := Nat.mul_comm _ _
    generalize 2 ^ s = P at *
    generalize 2 ^ (s - 1) = H at *
    generalize N / P = q at *
    generalize N % P = r at *
    split
    · rename_i hr
      rw [Nat.add_mul, Nat.one_mul]
      rcases hr with hr | ⟨hr, _⟩ <;> omega
    · omega

/-- A number just below a multiple of the dropped power of two is rounded up to it. -/
theorem round53_eq_of_near {N K : Nat} (hs : 1 ≤ excessBits N N) (hK : 2 ^ excessBits N N ∣ K)
    (hlt : N < K) (hnear : K - N < 2 ^ (excessBits N N - 1)) : round53 N = K := by
  unfold round53
  simp only
  generalize excessBits N N = s at *
  have hpos : 0 < 2 ^ s := Nat.pow_pos (by norm_num)
  have e := two_pow_pred hs
  obtain ⟨c, rfl⟩ := hK
  have hc : 1 ≤ c := by
    rcases Nat.eq_zero_or_pos c with h0 | h0
    · subst h0; simp at hlt
    · exact h0
  have hcm : 2 ^ s * c = 2 ^ s * (c - 1) + 2 ^ s := by
    conv_lhs => rw [show c = (c - 1) + 1 by omega]
    rw [Nat.mul_add, Nat.mul_one]
  have hqr : N / 2 ^ s = c - 1 ∧ N % 2 ^ s = 2 ^ s - (2 ^ s * c - N) := by
    rw [Nat.div_mod_unique hpos]
    generalize 2 ^ s = P at *
    generalize 2 ^ (s - 1) = H at *
    generalize P * c = X at *
    generalize P * (c - 1) = Y at *
    omega
  rw [if_neg (by omega), if_pos (Or.inl (by rw [hqr.2]; omega)), hqr.1]
  rw [show c - 1 + 1 = c by omega, Nat.mul_comm]

/-- The threshold `static_cast<int>(minSubmissionSize * 0.2)` is `minSubmissionSize / 5`. -/
theorem trunc_mul_c02 {m : Nat} (hm : m < 2 ^ 31) :
    F64.trunc (F64.mul (F64.ofNat m) F64.c02) = .ok ((m / 5 : Nat) : Int) := by
  simp only [F64.ofNat, F64.c02, F64.mul, F64.trunc]
  congr 2
  generalize hN : m * 3602879701896397 = N
  have hlow : m / 5 * 2 ^ 54 ≤ round53 N := by
    apply le_round53
    · rcases excessBits_cases N with ⟨h0, _⟩ | ⟨h1, h2, _⟩
      · rw [h0]; simp
      · have hs : excessBits N N ≤ 54 := by
          by_contra hcon
          have : 2 ^ (52 + 55) ≤ 2 ^ (52 + excessBits N N) :=
            Nat.pow_le_pow_right (by norm_num) (by omega)
          norm_num at this hm
          omega
        exact Dvd.dvd.mul_left (Nat.pow_dvd_pow 2 hs) _
    · norm_num; omega
  have hup : round53 N < (m / 5 + 1) * 2 ^ 54 := by
    have h1 := round53_le N
    have h2 : 2 ^ (excessBits N N - 1) ≤ 2 ^ 31 := by
      rcases excessBits_cases N with ⟨h0, _⟩ | ⟨h1, h2, _⟩
      · rw [h0]; norm_num
      · apply Nat.pow_le_pow_right (by norm_num)
        by_contra hcon
        have : 2 ^ (52 + 33) ≤ 2 ^ (52 + excessBits N N) :=
          Nat.pow_le_pow_right (by norm_num) (by omega)
        norm_num at this hm
        omega
    generalize 2 ^ (excessBits N N - 1) = H at *
    norm_num at h2 hm ⊢
    omega
  rw [Nat.zero_add]
  apply Nat.div_eq_of_lt_le
  · rw [Nat.mul_comm] at hlow; rw [Nat.mul_comm]; exact hlow
  · rw [Nat.mul_comm] at hup; rw [Nat.mul_comm]; exact hup


theorem excessBits_le_of_lt {N b : Nat} (h : N < 2 ^ (52 + (b + 1))) : excessBits N N ≤ b := by
  rcases excessBits_cases N with ⟨h0, _⟩ | ⟨_, h2, _⟩
  · omega
  · by_contra hcon
    have : 2 ^ (52 + (b + 1)) ≤ 2 ^ (52 + excessBits N N) :=
      Nat.pow_le_pow_right (by norm_num) (by omega)
    omega

/-- The threshold `static_cast<int>(minSubmissionSize * 0.3)` is `3 * minSubmissionSize / 10`,
although the literal `0.3` is below three tenths. -/
theorem trunc_mul_c03 {m : Nat} (hm : m < 2 ^ 31) :
    F64.trunc (F64.mul (F64.ofNat m) F64.c03) = .ok ((3 * m / 10 : Nat) : Int) := by
  simp only [F64.ofNat, F64.c03, F64.mul, F64.trunc]
  congr 2
  generalize hN : m * 5404319552844595 = N
  have hs54 : excessBits N N ≤ 54 := by
    apply excessBits_le_of_lt
    norm_num at hm ⊢; omega
  have hdvd : 2 ^ excessBits N N ∣ 3 * m / 10 * 2 ^ 54 :=
    Dvd.dvd.mul_left (Nat.pow_dvd_pow 2 hs54) _
  rw [Nat.zero_add]
  by_cases ht : 3 * m % 10 = 0 ∧ 0 < m
  · -- the exact product is just below a multiple of `2 ^ 54` and is rounded up to it
    have hK : round53 N = 3 * m / 10 * 2 ^ 54 := by
      rcases excessBits_cases N with ⟨h0, h53⟩ | ⟨h1, h2, h3⟩
      · exfalso; norm_num at h53; omega
      · apply round53_eq_of_near h1 hdvd
        · norm_num; omega
        · have e := two_pow_pred h1
          have e3 : 2 ^ (53 + excessBits N N) = 2 ^ 53 * 2 ^ excessBits N N := Nat.pow_add 2 53 _
          rw [e3, e] at h3
          generalize 2 ^ (excessBits N N - 1) = H at *
          norm_num at h3 ⊢
          omega
    rw [hK]; exact Nat.mul_div_cancel _ (by norm_num)
  · have hlow : 3 * m / 10 * 2 ^ 54 ≤ round53 N := by
      apply le_round53 hdvd
      norm_num; omega
    have hup : round53 N < (3 * m / 10 + 1) * 2 ^ 54 := by
      have h1 := round53_le N
      have h2 : 2 ^ (excessBits N N - 1) ≤ 2 ^ 31 := by
        apply Nat.pow_le_pow_right (by norm_num)
        have : excessBits N N ≤ 31 := by
          apply excessBits_le_of_lt
          norm_num at hm ⊢; omega
        omega
      generalize 2 ^ (excessBits N N - 1) = H at *
      norm_num at h2 hm ⊢
      omega
    apply Nat.div_eq_of_lt_le
    · rw [Nat.mul_comm] at hlow; rw [Nat.mul_comm]; exact hlow
    · rw [Nat.mul_comm] at hup; rw [Nat.mul_comm]; exact hup

/-- The test `currentPatternLength >= windowSize * matchThreshold` holds whenever the window
size is the pattern length. -/
theorem ge_mul_c08 (w : Nat) :
    F64.ge (F64.ofNat w) (F64.mul (F64.ofNat w) F64.c08) = true := by
  simp only [F64.ofNat, F64.c08, F64.mul, F64.ge, decide_eq_true_eq]
  generalize hN : w * 3602879701896397 = N
  have h1 := round53_le N
  rcases excessBits_cases N with ⟨h0, h53⟩ | ⟨hs, h2, h3⟩
  · rw [round53_of_lt h53]; norm_num; omega
  · have e := two_pow_pred hs
    have e2 : 2 ^ (52 + excessBits N N) = 2 ^ 52 * 2 ^ excessBits N N := Nat.pow_add 2 52 _
    rw [e2, e] at h2
    generalize 2 ^ (excessBits N N - 1) = H at *
    norm_num at h2 ⊢
    omega

/-- The test `similarityScore >= 0.8` on a window of 30 tokens holds from 24 agreeing
positions on. -/
theorem similarity_ge_c08 : ∀ k ≤ 30, F64.ge (F64.divNat k 30) F64.c08 = decide (24 ≤ k) := by
  decide

/-! ## Checked accesses and the `Except` monad -/

@[simp] theorem ok_bind {α β : Type} (x : α) (f : α → Except Fault β) :
    (Except.ok x >>= f) = f x := rfl

@[simp] theorem error_bind {α β : Type} (e : Fault) (f : α → Except Fault β) :
    ((Except.error e : Except Fault α) >>= f) = Except.error e := rfl

@[simp] theorem pure_eq_ok {α : Type} (x : α) : (pure x : Except Fault α) = Except.ok x := rfl

theorem readAt_of_lt {α : Type} {xs : List α} {i : Nat} (h : i < xs.length) :
    readAt xs i = .ok xs[i] := by
  simp [readAt, List.getElem?_eq_getElem h]

theorem readAt_eq_ok_iff {α : Type} {xs : List α} {i : Nat} {x : α} :
    readAt xs i = .ok x ↔ xs[i]? = some x := by
  unfold readAt
  cases h : xs[i]? <;> simp

theorem writeAt_of_lt {α : Type} {xs : List α} {i : Nat} (v : α) (h : i < xs.length) :
    writeAt xs i v = .ok (xs.set i v) := by
  simp [writeAt, h]

/-! ## Segment comparison and hashing -/

theorem hashLoop_total (data : List Int) (start : Nat) :
    ∀ (is : List Nat) (hp : Nat × Nat), (∀ i ∈ is, start + i < data.length) →
      ∃ r, hashLoop data start is hp = .ok r := by
  intro is
  induction is with
  | nil => intro hp _; exact ⟨hp, rfl⟩
  | cons i rest ih =>
    intro hp h
    have hi := h i (List.mem_cons_self _ _)
    simp only [hashLoop, readAt_of_lt hi, ok_bind]
    exact ih _ (fun k hk => h k (List.mem_cons_of_mem _ hk))

theorem computeSegmentHash_total {data : List Int} {start length : Nat}
    (h : start + length ≤ data.length) : ∃ r, computeSegmentHash data start length = .ok r := by
  obtain ⟨r, hr⟩ := hashLoop_total data start (List.range length) (0, 1)
    (fun i hi => by have := List.mem_range.1 hi; omega)
  exact ⟨r.1, by simp [computeSegmentHash, hr]⟩

theorem isExactMatchLoop_spec (data1 data2 : List Int) (start1 start2 : Nat) :
    ∀ (is : List Nat), (∀ i ∈ is, start1 + i < data1.length ∧ start2 + i < data2.length) →
      isExactMatchLoop data1 data2 start1 start2 is =
        .ok (decide (∀ i ∈ is, data1[start1 + i]? = data2[start2 + i]?)) := by
  intro is
  induction is with
  | nil => intro _; simp [isExactMatchLoop]
  | cons i rest ih =>
    intro h
    obtain ⟨h1, h2⟩ := h i (List.mem_cons_self _ _)
    have ih' := ih (fun k hk => h k (List.mem_cons_of_mem _ hk))
    simp only [isExactMatchLoop, readAt_of_lt h1, readAt_of_lt h2, ok_bind]
    by_cases heq : data1[start1 + i] = data2[start2 + i]
    · simp [heq, ih', List.getElem?_eq_getElem h1, List.getElem?_eq_getElem h2]
    · simp [heq, List.getElem?_eq_getElem h1, List.getElem?_eq_getElem h2]

theorem isExactMatch_spec {data1 data2 : List Int} {start1 start2 length : Nat}
    (h1 : start1 + length ≤ data1.length) (h2 : start2 + length ≤ data2.length) :
    isExactMatch data1 data2 start1 start2 length =
      .ok (decide (∀ k < length, data1[start1 + k]? = data2[start2 + k]?)) := by
  unfold isExactMatch
  rw [isExactMatchLoop_spec]
  · simp
  · intro i hi; have := List.mem_range.1 hi; omega

theorem countMatches_spec (segment1 segment2 : List Int) (start1 start2 : Nat) :
    ∀ (is : List Nat) (acc : Nat),
      (∀ i ∈ is, start1 + i < segment1.length ∧ start2 + i < segment2.length) →
      countMatches segment1 segment2 start1 start2 is acc =
        .ok (acc + is.countP (fun i => decide (segment1[start1 + i]? = segment2[start2 + i]?))) := by
  intro is
  induction is with
  | nil => intro acc _; simp [countMatches]
  | cons i rest ih =>
    intro acc h
    obtain ⟨h1, h2⟩ := h i (List.mem_cons_self _ _)
    have ih' := fun acc => ih acc (fun k hk => h k (List.mem_cons_of_mem _ hk))
    simp only [countMatches, readAt_of_lt h1, readAt_of_lt h2, ok_bind, ih']
    by_cases heq : segment1[start1 + i] = segment2[start2 + i]
    · simp [heq, List.getElem?_eq_getElem h1, List.getElem?_eq_getElem h2, List.countP_cons]
      omega
    · simp [heq, List.getElem?_eq_getElem h1, List.getElem?_eq_getElem h2, List.countP_cons]

theorem calculateSimilarity_spec {segment1 segment2 : List Int} {start1 start2 length : Nat}
    (h1 : start1 + length ≤ segment1.length) (h2 : start2 + length ≤ segment2.length)
    (hl : 0 < length) :
    calculateSimilarity segment1 segment2 start1 start2 length =
      .ok (F64.divNat (agreement segment1 segment2 start1 start2 length) length) := by
  unfold calculateSimilarity
  rw [countMatches_spec]
  · simp [agreement, Nat.pos_iff_ne_zero.1 hl]
  · intro i hi; have := List.mem_range.1 hi; omega

theorem hashLoop_congr (X Y : List Int) (a b : Nat) :
    ∀ (is : List Nat) (hp : Nat × Nat), (∀ i ∈ is, X[a + i]? = Y[b + i]?) →
      hashLoop X a is hp = hashLoop Y b is hp := by
  intro is
  induction is with
  | nil => intro hp _; rfl
  | cons i rest ih =>
    intro hp h
    have hi := h i (List.mem_cons_self _ _)
    have ih' := fun hp => ih hp (fun k hk => h k (List.mem_cons_of_mem _ hk))
    simp only [hashLoop, readAt, hi, ih']

/-- Equal windows have equal fingerprints. -/
theorem computeSegmentHash_congr {X Y : List Int} {a b n : Nat}
    (h : ∀ k < n, X[a + k]? = Y[b + k]?) :
    computeSegmentHash X a n = computeSegmentHash Y b n := by
  unfold computeSegmentHash
  rw [hashLoop_congr X Y a b (List.range n) (0, 1) (fun i hi => h i (List.mem_range.1 hi))]

/-! ## The exact-match detector -/

theorem markRange_length (used : List Bool) (start : Nat) :
    ∀ ks : List Nat, (markRange used start ks).length = used.length := by
  intro ks
  induction ks generalizing used with
  | nil => rfl
  | cons k rest ih => simp [markRange, List.foldl_cons] at ih ⊢; rw [ih]; simp

theorem markUsed_spec (i j : Nat) :
    ∀ (ks : List Nat) (masks : List Bool × List Bool),
      (∀ k ∈ ks, i + k < masks.1.length ∧ j + k < masks.2.length) →
      markUsed i j ks masks = .ok (markRange masks.1 i ks, markRange masks.2 j ks) := by
  intro ks
  induction ks with
  | nil => intro masks _; rfl
  | cons k rest ih =>
    intro masks h
    obtain ⟨h1, h2⟩ := h k (List.mem_cons_self _ _)
    simp only [markUsed, writeAt_of_lt _ h1, writeAt_of_lt _ h2, ok_bind]
    rw [ih]
    · rfl
    · intro k' hk'
      have := h k' (List.mem_cons_of_mem _ hk')
      simpa using this

theorem windowUsed_spec (used : List Bool) :
    ∀ ks : List Nat, (∀ k ∈ ks, k < used.length) →
      windowUsed used ks = .ok (ks.any (fun k => decide (used[k]? = some true))) := by
  intro ks
  induction ks with
  | nil => intro _; rfl
  | cons k rest ih =>
    intro h
    have hk := h k (List.mem_cons_self _ _)
    have ih' := ih (fun k' hk' => h k' (List.mem_cons_of_mem _ hk'))
    simp only [windowUsed, readAt_of_lt hk, ok_bind, List.any_cons, List.getElem?_eq_getElem hk]
    cases hu : used[k] <;> simp [ih']

theorem fillHashes_spec (B : List Int) (len : Nat) :
    ∀ (js : List Nat) (hashes : List Nat), js.Nodup →
      (∀ j ∈ js, j + len ≤ B.length ∧ j < hashes.length) →
      ∃ hs, fillHashes B len js hashes = .ok hs ∧ hs.length = hashes.length ∧
        (∀ j, j ∉ js → hs[j]? = hashes[j]?) ∧
        (∀ j ∈ js, ∃ h, computeSegmentHash B j len = .ok h ∧ hs[j]? = some h) := by
  intro js
  induction js with
  | nil => intro hashes _ _; exact ⟨hashes, rfl, rfl, fun _ _ => rfl, fun _ h => absurd h (List.not_mem_nil _)⟩
  | cons j rest ih =>
    intro hashes hnd h
    obtain ⟨h1, h2⟩ := h j (List.mem_cons_self _ _)
    obtain ⟨hj, hjr⟩ := computeSegmentHash_total h1
    have hnd' := (List.nodup_cons.1 hnd)
    obtain ⟨hs, e1, e2, e3, e4⟩ := ih (hashes.set j hj) hnd'.2 (fun j' hj' => by
      have := h j' (List.mem_cons_of_mem _ hj')
      simpa using this)
    refine ⟨hs, ?_, ?_, ?_, ?_⟩
    · simp only [fillHashes, hjr, ok_bind, writeAt_of_lt _ h2, e1]
    · simpa using e2
    · intro j' hj'
      rw [List.mem_cons, not_or] at hj'
      rw [e3 j' hj'.2, List.getElem?_set_ne (Ne.symm hj'.1)]
    · intro j' hj'
      rcases List.mem_cons.1 hj' with rfl | hj'
      · refine ⟨hj, hjr, ?_⟩
        rw [e3 _ hnd'.1, List.getElem?_set_eq_of_lt _ h2]
      · exact e4 j' hj'

theorem claim_masksFit {A B : List Int} {st : ExactState} (h : MasksFit A B st) (i j len : Nat) :
    MasksFit A B (claim st i j len) := by
  unfold MasksFit claim
  simp only [markRange_length]
  exact h

theorem claimFirst_masksFit {A B : List Int} {st : ExactState} (h : MasksFit A B st)
    (i len : Nat) (js : List Nat) : MasksFit A B (claimFirst A B st i len js) := by
  unfold claimFirst
  split
  · exact claim_masksFit h _ _ _
  · exact h

theorem stepWindow_masksFit {A B : List Int} {st : ExactState} (h : MasksFit A B st)
    (len i : Nat) : MasksFit A B (stepWindow A B len st i) := by
  unfold stepWindow
  split
  · exact h
  · exact claimFirst_masksFit h _ _ _

theorem foldl_stepWindow_masksFit {A B : List Int} (len : Nat) :
    ∀ (is : List Nat) (st : ExactState), MasksFit A B st →
      MasksFit A B (is.foldl (stepWindow A B len) st) := by
  intro is
  induction is with
  | nil => intro st h; exact h
  | cons i rest ih => intro st h; exact ih _ (stepWindow_masksFit h len i)

theorem stepLength_masksFit {A B : List Int} {st : ExactState} (h : MasksFit A B st)
    (len : Nat) : MasksFit A B (stepLength A B st len) :=
  foldl_stepWindow_masksFit len _ st h

theorem scanSubmission2_spec {A B : List Int} {hashes : List Nat} {hash1 i len : Nat}
    {st : ExactState} (hlen : 1 ≤ len) (hi : i + len ≤ A.length) (hfit : MasksFit A B st)
    (hh : computeSegmentHash A i len = .ok hash1)
    (htab : ∀ j, j + len ≤ B.length →
      ∃ h, computeSegmentHash B j len = .ok h ∧ hashes[j]? = some h) :
    ∀ js : List Nat, (∀ j ∈ js, j + len ≤ B.length) →
      scanSubmission2 A B hashes hash1 i len js st = .ok (claimFirst A B st i len js) := by
  intro js
  induction js with
  | nil => intro _; rfl
  | cons j rest ih =>
    intro h
    have hj := h j (List.mem_cons_self _ _)
    have ih' := ih (fun k hk => h k (List.mem_cons_of_mem _ hk))
    have hj2 : j < st.usedInSubmission2.length := by rw [hfit.2]; omega
    obtain ⟨hv, hB, htj⟩ := htab j hj
    simp only [scanSubmission2, readAt_of_lt hj2, ok_bind, claimFirst, List.find?_cons] at ih' ⊢
    by_cases hu : st.usedInSubmission2[j] = true
    · have hnot : ¬ Claimable A B st.usedInSubmission2 i len j := by
        intro hc
        have := hc.1
        rw [List.getElem?_eq_getElem hj2, hu] at this
        simp at this
      simp only [hu, if_true, hnot, decide_False, ih']
    · have hu' : st.usedInSubmission2[j]? = some false := by
        rw [List.getElem?_eq_getElem hj2]; simpa using hu
      simp only [hu, Bool.false_eq_true, if_false, readAt_eq_ok_iff.2 htj, ok_bind]
      by_cases hne : hash1 = hv
      · subst hne
        simp only [ne_eq, not_true_eq_false, if_false, isExactMatch_spec hi hj, ok_bind]
        by_cases heq : ∀ k < len, A[i + k]? = B[j + k]?
        · have hc : Claimable A B st.usedInSubmission2 i len j := ⟨hu', heq⟩
          simp only [hc, decide_True]
          rw [if_pos (decide_eq_true heq), markUsed_spec]
          · rfl
          · intro k hk
            have := List.mem_range.1 hk
            rw [hfit.1, hfit.2]; omega
        · have hnot : ¬ Claimable A B st.usedInSubmission2 i len j := fun hc => heq hc.2
          rw [if_neg (fun h => heq (of_decide_eq_true h))]
          simp only [hnot, decide_False, ih']
      · have hnot : ¬ Claimable A B st.usedInSubmission2 i len j := by
          intro hc
          have := computeSegmentHash_congr hc.2
          rw [hh, hB] at this
          exact hne (Except.ok.inj this)
        simp only [ne_eq, hne, not_false_eq_true, if_true, hnot, decide_False, ih']

theorem scanSubmission1_spec {A B : List Int} {hashes : List Nat} {len : Nat} (hlen : 1 ≤ len)
    (htab : ∀ j, j + len ≤ B.length →
      ∃ h, computeSegmentHash B j len = .ok h ∧ hashes[j]? = some h) :
    ∀ (is : List Nat) (st : ExactState), (∀ i ∈ is, i + len ≤ A.length) → MasksFit A B st →
      scanSubmission1 A B hashes len is st = .ok (is.foldl (stepWindow A B len) st) := by
  intro is
  induction is with
  | nil => intro st _ _; rfl
  | cons i rest ih =>
    intro st h hfit
    have hi := h i (List.mem_cons_self _ _)
    have ih' := fun st hst => ih st (fun k hk => h k (List.mem_cons_of_mem _ hk)) hst
    have hw := windowUsed_spec st.usedInSubmission1 (List.range' i len) (fun k hk => by
      have := List.mem_range'_1.1 hk
      rw [hfit.1]; omega)
    simp only [scanSubmission1, hw, ok_bind, List.foldl_cons]
    by_cases hany : (List.range' i len).any
        (fun k => decide (st.usedInSubmission1[k]? = some true)) = true
    · have e : stepWindow A B len st i = st := by unfold stepWindow; rw [if_pos hany]
      rw [e, if_pos hany]
      exact ih' st hfit
    · obtain ⟨hash1, hh⟩ := computeSegmentHash_total hi
      rw [if_neg hany]
      simp only [hh, ok_bind]
      rw [scanSubmission2_spec hlen hi hfit hh htab _ (fun j hj => by
        have := List.mem_range.1 hj; omega)]
      simp only [ok_bind]
      have e : stepWindow A B len st i =
          claimFirst A B st i len (List.range (B.length + 1 - len)) := by
        unfold stepWindow; rw [if_neg hany]
      rw [e]
      apply ih'
      rw [← e]
      exact stepWindow_masksFit hfit len i

/-- The size of the table `hashesForSubmission2`, when the unsigned subtraction does not
wrap below zero. -/
theorem tableSize_eq {n len : Nat} (h1 : len ≤ n + 1) (h2 : n < 2 ^ 60 - 1) :
    vectorNew (addU64 (subU64 n len) 1) = .ok (List.replicate (n + 1 - len) 0) := by
  have e : addU64 (subU64 n len) 1 = n + 1 - len := by
    simp only [addU64, subU64, U64]
    norm_num at h2 ⊢
    omega
  rw [e]
  unfold vectorNew vectorMaxSize
  rw [if_neg (by omega)]

/-- The table request that wraps around: fewer than `len - 1` tokens in `submission2`. -/
theorem tableSize_error {n len : Nat} (h1 : n + 1 < len) (h2 : len ≤ 20) :
    vectorNew (addU64 (subU64 n len) 1) = .error .lengthError := by
  have e : addU64 (subU64 n len) 1 = n + 2 ^ 64 + 1 - len := by
    simp only [addU64, subU64, U64]
    norm_num
    omega
  rw [e]
  unfold vectorNew vectorMaxSize
  rw [if_pos (by norm_num; omega)]

theorem detectLength_spec {A B : List Int} {st : ExactState} {len : Nat} (hlen : 1 ≤ len)
    (h1 : len ≤ B.length + 1) (h2 : B.length < 2 ^ 60 - 1) (hfit : MasksFit A B st) :
    detectLength A B st len = .ok (stepLength A B st len) := by
  unfold detectLength
  rw [tableSize_eq h1 h2]
  simp only [ok_bind]
  obtain ⟨hs, e1, e2, _, e4⟩ := fillHashes_spec B len (List.range (B.length + 1 - len))
    (List.replicate (B.length + 1 - len) 0) (List.nodup_range _) (fun j hj => by
      have := List.mem_range.1 hj
      simp only [List.length_replicate]; omega)
  rw [e1]
  simp only [ok_bind]
  rw [scanSubmission1_spec hlen (fun j hj => e4 j (List.mem_range.2 (by omega))) _ st
    (fun i hi => by have := List.mem_range.1 hi; omega) hfit]
  rfl

theorem foldlM_detectLength {A B : List Int} (h1 : 19 ≤ B.length) (h2 : B.length < 2 ^ 60 - 1) :
    ∀ (lens : List Nat) (st : ExactState), (∀ len ∈ lens, 1 ≤ len ∧ len ≤ 20) →
      MasksFit A B st →
      lens.foldlM (detectLength A B) st = .ok (lens.foldl (stepLength A B) st) := by
  intro lens
  induction lens with
  | nil => intro st _ _; rfl
  | cons len rest ih =>
    intro st h hfit
    obtain ⟨ha, hb⟩ := h len (List.mem_cons_self _ _)
    rw [List.foldlM_cons, detectLength_spec ha (by omega) h2 hfit]
    simp only [ok_bind, List.foldl_cons]
    exact ih _ (fun k hk => h k (List.mem_cons_of_mem _ hk)) (stepLength_masksFit hfit len)

/-- With at least 19 tokens in `submission2`, `detectExactMatches` completes and computes its
fault-free reading. -/
theorem detectExactMatches_eq {A B : List Int} {st : ExactState} (h1 : 19 ≤ B.length)
    (h2 : B.length < 2 ^ 60 - 1) (hfit : MasksFit A B st) :
    detectExactMatches A B st = .ok (exactMatches A B st) := by
  unfold detectExactMatches exactMatches
  apply foldlM_detectLength h1 h2 _ _ _ hfit
  intro len hlen
  simp only [candidateLengths, List.mem_cons, List.mem_singleton, List.not_mem_nil,
    or_false] at hlen
  omega

/-- With fewer than 19 tokens in `submission2`, the first table request of
`detectExactMatches` throws. -/
theorem detectExactMatches_short {A B : List Int} (st : ExactState) (h : B.length < 19) :
    detectExactMatches A B st = .error .lengthError := by
  unfold detectExactMatches candidateLengths
  rw [List.foldlM_cons]
  unfold detectLength
  rw [tableSize_error (by omega) (Nat.le_refl 20)]
  rfl

theorem exactInit_masksFit (A B : List Int) : MasksFit A B (exactInit A.length B.length) := by
  simp [MasksFit, exactInit]

/-! ## The dynamic programme -/

theorem cell_zero_right (A B : List Int) (i : Nat) : cell A B i 0 = 0 := by
  cases i <;> rfl

theorem cell_succ {A B : List Int} {i j : Nat} (hi : i < A.length) (hj : j < B.length) :
    cell A B (i + 1) (j + 1) = if A[i] = B[j] then cell A B i j + 1 else 0 := by
  simp only [cell, List.getElem?_eq_getElem hi, List.getElem?_eq_getElem hj]

theorem cell_nonneg (A B : List Int) : ∀ i j : Nat, 0 ≤ cell A B i j := by
  intro i
  induction i with
  | zero => intro j; simp [cell]
  | succ i ih =>
    intro j
    cases j with
    | zero => simp [cell]
    | succ j =>
      unfold cell
      split
      · split
        · have := ih j; omega
        · exact le_refl _
      · exact le_refl _

theorem cell_le (A B : List Int) : ∀ i j : Nat, cell A B i j ≤ i ∧ cell A B i j ≤ j := by
  intro i
  induction i with
  | zero => intro j; simp [cell]
  | succ i ih =>
    intro j
    cases j with
    | zero => simp [cell]; omega
    | succ j =>
      unfold cell
      split
      · split
        · have := ih j; push_cast; omega
        · push_cast; omega
      · push_cast; omega

theorem seen_succ {n i j i' j' : Nat} (hj : j + 1 ≤ n) :
    Seen n i (j + 1) i' j' ↔ Seen n i j i' j' ∨ (1 ≤ i' ∧ i' = i ∧ j' = j + 1) := by
  unfold Seen
  constructor
  · rintro ⟨h1, h2, h3, h4⟩
    by_cases h : i' = i ∧ j' = j + 1
    · exact Or.inr ⟨h1, h.1, h.2⟩
    · left; refine ⟨h1, h2, h3, ?_⟩; omega
  · rintro (⟨h1, h2, h3, h4⟩ | ⟨h1, h2, h3⟩)
    · refine ⟨h1, h2, h3, ?_⟩; omega
    · refine ⟨h1, by omega, by omega, ?_⟩; omega

theorem seen_row {n i i' j' : Nat} : Seen n (i + 1) 0 i' j' ↔ Seen n i n i' j' := by
  unfold Seen
  constructor
  · rintro ⟨h1, h2, h3, h4⟩; refine ⟨h1, h2, h3, ?_⟩; omega
  · rintro ⟨h1, h2, h3, h4⟩; refine ⟨h1, h2, h3, ?_⟩; omega

theorem best_congr {A B : List Int} {i j k l : Nat} {L s1 s2 : Int}
    (h : ∀ i' j', Seen B.length i j i' j' ↔ Seen B.length k l i' j')
    (hb : Best A B i j L s1 s2) : Best A B k l L s1 s2 := by
  rcases hb with ⟨h1, h2⟩ | ⟨i0, j0, h1, h2, h3, h4, h5, h6, h7⟩
  · exact Or.inl ⟨fun i' j' hs => h1 i' j' ((h i' j').2 hs), h2⟩
  · exact Or.inr ⟨i0, j0, (h i0 j0).1 h1, h2, h3, h4, h5,
      fun i' j' hs => h6 i' j' ((h i' j').2 hs), h7⟩

/-- The triple is kept when the new cell does not beat it. -/
theorem best_keep {A B : List Int} {i j : Nat} {L s1 s2 : Int} (hj : j + 1 ≤ B.length)
    (hb : Best A B i j L s1 s2)
    (hc : cell A B i (j + 1) < 30 ∨ cell A B i (j + 1) ≤ L) :
    Best A B i (j + 1) L s1 s2 := by
  rcases hb with ⟨h1, h2, h3, h4⟩ | ⟨i0, j0, h1, h2, h3, h4, h5, h6, h7⟩
  · left
    refine ⟨fun i' j' hs => ?_, h2, h3, h4⟩
    rcases (seen_succ hj).1 hs with hs | ⟨_, rfl, rfl⟩
    · exact h1 i' j' hs
    · rcases hc with hc | hc
      · exact hc
      · omega
  · right
    refine ⟨i0, j0, (seen_succ hj).2 (Or.inl h1), h2, h3, h4, h5, fun i' j' hs => ?_, h7⟩
    rcases (seen_succ hj).1 hs with hs | ⟨_, rfl, rfl⟩
    · exact h6 i' j' hs
    · rcases hc with hc | hc
      · omega
      · exact hc

/-- The triple is replaced when the new cell is at least 30 and strictly larger. -/
theorem best_update {A B : List Int} {i j : Nat} {L s1 s2 : Int} (hi : 1 ≤ i)
    (hj : j + 1 ≤ B.length) (hb : Best A B i j L s1 s2)
    (h30 : 30 ≤ cell A B i (j + 1)) (hgt : L < cell A B i (j + 1)) :
    Best A B i (j + 1) (cell A B i (j + 1)) ((i : Int) - cell A B i (j + 1))
      (((j + 1 : Nat) : Int) - cell A B i (j + 1)) := by
  right
  have hall : ∀ i' j', Seen B.length i j i' j' → cell A B i' j' < cell A B i (j + 1) := by
    intro i' j' hs
    rcases hb with ⟨h1, _⟩ | ⟨_, _, _, _, _, _, _, h6, _⟩
    · have := h1 i' j' hs; omega
    · have := h6 i' j' hs; omega
  refine ⟨i, j + 1, (seen_succ hj).2 (Or.inr ⟨hi, rfl, rfl⟩), h30, rfl, rfl, rfl,
    fun i' j' hs => ?_, fun i' j' hs hne => ?_⟩
  · rcases (seen_succ hj).1 hs with hs | ⟨_, rfl, rfl⟩
    · exact le_of_lt (hall i' j' hs)
    · exact le_refl _
  · rcases (seen_succ hj).1 hs with hs | ⟨_, rfl, rfl⟩
    · exact hall i' j' hs
    · exact absurd rfl hne

theorem indexSub_succ (n : Nat) : indexSub (n + 1) 1 = .ok n := by
  simp [indexSub]

theorem lcsCell_spec {A B : List Int} {i j : Nat} {st : LcsState} (hi : i < A.length)
    (hj : j < B.length) (inv : CellInv A B (i + 1) j st) :
    ∃ st', lcsCell A B (i + 1) st (j + 1) = .ok st' ∧ CellInv A B (i + 1) (j + 1) st' := by
  obtain ⟨hp, hc, hprev, hcur, hc0, hbest⟩ := inv
  have hjc : j + 1 < st.currentRow.length := by omega
  have hdiag : readAt st.previousRow j = .ok (cell A B i j) :=
    readAt_eq_ok_iff.2 (by simpa using hprev j (by omega))
  -- the rows after the write of the value `v` into `currentRow[j + 1]`
  have hrows : ∀ v : Int, v = cell A B (i + 1) (j + 1) →
      (st.currentRow.set (j + 1) v).length = B.length + 1 ∧
      (∀ j', 1 ≤ j' → j' ≤ j + 1 →
        (st.currentRow.set (j + 1) v)[j']? = some (cell A B (i + 1) j')) ∧
      (st.currentRow.set (j + 1) v)[0]? = some 0 := by
    intro v hv
    refine ⟨by simpa using hc, fun j' h1 h2 => ?_, ?_⟩
    · by_cases hjj : j' = j + 1
      · subst hjj; rw [List.getElem?_set_eq_of_lt _ hjc, hv]
      · rw [List.getElem?_set_ne (Ne.symm hjj)]; exact hcur j' h1 (by omega)
    · rw [List.getElem?_set_ne (by omega)]; exact hc0
  have hcell := cell_succ (A := A) (B := B) hi hj
  unfold lcsCell
  simp only [indexSub_succ, Nat.add_sub_cancel, readAt_of_lt hi, readAt_of_lt hj, ok_bind]
  by_cases heq : A[i] = B[j]
  · rw [if_pos heq] at hcell
    obtain ⟨r1, r2, r3⟩ := hrows (cell A B i j + 1) hcell.symm
    simp only [heq, if_true, hdiag, ok_bind, writeAt_of_lt _ hjc, pure_eq_ok]
    by_cases h30 : cell A B i j + 1 ≥ 30
    · have hmax : max (cell A B i j + 1) 30 = cell A B i j + 1 := max_eq_left h30
      have hcond : cell A B i j + 1 ≥ 30 ∧
          F64.ge (F64.ofNat (cell A B i j + 1).toNat)
            (F64.mul (F64.ofNat (max (cell A B i j + 1) 30).toNat) F64.c08) = true :=
        ⟨h30, by rw [hmax]; exact ge_mul_c08 _⟩
      rw [if_pos hcond]
      by_cases hgt : cell A B i j + 1 > st.maxLCSLength
      · rw [if_pos hgt]
        refine ⟨_, rfl, hp, r1, hprev, r2, r3, ?_⟩
        have := best_update (Nat.le_add_left 1 i) hj hbest (by rw [hcell]; exact h30)
          (by rw [hcell]; exact hgt)
        rw [hcell] at this
        simpa using this
      · rw [if_neg hgt]
        have hb : Best A B (i + 1) (j + 1) st.maxLCSLength st.startIndex1 st.startIndex2 :=
          best_keep hj hbest (Or.inr (by rw [hcell]; omega))
        exact ⟨_, rfl, hp, r1, hprev, r2, r3, hb⟩
    · have hcond : ¬ (cell A B i j + 1 ≥ 30 ∧
          F64.ge (F64.ofNat (cell A B i j + 1).toNat)
            (F64.mul (F64.ofNat (max (cell A B i j + 1) 30).toNat) F64.c08) = true) :=
        fun h => h30 h.1
      rw [if_neg hcond]
      have hb : Best A B (i + 1) (j + 1) st.maxLCSLength st.startIndex1 st.startIndex2 :=
        best_keep hj hbest (Or.inl (by rw [hcell]; omega))
      exact ⟨_, rfl, hp, r1, hprev, r2, r3, hb⟩
  · rw [if_neg heq] at hcell
    obtain ⟨r1, r2, r3⟩ := hrows 0 hcell.symm
    simp only [heq, if_false, writeAt_of_lt _ hjc, ok_bind, pure_eq_ok]
    have hb : Best A B (i + 1) (j + 1) st.maxLCSLength st.startIndex1 st.startIndex2 :=
      best_keep hj hbest (Or.inl (by rw [hcell]; norm_num))
    exact ⟨_, rfl, hp, r1, hprev, r2, r3, hb⟩

theorem lcsCells_spec {A B : List Int} {i : Nat} (hi : i < A.length) :
    ∀ (cnt j : Nat) (st : LcsState), j + cnt ≤ B.length → CellInv A B (i + 1) j st →
      ∃ st', (List.range' (j + 1) cnt).foldlM (lcsCell A B (i + 1)) st = .ok st' ∧
        CellInv A B (i + 1) (j + cnt) st' := by
  intro cnt
  induction cnt with
  | zero => intro j st _ inv; exact ⟨st, rfl, inv⟩
  | succ cnt ih =>
    intro j st h inv
    obtain ⟨st1, e1, inv1⟩ := lcsCell_spec hi (show j < B.length by omega) inv
    obtain ⟨st2, e2, inv2⟩ := ih (j + 1) st1 (by omega) inv1
    refine ⟨st2, ?_, ?_⟩
    · rw [List.range'_succ, List.foldlM_cons, e1]
      simpa using e2
    · rw [show j + (cnt + 1) = j + 1 + cnt by omega]; exact inv2

theorem lcsRow_spec {A B : List Int} {i : Nat} {st : LcsState} (hi : i < A.length)
    (inv : RowInv A B i st) :
    ∃ st', lcsRow A B st (i + 1) = .ok st' ∧ RowInv A B (i + 1) st' := by
  obtain ⟨hp, hc, hprev, hc0, hbest⟩ := inv
  have start : CellInv A B (i + 1) 0 st :=
    ⟨hp, hc, by simpa using hprev, fun j' h1 h2 => by omega, hc0,
      best_congr (fun i' j' => seen_row.symm) hbest⟩
  obtain ⟨st1, e1, q1, q2, q3, q4, q5, q6⟩ := lcsCells_spec hi B.length 0 st (by omega) start
  simp only [Nat.zero_add] at e1 q4 q6
  refine ⟨{ st1 with previousRow := st1.currentRow, currentRow := st1.previousRow },
    by unfold lcsRow; rw [e1]; rfl, q2, q1, fun j' hj' => ?_, ?_, q6⟩
  · rcases Nat.eq_zero_or_pos j' with rfl | hpos
    · rw [cell_zero_right]; exact q5
    · exact q4 j' hpos hj'
  · have := q3 0 (Nat.zero_le _)
    rw [cell_zero_right] at this
    exact this

theorem lcsInit_rowInv (A B : List Int) : RowInv A B 0 (lcsInit B.length) := by
  refine ⟨by simp [lcsInit], by simp [lcsInit], fun j' hj' => ?_, ?_, Or.inl ⟨?_, rfl, rfl, rfl⟩⟩
  · simp only [lcsInit, cell]
    rw [List.getElem?_eq_getElem (by simp; omega)]
    simp
  · simp [lcsInit]
  · intro i' j' hs
    unfold Seen at hs
    omega

/-- The dynamic programme completes, and after `i` rows the rolling buffer holds row `i` of
the full table. -/
theorem lcsTable_spec (A B : List Int) :
    ∀ i : Nat, i ≤ A.length → ∃ st, lcsTable A B i = .ok st ∧ RowInv A B i st := by
  intro i
  induction i with
  | zero => intro _; exact ⟨_, rfl, lcsInit_rowInv A B⟩
  | succ i ih =>
    intro hi
    obtain ⟨st, e, inv⟩ := ih (by omega)
    obtain ⟨st', e', inv'⟩ := lcsRow_spec (show i < A.length by omega) inv
    refine ⟨st', ?_, inv'⟩
    unfold lcsTable at e ⊢
    rw [List.range'_1_concat, List.foldlM_append, e]
    simp only [ok_bind, List.foldlM_cons, List.foldlM_nil]
    rw [Nat.add_comm 1 i, e']
    rfl

/-! ## Cells of the table and common runs -/

theorem commonRun_pred {A B : List Int} {p q l : Nat} (h : CommonRun A B p q (l + 1)) :
    CommonRun A B p q l :=
  ⟨by have := h.1; omega, by have := h.2.1; omega, fun k hk => h.2.2 k (by omega)⟩

/-- A common run of length `l` makes the cell at its end at least `l`. -/
theorem cell_complete {A B : List Int} {p q : Nat} :
    ∀ l : Nat, CommonRun A B p q l → (l : Int) ≤ cell A B (p + l) (q + l) := by
  intro l
  induction l with
  | zero => intro _; exact cell_nonneg A B _ _
  | succ l ih =>
    intro h
    have ih' := ih (commonRun_pred h)
    have h1 : p + l < A.length := by have := h.1; omega
    have h2 : q + l < B.length := by have := h.2.1; omega
    have heq := h.2.2 l (Nat.lt_succ_self l)
    rw [List.getElem?_eq_getElem h1, List.getElem?_eq_getElem h2] at heq
    rw [← Nat.add_assoc, ← Nat.add_assoc, cell_succ h1 h2, if_pos (Option.some.inj heq)]
    push_cast
    omega

/-- The value of a cell is the length of a common run that ends there. -/
theorem cell_sound {A B : List Int} :
    ∀ i j : Nat, i ≤ A.length → j ≤ B.length →
      CommonRun A B (i - (cell A B i j).toNat) (j - (cell A B i j).toNat)
        (cell A B i j).toNat := by
  intro i
  induction i with
  | zero =>
    intro j _ _
    simp only [cell, Int.toNat_zero]
    exact ⟨by omega, by omega, fun k hk => by omega⟩
  | succ i ih =>
    intro j hi hj
    cases j with
    | zero =>
      simp only [cell, Int.toNat_zero]
      exact ⟨by omega, by omega, fun k hk => by omega⟩
    | succ j =>
      have h1 : i < A.length := by omega
      have h2 : j < B.length := by omega
      rw [cell_succ h1 h2]
      by_cases heq : A[i] = B[j]
      · rw [if_pos heq]
        obtain ⟨r1, r2, r3⟩ := ih j (by omega) (by omega)
        have hn := cell_nonneg A B i j
        have hle := cell_le A B i j
        have e : (cell A B i j + 1).toNat = (cell A B i j).toNat + 1 := by omega
        rw [e]
        generalize hc : (cell A B i j).toNat = c at *
        have hci : c ≤ i := by omega
        have hcj : c ≤ j := by omega
        refine ⟨by omega, by omega, fun k hk => ?_⟩
        rw [show i + 1 - (c + 1) = i - c by omega, show j + 1 - (c + 1) = j - c by omega]
        by_cases hkc : k < c
        · exact r3 k hkc
        · have hk' : k = c := by omega
          subst hk'
          rw [show i - k + k = i by omega, show j - k + k = j by omega,
            List.getElem?_eq_getElem h1, List.getElem?_eq_getElem h2, heq]
      · rw [if_neg heq]
        simp only [Int.toNat_zero]
        exact ⟨by omega, by omega, fun k hk => by omega⟩

/-! ## The fallback scanner -/

theorem windowStarts_spec {size windowSize stepSize : Nat} (h : 1 ≤ stepSize) :
    ∃ starts, windowStarts size windowSize stepSize = .ok starts ∧
      ∀ i ∈ starts, i + windowSize ≤ size ∧ stepSize ∣ i := by
  unfold windowStarts
  by_cases h1 : size < windowSize
  · rw [if_pos h1]; exact ⟨[], rfl, fun i hi => absurd hi (List.not_mem_nil _)⟩
  · rw [if_neg h1, if_neg (by omega)]
    refine ⟨_, rfl, fun i hi => ?_⟩
    obtain ⟨t, ht, rfl⟩ := List.mem_map.1 hi
    have ht' := List.mem_range.1 ht
    have h2 : t * stepSize ≤ (size - windowSize) / stepSize * stepSize :=
      Nat.mul_le_mul_right _ (by omega)
    have h3 := Nat.div_mul_le_self (size - windowSize) stepSize
    exact ⟨by omega, Dvd.intro_left t rfl⟩

theorem hashMapPush_ok {B : List Int} {windowSize : Nat} {hash i : Nat}
    (hi : i + windowSize ≤ B.length ∧ windowSize / 4 ∣ i ∧
      computeSegmentHash B i windowSize = .ok hash) :
    ∀ hashMap : List (Nat × List Nat), MapOk B windowSize hashMap →
      MapOk B windowSize (hashMapPush hashMap hash i) := by
  intro hashMap
  induction hashMap with
  | nil =>
    intro _ key bucket hmem pos hpos
    simp only [hashMapPush, List.mem_singleton, Prod.mk.injEq] at hmem
    obtain ⟨rfl, rfl⟩ := hmem
    rw [List.mem_singleton.1 hpos]
    exact hi
  | cons entry rest ih =>
    intro hok key bucket hmem pos hpos
    obtain ⟨k0, b0⟩ := entry
    have hrest : MapOk B windowSize rest :=
      fun k b hm => hok k b (List.mem_cons_of_mem _ hm)
    unfold hashMapPush at hmem
    by_cases hk : k0 = hash
    · rw [if_pos hk] at hmem
      rcases List.mem_cons.1 hmem with heq | hm
      · simp only [Prod.mk.injEq] at heq
        obtain ⟨rfl, rfl⟩ := heq
        rcases List.mem_append.1 hpos with hp | hp
        · exact hok key b0 (List.mem_cons_self _ _) pos hp
        · rw [List.mem_singleton.1 hp, hk]; exact hi
      · exact hrest key bucket hm pos hpos
    · rw [if_neg hk] at hmem
      rcases List.mem_cons.1 hmem with heq | hm
      · simp only [Prod.mk.injEq] at heq
        obtain ⟨rfl, rfl⟩ := heq
        exact hok key bucket (List.mem_cons_self _ _) pos hpos
      · exact ih hrest key bucket hm pos hpos

theorem buildHashMap_spec {B : List Int} {windowSize : Nat} :
    ∀ (starts : List Nat) (hashMap : List (Nat × List Nat)),
      (∀ i ∈ starts, i + windowSize ≤ B.length ∧ windowSize / 4 ∣ i) →
      MapOk B windowSize hashMap →
      ∃ hm, buildHashMap B windowSize starts hashMap = .ok hm ∧ MapOk B windowSize hm := by
  intro starts
  induction starts with
  | nil => intro hashMap _ hok; exact ⟨hashMap, rfl, hok⟩
  | cons i rest ih =>
    intro hashMap h hok
    obtain ⟨h1, h2⟩ := h i (List.mem_cons_self _ _)
    obtain ⟨hv, hh⟩ := computeSegmentHash_total h1
    obtain ⟨hm, e, hok'⟩ := ih (hashMapPush hashMap hv i)
      (fun k hk => h k (List.mem_cons_of_mem _ hk)) (hashMapPush_ok ⟨h1, h2, hh⟩ hashMap hok)
    exact ⟨hm, by simp only [buildHashMap, hh, ok_bind, e], hok'⟩

theorem lookup_mem {hashMap : List (Nat × List Nat)} {hash : Nat} {bucket : List Nat} :
    hashMap.lookup hash = some bucket → (hash, bucket) ∈ hashMap := by
  induction hashMap with
  | nil => intro h; simp at h
  | cons entry rest ih =>
    obtain ⟨k0, b0⟩ := entry
    intro h
    by_cases hk : hash = k0
    · subst hk
      simp only [List.lookup_cons, beq_self_eq_true] at h
      rw [Option.some.inj h]; exact List.mem_cons_self _ _
    · have : (hash == k0) = false := by simpa using hk
      simp only [List.lookup_cons, this] at h
      exact List.mem_cons_of_mem _ (ih h)

theorem scanBucket_spec {A B : List Int} {windowSize i hash : Nat} {best0 : Int × Int × Int}
    (hw : 0 < windowSize) (hi : i + windowSize ≤ A.length ∧ windowSize / 4 ∣ i)
    (hh : computeSegmentHash A i windowSize = .ok hash) :
    ∀ (bucket : List Nat) (best : Int × Int × Int),
      (∀ pos ∈ bucket, pos + windowSize ≤ B.length ∧ windowSize / 4 ∣ pos ∧
        computeSegmentHash B pos windowSize = .ok hash) →
      ScanResult A B windowSize best0 best →
      ∃ r, scanBucket A B windowSize i bucket best = .ok r ∧
        ScanResult A B windowSize best0 r := by
  intro bucket
  induction bucket with
  | nil => intro best _ hb; exact ⟨best, rfl, hb⟩
  | cons pos rest ih =>
    intro best h hb
    obtain ⟨h1, h2, h3⟩ := h pos (List.mem_cons_self _ _)
    have ih' := fun best hb => ih best (fun k hk => h k (List.mem_cons_of_mem _ hk)) hb
    simp only [scanBucket, calculateSimilarity_spec hi.1 h1 hw, ok_bind]
    by_cases hge : F64.ge (F64.divNat (agreement A B i pos windowSize) windowSize) F64.c08 = true
    · rw [if_pos hge]
      by_cases hlt : toU64 best.1 < windowSize
      · rw [if_pos hlt]
        exact ih' _ (Or.inr ⟨i, pos, ⟨hi.1, h1, hi.2, h2, by rw [hh, h3], hge⟩, rfl⟩)
      · rw [if_neg hlt]; exact ih' best hb
    · rw [if_neg hge]; exact ih' best hb

theorem scanWindows_spec {A B : List Int} {windowSize : Nat} {hashMap : List (Nat × List Nat)}
    {best0 : Int × Int × Int} (hw : 0 < windowSize) (hok : MapOk B windowSize hashMap) :
    ∀ (starts : List Nat) (best : Int × Int × Int),
      (∀ i ∈ starts, i + windowSize ≤ A.length ∧ windowSize / 4 ∣ i) →
      ScanResult A B windowSize best0 best →
      ∃ r, scanWindows A B windowSize hashMap starts best = .ok r ∧
        ScanResult A B windowSize best0 r := by
  intro starts
  induction starts with
  | nil => intro best _ hb; exact ⟨best, rfl, hb⟩
  | cons i rest ih =>
    intro best h hb
    have hi := h i (List.mem_cons_self _ _)
    have ih' := fun best hb => ih best (fun k hk => h k (List.mem_cons_of_mem _ hk)) hb
    obtain ⟨hv, hh⟩ := computeSegmentHash_total hi.1
    simp only [scanWindows, hh, ok_bind]
    cases hl : hashMap.lookup hv with
    | none => exact ih' best hb
    | some bucket =>
      obtain ⟨r, e, hr⟩ := scanBucket_spec hw hi hh bucket best
        (fun pos hpos => hok hv bucket (lookup_mem hl) pos hpos) hb
      simp only [e, ok_bind]
      exact ih' r hr

/-- The fallback scanner completes, and it either leaves the triple as it was or stores an
accepted pair of windows. -/
theorem searchForLongPatterns_spec (A B : List Int) {windowSize : Nat} (hw : 4 ≤ windowSize)
    (best : Int × Int × Int) :
    ∃ r, searchForLongPatterns A B windowSize best = .ok r ∧
      ScanResult A B windowSize best r := by
  have hstep : 1 ≤ windowSize / 4 := by omega
  obtain ⟨starts2, e2, h2⟩ := @windowStarts_spec B.length windowSize (windowSize / 4) hstep
  obtain ⟨starts1, e1, h1⟩ := @windowStarts_spec A.length windowSize (windowSize / 4) hstep
  obtain ⟨hm, e3, hok⟩ := buildHashMap_spec (B := B) starts2 [] h2
    (fun _ _ hmem => absurd hmem (List.not_mem_nil _))
  obtain ⟨r, e4, hr⟩ := scanWindows_spec (A := A) (by omega) hok starts1 best h1 (Or.inl rfl)
  exact ⟨r, by simp only [searchForLongPatterns, e2, e1, e3, ok_bind, e4], hr⟩

/-! ## The long approximate-match finder -/

/-- The finder completes.  Either the dynamic programme has found a cell of at least 30 and
the result is its best triple, or no cell reaches 30 and the result is what the fallback
scanner leaves in the sentinel triple. -/
theorem findLongestCommonSubsequence_spec (A B : List Int) :
    ∃ L s1 s2, findLongestCommonSubsequence A B = .ok (L, s1, s2) ∧
      ((30 ≤ L ∧ Best A B A.length B.length L s1 s2) ∨
        ((∀ i j, Seen B.length A.length B.length i j → cell A B i j < 30) ∧
          ScanResult A B 30 (0, 0, 0) (L, s1, s2))) := by
  obtain ⟨st, e, _, _, _, _, hbest⟩ := lcsTable_spec A B A.length (Nat.le_refl _)
  unfold findLongestCommonSubsequence
  rw [e]
  simp only [ok_bind]
  rcases hbest with ⟨h1, h2, h3, h4⟩ | ⟨i0, j0, h1, h2, h3⟩
  · obtain ⟨r, er, hr⟩ := searchForLongPatterns_spec A B (show 4 ≤ 30 by norm_num) (0, 0, 0)
    rw [h2, h3, h4, if_pos (by norm_num), er]
    simp only [ok_bind]
    rcases hr with hr | ⟨i, pos, hacc, hr⟩
    · subst hr
      exact ⟨0, 0, 0, by simp, Or.inr ⟨h1, Or.inl rfl⟩⟩
    · subst hr
      exact ⟨30, i, pos, by simp, Or.inr ⟨h1, Or.inr ⟨i, pos, hacc, rfl⟩⟩⟩
  · refine ⟨st.maxLCSLength, st.startIndex1, st.startIndex2, ?_,
      Or.inl ⟨h2, Or.inr ⟨i0, j0, h1, h2, h3⟩⟩⟩
    rw [if_neg (by omega)]
    simp only [pure_eq_ok, ok_bind]
    rw [if_neg (by omega)]

/-- The offsets of a best triple of at least 30 delimit a common run of that length, and no
common run is longer. -/
theorem best_run {A B : List Int} {L s1 s2 : Int} (h30 : 30 ≤ L)
    (hb : Best A B A.length B.length L s1 s2) :
    0 ≤ s1 ∧ 0 ≤ s2 ∧ CommonRun A B s1.toNat s2.toNat L.toNat ∧
      ∀ p q l, CommonRun A B p q l → (l : Int) ≤ L := by
  rcases hb with ⟨_, h2, _⟩ | ⟨i0, j0, hs, _, h3, h4, h5, h6, _⟩
  · omega
  · have hle := cell_le A B i0 j0
    have hi0 : i0 ≤ A.length := by unfold Seen at hs; omega
    have hj0 : j0 ≤ B.length := by unfold Seen at hs; omega
    have hrun := cell_sound (A := A) (B := B) i0 j0 hi0 hj0
    rw [h3] at hrun hle
    have e1 : s1.toNat = i0 - L.toNat := by omega
    have e2 : s2.toNat = j0 - L.toNat := by omega
    refine ⟨by omega, by omega, by rw [e1, e2]; exact hrun, fun p q l hrun' => ?_⟩
    rcases Nat.eq_zero_or_pos l with rfl | hl
    · omega
    · have hc := cell_complete l hrun'
      have := h6 (p + l) (q + l) (by
        unfold Seen
        have := hrun'.1
        have := hrun'.2.1
        omega)
      omega

theorem agreement_le (A B : List Int) (p q l : Nat) : agreement A B p q l ≤ l := by
  unfold agreement
  calc _ ≤ (List.range l).length := List.countP_le_length _
    _ = l := List.length_range l

theorem claimFirst_total_le (A B : List Int) (st : ExactState) (i len : Nat) (js : List Nat) :
    st.totalExactMatchLength ≤ (claimFirst A B st i len js).totalExactMatchLength := by
  unfold claimFirst
  split
  · simp only [claim]; omega
  · exact le_refl _

theorem stepWindow_total_le (A B : List Int) (len : Nat) (st : ExactState) (i : Nat) :
    st.totalExactMatchLength ≤ (stepWindow A B len st i).totalExactMatchLength := by
  unfold stepWindow
  split
  · exact le_refl _
  · exact claimFirst_total_le A B st i len _

theorem foldl_stepWindow_total_le (A B : List Int) (len : Nat) :
    ∀ (is : List Nat) (st : ExactState),
      st.totalExactMatchLength ≤ (is.foldl (stepWindow A B len) st).totalExactMatchLength := by
  intro is
  induction is with
  | nil => intro st; exact le_refl _
  | cons i rest ih =>
    intro st
    exact le_trans (stepWindow_total_le A B len st i) (ih _)

theorem stepLength_total_le (A B : List Int) (st : ExactState) (len : Nat) :
    st.totalExactMatchLength ≤ (stepLength A B st len).totalExactMatchLength :=
  foldl_stepWindow_total_le A B len _ st

theorem foldl_stepLength_total_le (A B : List Int) :
    ∀ (lens : List Nat) (st : ExactState),
      st.totalExactMatchLength ≤ (lens.foldl (stepLength A B) st).totalExactMatchLength := by
  intro lens
  induction lens with
  | nil => intro st; exact le_refl _
  | cons len rest ih =>
    intro st
    exact le_trans (foldl_stepWindow_total_le A B len _ st) (ih _)

/-- In a self-comparison the first window of a length that fits is claimed at once. -/
theorem stepLength_self_total (S : List Int) {len : Nat} (h1 : 1 ≤ len) (h2 : len ≤ S.length) :
    (len : Int) ≤
      (stepLength S S (exactInit S.length S.length) len).totalExactMatchLength := by
  unfold stepLength
  obtain ⟨k, hk⟩ : ∃ k, S.length + 1 - len = k + 1 := ⟨S.length - len, by omega⟩
  rw [hk, List.range_succ_eq_map, List.foldl_cons]
  have hfirst : stepWindow S S len (exactInit S.length S.length) 0 =
      claim (exactInit S.length S.length) 0 0 len := by
    unfold stepWindow
    have hany : ((List.range' 0 len).any (fun k =>
        decide ((exactInit S.length S.length).usedInSubmission1[k]? = some true))) = false := by
      rw [List.any_eq_false]
      intro x _
      simp only [exactInit, decide_eq_true_eq]
      intro hx
      have := List.getElem?_replicate (a := false) (n := S.length) (m := x)
      rw [this] at hx
      split at hx <;> simp at hx
    rw [hany]
    simp only [Bool.false_eq_true, if_false]
    unfold claimFirst
    rw [hk, List.range_succ_eq_map, List.find?_cons]
    have hc : Claimable S S (exactInit S.length S.length).usedInSubmission2 0 len 0 := by
      refine ⟨?_, fun _ _ => rfl⟩
      simp only [exactInit]
      rw [List.getElem?_replicate, if_pos (by omega)]
    simp only [hc, decide_True]
  rw [hfirst]
  refine le_trans ?_ (foldl_stepWindow_total_le S S len _ _)
  simp [claim, exactInit]

/-- In a self-comparison of at least 19 tokens the exact-match total is at least 19. -/
theorem exactMatches_self_total (S : List Int) (h : 19 ≤ S.length) :
    19 ≤ (exactMatches S S (exactInit S.length S.length)).totalExactMatchLength := by
  unfold exactMatches candidateLengths
  rw [List.foldl_cons, List.foldl_cons]
  by_cases h20 : 20 ≤ S.length
  · have h1 := stepLength_self_total S (show 1 ≤ 20 by norm_num) h20
    have h2 := foldl_stepLength_total_le S S [18, 17, 16, 15, 14, 13, 12, 11, 10]
      (stepLength S S (stepLength S S (exactInit S.length S.length) 20) 19)
    have h3 := stepLength_total_le S S (stepLength S S (exactInit S.length S.length) 20) 19
    omega
  · have e : stepLength S S (exactInit S.length S.length) 20 = exactInit S.length S.length := by
      unfold stepLength
      rw [show S.length + 1 - 20 = 0 by omega]
      rfl
    rw [e]
    have h1 := stepLength_self_total S (show 1 ≤ 19 by norm_num) h
    have h2 := foldl_stepLength_total_le S S [18, 17, 16, 15, 14, 13, 12, 11, 10]
      (stepLength S S (exactInit S.length S.length) 19)
    omega

/-- The finder on a self-comparison: the whole sequence from 30 tokens on, nothing below. -/
theorem findLongestCommonSubsequence_self (S : List Int) :
    findLongestCommonSubsequence S S =
      .ok (if 30 ≤ S.length then ((S.length : Int), 0, 0) else (0, 0, 0)) := by
  obtain ⟨L, s1, s2, e, h⟩ := findLongestCommonSubsequence_spec S S
  rw [e]
  have hself : CommonRun S S 0 0 S.length := ⟨by omega, by omega, fun _ _ => rfl⟩
  have hcell := cell_complete S.length hself
  simp only [Nat.zero_add] at hcell
  rcases h with ⟨h30, hb⟩ | ⟨hno, hr⟩
  · rcases hb with ⟨_, h2, _⟩ | ⟨i0, j0, hs, _, h3, h4, h5, h6, _⟩
    · omega
    · have hle := cell_le S S i0 j0
      unfold Seen at hs
      have hn : 1 ≤ S.length := by omega
      have := h6 S.length S.length (by unfold Seen; omega)
      have hL : L = S.length := by omega
      rw [if_pos (by omega)]
      have e1 : s1 = 0 := by omega
      have e2 : s2 = 0 := by omega
      rw [hL, e1, e2]
  · have hlt : S.length < 30 := by
      by_contra hcon
      have := hno S.length S.length (by unfold Seen; omega)
      omega
    rw [if_neg (by omega)]
    rcases hr with hr | ⟨i, pos, hacc, _⟩
    · rw [hr]
    · have := hacc.1; omega


/-! ## The decision combiner -/

/-- The combiner with its thresholds in integer form. -/
theorem combine_eq {size1 size2 : Nat} (h : min size1 size2 < 2 ^ 31) (total approx s1 s2 : Int) :
    combine size1 size2 total approx s1 s2 =
      .ok (if total ≥ ((min size1 size2 / 5 : Nat) : Int) ∨
            approx ≥ ((3 * min size1 size2 / 10 : Nat) : Int)
          then [1, total, approx, s1, s2] else [0, 0, 0, 0, 0]) := by
  unfold combine
  simp only [trunc_mul_c02 h, trunc_mul_c03 h, ok_bind, pure_eq_ok, Bool.or_eq_true,
    decide_eq_true_eq]
  split <;> rfl

/-- C1. Decision combiner: when `detectExactMatches` (from all-unused masks and total 0) and
`findLongestCommonSubsequence` complete with `total` and `(approx, s1, s2)`, the result of
`match_submissions` is `[1, total, approx, s1, s2]` if `total ≥ ⌊minLen / 5⌋` or
`approx ≥ ⌊3 * minLen / 10⌋` and `[0, 0, 0, 0, 0]` otherwise; the two integers are the values of
`static_cast<int>(minLen * 0.2)` and `static_cast<int>(minLen * 0.3)` in binary64.  The
boundary is inclusive: with `minLen = 100` and `approx = 0`, `total = 20` gives the flag 1 and
`total = 19` the all-zero result. -/
theorem C1_decision_combiner (A B : List Int) (exact : ExactState) (approx s1 s2 : Int)
    (hsize : min A.length B.length < 2 ^ 31)
    (hexact : detectExactMatches A B (exactInit A.length B.length) = .ok exact)
    (hfind : findLongestCommonSubsequence A B = .ok (approx, s1, s2)) :
    match_submissions A B =
        .ok (if exact.totalExactMatchLength ≥ ((min A.length B.length / 5 : Nat) : Int) ∨
              approx ≥ ((3 * min A.length B.length / 10 : Nat) : Int)
            then [1, exact.totalExactMatchLength, approx, s1, s2] else [0, 0, 0, 0, 0]) ∧
      F64.trunc (F64.mul (F64.ofNat (min A.length B.length)) F64.c02) =
        .ok ((min A.length B.length / 5 : Nat) : Int) ∧
      F64.trunc (F64.mul (F64.ofNat (min A.length B.length)) F64.c03) =
        .ok ((3 * min A.length B.length / 10 : Nat) : Int) ∧
      combine 100 100 20 0 0 0 = .ok [1, 20, 0, 0, 0] ∧
      combine 100 100 19 0 0 0 = .ok [0, 0, 0, 0, 0] := by
  refine ⟨?_, trunc_mul_c02 hsize, trunc_mul_c03 hsize, by decide, by decide⟩
  unfold match_submissions
  rw [hexact, hfind]
  simp only [ok_bind]
  exact combine_eq hsize _ _ _ _

/-- Witness of C1: two submissions of 20 tokens without a common token. -/
theorem C1_decision_combiner_witness :
    match_submissions disjointSubmission1 disjointSubmission2 = .ok [0, 0, 0, 0, 0] :=
  (C1_decision_combiner disjointSubmission1 disjointSubmission2
    ⟨List.replicate 20 false, List.replicate 20 false, 0⟩ 0 0 0
    (by decide) (by decide) (by decide)).1


/-! ## Self-comparison -/

/-- The negation of C2 at a sequence of 19 pairwise distinct tokens: the result is
`[1, 19, 0, 0, 0]`, whose approximate-match length is 0 and not 19. -/
theorem C2_self_comparison_counterexample :
    ¬ ∃ r : List Int, match_submissions shortSubmission shortSubmission = .ok r ∧
      r[0]? = some 1 ∧ r[2]? = some (shortSubmission.length : Int) ∧
      r[3]? = some 0 ∧ r[4]? = some 0 := by
  have h : match_submissions shortSubmission shortSubmission = .ok [1, 19, 0, 0, 0] := by decide
  rintro ⟨r, hr, _, h2, _⟩
  rw [h] at hr
  cases hr
  revert h2
  decide

/-- C2, amended. Self-comparison: for every sequence `S` of at least 19 tokens,
`match_submissions(S, S)` returns the flag 1 and the start offsets 0 and 0, and its
approximate-match length is `len(S)` when `len(S) ≥ 30` and 0 when `len(S) < 30`. -/
theorem C2_self_comparison (S : List Int) (h19 : 19 ≤ S.length) (hsize : S.length < 2 ^ 31) :
    ∃ total : Int, match_submissions S S =
      .ok [1, total, if 30 ≤ S.length then (S.length : Int) else 0, 0, 0] := by
  have hd := detectExactMatches_eq (A := S) (B := S) h19
    (by norm_num at hsize ⊢; omega) (exactInit_masksFit S S)
  have htotal := exactMatches_self_total S h19
  refine ⟨(exactMatches S S (exactInit S.length S.length)).totalExactMatchLength, ?_⟩
  unfold match_submissions
  rw [hd, findLongestCommonSubsequence_self]
  simp only [ok_bind]
  rw [combine_eq (by simpa using hsize)]
  norm_num at hsize
  by_cases h30 : 30 ≤ S.length
  · simp only [h30, if_true, min_self]
    rw [if_pos (Or.inr (by omega))]
  · simp only [h30, if_false, min_self]
    rw [if_pos (Or.inl (by omega))]

/-- Witness of C2, amended: a sequence of 30 pairwise distinct tokens. -/
theorem C2_self_comparison_witness :
    ∃ total : Int, match_submissions longSubmission longSubmission =
      .ok [1, total, if 30 ≤ longSubmission.length then (longSubmission.length : Int) else 0,
        0, 0] :=
  C2_self_comparison longSubmission (by decide) (by decide)

/-! ## Empty and short input -/

/-- C3. Empty input: the code at the failing inputs.  With an empty second sequence the first
table request of `detectExactMatches` has `0 - 20 + 1 = 2 ^ 64 - 19` slots on `size_t` and
throws `std::length_error`; with an empty first sequence and 19 tokens in the second the call
completes, both thresholds are 0 and the flag is 1. -/
theorem C3_empty_input :
    match_submissions [] [] = .error Fault.lengthError ∧
      match_submissions [1, 2, 3] [] = .error Fault.lengthError ∧
      match_submissions [] [1, 2, 3] = .error Fault.lengthError ∧
      addU64 (subU64 0 20) 1 = 2 ^ 64 - 19 ∧
      match_submissions [] shortSubmission = .ok [1, 0, 0, 0, 0] := by
  refine ⟨by decide, by decide, by decide, by decide, by decide⟩

/-! ## The longest common run -/

/-- C5. No overlap bound: the code at the failing input `A = x1..x20, s, x0..x19` and
`B = x0..x20`.  The window `x1..x20` claims `B[1, 21)`, and the window `x0..x19` then claims
`B[0, 20)`, because only `usedInSubmission2[0]` is consulted: the total is 40, above
`min(len(A), len(B)) = 21`. -/
theorem C5_no_overlap_bound :
    (detectExactMatches overlapSubmission1 overlapSubmission2
        (exactInit overlapSubmission1.length overlapSubmission2.length)).map
        (fun st => st.totalExactMatchLength) = .ok 40 ∧
      min overlapSubmission1.length overlapSubmission2.length = 21 := by
  refine ⟨by decide, by decide⟩

/-- C6. Non-double-counting: the code at the failing input `A = x1..x19, s, x0..x18` and
`B = x0..x19`.  The confirmed matches are `(i, j, len) = (0, 1, 19)` and `(20, 0, 19)`; their
windows in `B`, `[1, 20)` and `[0, 19)`, share the positions 1 to 18, so that a total of 38 is
counted on the 20 positions of `B`. -/
theorem C6_non_double_counting :
    stepWindow sharedSubmission1 sharedSubmission2 19 (exactInit 39 20) 0 =
        claim (exactInit 39 20) 0 1 19 ∧
      stepWindow sharedSubmission1 sharedSubmission2 19 (claim (exactInit 39 20) 0 1 19) 20 =
        claim (claim (exactInit 39 20) 0 1 19) 20 0 19 ∧
      detectExactMatches sharedSubmission1 sharedSubmission2 (exactInit 39 20) =
        .ok (claim (claim (exactInit 39 20) 0 1 19) 20 0 19) ∧
      (claim (claim (exactInit 39 20) 0 1 19) 20 0 19).totalExactMatchLength = 38 ∧
      (claim (claim (exactInit 39 20) 0 1 19) 20 0 19).usedInSubmission2.count true = 20 := by
  refine ⟨by decide, by decide, by decide, by decide, by decide⟩

/-! ## The sample driver -/

/-- The negation of C7: on the two submissions of the sample driver the result is not the
all-zero array. -/
theorem C7_concrete_scenario_counterexample :
    ¬ match_submissions sampleSubmission1 sampleSubmission2 = .ok [0, 0, 0, 0, 0] := by
  decide

/-- C7, amended. Concrete scenario: on the two submissions of the sample driver the
exact-match total is 13 (the run `14..26` is `A[4, 17)` and `B[8, 21)`), the
approximate-match length is 0, and `match_submissions` returns `[1, 13, 0, 0, 0]`. -/
theorem C7_concrete_scenario :
    (detectExactMatches sampleSubmission1 sampleSubmission2
        (exactInit sampleSubmission1.length sampleSubmission2.length)).map
        (fun st => st.totalExactMatchLength) = .ok 13 ∧
      CommonRun sampleSubmission1 sampleSubmission2 4 8 13 ∧
      findLongestCommonSubsequence sampleSubmission1 sampleSubmission2 = .ok (0, 0, 0) ∧
      match_submissions sampleSubmission1 sampleSubmission2 = .ok [1, 13, 0, 0, 0] := by
  refine ⟨by decide, by decide, by decide, by decide⟩

/-! ## The result of the finder -/

/-- With fewer than 10 tokens in the first sequence and at least 19 in the second,
`detectExactMatches` completes and changes nothing. -/
theorem detectExactMatches_of_short_first {A B : List Int} {st : ExactState}
    (hA : A.length < 10) (h1 : 19 ≤ B.length) (h2 : B.length < 2 ^ 60 - 1)
    (hfit : MasksFit A B st) : detectExactMatches A B st = .ok st := by
  rw [detectExactMatches_eq h1 h2 hfit]
  have hstep : ∀ len, 10 ≤ len → stepLength A B st len = st := by
    intro len hlen
    unfold stepLength
    rw [show A.length + 1 - len = 0 by omega]
    rfl
  unfold exactMatches candidateLengths
  simp only [List.foldl_cons, List.foldl_nil]
  simp only [hstep 20 (by norm_num), hstep 19 (by norm_num), hstep 18 (by norm_num),
    hstep 17 (by norm_num), hstep 16 (by norm_num), hstep 15 (by norm_num),
    hstep 14 (by norm_num), hstep 13 (by norm_num), hstep 12 (by norm_num),
    hstep 11 (by norm_num), hstep 10 (by norm_num)]

/-- C10. Short sequences: the code at the failing inputs.  With fewer than 19 tokens in the
second sequence the table request for the length 20 wraps around on `size_t` and
`detectExactMatches` throws `std::length_error`, whatever the first sequence is. -/
theorem C10_short_sequences :
    detectExactMatches [1, 2, 3] [1, 2, 3] (exactInit 3 3) = .error Fault.lengthError ∧
      detectExactMatches longSubmission [1, 2, 3] (exactInit 30 3) = .error Fault.lengthError ∧
      detectExactMatches [1, 2, 3] (tokens 0 18) (exactInit 3 18) = .error Fault.lengthError ∧
      vectorNew (addU64 (subU64 3 20) 1) = .error Fault.lengthError ∧
      detectExactMatches [1, 2, 3] shortSubmission (exactInit 3 19) = .ok (exactInit 3 19) := by
  refine ⟨by decide, by decide, by decide, by decide, by decide⟩

/-! ## Fingerprints of equal windows -/

theorem getElem?_window (X : List Int) (a n k : Nat) (hk : k < n) :
    ((X.drop a).take n)[0 + k]? = X[a + k]? := by
  rw [Nat.zero_add, List.getElem?_take_of_lt hk, List.getElem?_drop]

/-- C12. Equal content gives equal fingerprints: for windows `X[a, a + n)` and `Y[b, b + n)`
inside their sequences with `X[a + k] = Y[b + k]` for every `k < n`, both calls of
`computeSegmentHash` return the same value, whatever the sign of the tokens; the value is
that of the window taken as a sequence of its own. -/
theorem C12_equal_content (X Y : List Int) (a b n : Nat) (ha : a + n ≤ X.length)
    (hb : b + n ≤ Y.length) (h : ∀ k < n, X[a + k]? = Y[b + k]?) :
    ∃ v, computeSegmentHash X a n = .ok v ∧ computeSegmentHash Y b n = .ok v ∧
      computeSegmentHash ((X.drop a).take n) 0 n = .ok v := by
  obtain ⟨v, hv⟩ := computeSegmentHash_total ha
  obtain ⟨w, hw⟩ := computeSegmentHash_total hb
  refine ⟨v, hv, ?_, ?_⟩
  · rw [hw, ← hv, computeSegmentHash_congr h, hw]
  · rw [computeSegmentHash_congr (fun k hk => getElem?_window X a n k hk)]; exact hv

/-- Witness of C12: a window with negative tokens inside a sequence and on its own. -/
theorem C12_equal_content_witness :
    ∃ v, computeSegmentHash signedSubmission 1 3 = .ok v ∧
      computeSegmentHash signedWindow 0 3 = .ok v ∧
      computeSegmentHash ((signedSubmission.drop 1).take 3) 0 3 = .ok v :=
  C12_equal_content signedSubmission signedWindow 1 0 3 (by decide) (by decide) (by decide)

/-! ## Short sequences in the finder -/

/-- C13. Sequences shorter than 30: when `A` or `B` has fewer than 30 tokens,
`findLongestCommonSubsequence` returns the length 0 with the offsets `(0, 0)`; no cell of the
dynamic programme reaches 30, a sequence of fewer than 30 tokens has no window for
`searchForLongPatterns` to visit, and the fallback leaves the sentinel as it is. -/
theorem C13_short_sequences (A B : List Int) (h : A.length < 30 ∨ B.length < 30) :
    findLongestCommonSubsequence A B = .ok (0, 0, 0) ∧
      (∀ i j, i ≤ A.length → j ≤ B.length → cell A B i j < 30) ∧
      (A.length < 30 → windowStarts A.length 30 (30 / 4) = .ok []) ∧
      (B.length < 30 → windowStarts B.length 30 (30 / 4) = .ok []) ∧
      searchForLongPatterns A B 30 (0, 0, 0) = .ok (0, 0, 0) := by
  have hcell : ∀ i j, i ≤ A.length → j ≤ B.length → cell A B i j < 30 := by
    intro i j hi hj
    have := cell_le A B i j
    omega
  have hnone : ∀ i pos, ¬ Accepted A B 30 i pos := by
    intro i pos hacc
    have := hacc.1
    have := hacc.2.1
    omega
  refine ⟨?_, hcell, fun hA => by simp [windowStarts, hA],
    fun hB => by simp [windowStarts, hB], ?_⟩
  · obtain ⟨L, s1, s2, e, hres⟩ := findLongestCommonSubsequence_spec A B
    rw [e]
    rcases hres with ⟨h30, hb⟩ | ⟨_, hr | ⟨i, pos, hacc, _⟩⟩
    · exfalso
      rcases hb with ⟨_, h2, _⟩ | ⟨i0, j0, hs, _, h3, _⟩
      · omega
      · unfold Seen at hs
        have := hcell i0 j0 (by omega) (by omega)
        omega
    · rw [hr]
    · exact absurd hacc (hnone i pos)
  · obtain ⟨r, e, hr⟩ := searchForLongPatterns_spec A B (show 4 ≤ 30 by norm_num) (0, 0, 0)
    rw [e]
    rcases hr with hr | ⟨i, pos, hacc, _⟩
    · rw [hr]
    · exact absurd hacc (hnone i pos)

/-- Witness of C13: the two submissions of the sample driver, of 20 and 21 tokens. -/
theorem C13_short_sequences_witness :
    findLongestCommonSubsequence sampleSubmission1 sampleSubmission2 = .ok (0, 0, 0) ∧
      (∀ i j, i ≤ sampleSubmission1.length → j ≤ sampleSubmission2.length →
        cell sampleSubmission1 sampleSubmission2 i j < 30) ∧
      (sampleSubmission1.length < 30 →
        windowStarts sampleSubmission1.length 30 (30 / 4) = .ok []) ∧
      (sampleSubmission2.length < 30 →
        windowStarts sampleSubmission2.length 30 (30 / 4) = .ok []) ∧
      searchForLongPatterns sampleSubmission1 sampleSubmission2 30 (0, 0, 0) = .ok (0, 0, 0) :=
  C13_short_sequences sampleSubmission1 sampleSubmission2 (Or.inl (by decide))

/-! ## The tie-break of the dynamic programme -/

/-- C15. In-bounds indexing of the finder.  In the embedding an access `xs[i]` outside its
container, an index expression `a - b` below zero and a call of `calculateSimilarity` with the
length 0 each end the run with a fault.  For all `A` and `B`, the empty and the short ones
included, `findLongestCommonSubsequence` and `searchForLongPatterns` with the window size 30
complete without a fault, so that none of the three occurs in them; both rows keep
`len(B) + 1` entries, the start offsets `i - maxLCSLength` and `j - maxLCSLength` held after
every row are not negative, and the similarity of two windows of 30 tokens is a finite
number. -/
theorem C15_in_bounds (A B : List Int) :
    (∃ r, findLongestCommonSubsequence A B = .ok r) ∧
      (∀ best, ∃ r, searchForLongPatterns A B 30 best = .ok r) ∧
      (∀ i, i ≤ A.length → ∃ st, lcsTable A B i = .ok st ∧
        st.previousRow.length = B.length + 1 ∧ st.currentRow.length = B.length + 1 ∧
        0 ≤ st.startIndex1 ∧ 0 ≤ st.startIndex2) ∧
      (∀ i pos, calculateSimilarity A B i pos 0 = .error .divisionByZero) ∧
      (∀ a b, a < b → indexSub a b = .error .underflow) ∧
      (∀ (xs : List Int) (i : Nat), xs.length ≤ i → readAt xs i = .error .outOfBounds) ∧
      (∀ (xs : List Int) (i : Nat) (v : Int), xs.length ≤ i →
        writeAt xs i v = .error .outOfBounds) ∧
      (∀ i pos, i + 30 ≤ A.length → pos + 30 ≤ B.length →
        ∃ num exp, calculateSimilarity A B i pos 30 = .ok (F64.dy num exp)) := by
  refine ⟨?_, fun best => ?_, fun i hi => ?_, fun i pos => ?_, fun a b hab => ?_,
    fun xs i hi => ?_, fun xs i v hi => ?_, fun i pos hi hpos => ?_⟩
  · obtain ⟨L, s1, s2, e, _⟩ := findLongestCommonSubsequence_spec A B
    exact ⟨_, e⟩
  · obtain ⟨r, e, _⟩ := searchForLongPatterns_spec A B (show 4 ≤ 30 by norm_num) best
    exact ⟨r, e⟩
  · obtain ⟨st, e, hp, hc, _, _, hbest⟩ := lcsTable_spec A B i hi
    refine ⟨st, e, hp, hc, ?_⟩
    rcases hbest with ⟨_, _, h3, h4⟩ | ⟨i0, j0, _, _, h3, h4, h5, _⟩
    · omega
    · have := cell_le A B i0 j0
      omega
  · rfl
  · unfold indexSub
    rw [if_neg (by omega)]
  · unfold readAt
    rw [List.getElem?_eq_none hi]
  · unfold writeAt
    rw [if_neg (by omega)]
  · rw [calculateSimilarity_spec hi hpos (by norm_num)]
    unfold F64.divNat
    rw [if_neg (by norm_num)]
    exact ⟨_, _, rfl⟩


/-! ## The fingerprint as a polynomial -/

theorem hashLoop_lt (data : List Int) (start : Nat) :
    ∀ (is : List Nat) (hp r : Nat × Nat), hp.1 < modulus →
      hashLoop data start is hp = .ok r → r.1 < modulus := by
  intro is
  induction is with
  | nil =>
    intro hp r h e
    simp only [hashLoop, Except.ok.injEq] at e
    rw [← e]; exact h
  | cons i rest ih =>
    intro hp r _ e
    unfold hashLoop at e
    cases hx : readAt data (start + i) with
    | error err => rw [hx] at e; simp at e
    | ok x =>
      rw [hx] at e
      simp only [ok_bind] at e
      exact ih _ r (Nat.mod_lt _ (by decide)) e

/-- A token of `[0, 2 ^ 31)` is converted to `size_t` without change and its product with a
reduced power does not wrap. -/
theorem step_nonneg {x : Int} (h0 : 0 ≤ x) (h31 : x < 2 ^ 31) {h pp : Nat} (hh : h < modulus)
    (hpp : pp < modulus) :
    toU64 x = x.toNat ∧ toU64 x * pp < 2 ^ 64 ∧
      h + mulU64 (toU64 x) pp % modulus < 2 ^ 64 ∧ pp * primeBase < 2 ^ 64 ∧
      addU64 h (mulU64 (toU64 x) pp % modulus) % modulus = (h + x.toNat * pp) % modulus ∧
      mulU64 pp primeBase % modulus = pp * 31 % modulus := by
  have e : toU64 x = x.toNat := by
    unfold toU64
    rw [Int.emod_eq_of_lt h0 (by norm_num at h31 ⊢; omega)]
  have hX : x.toNat < 2 ^ 31 := by norm_num at h31 ⊢; omega
  unfold modulus at hh hpp
  have hprod : x.toNat * pp < 2 ^ 31 * 1000000009 :=
    Nat.mul_lt_mul'' hX hpp
  have hmod : x.toNat * pp % 18446744073709551616 = x.toNat * pp :=
    Nat.mod_eq_of_lt (by norm_num at hprod ⊢; omega)
  have hm := Nat.mod_lt (x.toNat * pp) (show 0 < 1000000009 by norm_num)
  rw [e]
  refine ⟨rfl, by norm_num at hprod ⊢; omega, ?_, ?_, ?_, ?_⟩
  · simp only [mulU64, U64, modulus]
    norm_num
    rw [hmod]; omega
  · simp only [primeBase]; norm_num; omega
  · simp only [addU64, mulU64, U64, modulus]
    norm_num
    rw [hmod, Nat.mod_eq_of_lt (show h + x.toNat * pp % 1000000009 < 18446744073709551616 by omega)]
    simp [Nat.add_mod]
  · simp only [mulU64, U64, modulus, primeBase]
    norm_num
    rw [Nat.mod_eq_of_lt (show pp * 31 < 18446744073709551616 by omega)]

theorem polynomial_nonneg {data : List Int} {start length : Nat}
    (h : ∀ k < length, ∀ x, data[start + k]? = some x → 0 ≤ x ∧ x < 2 ^ 31)
    (hlen : start + length ≤ data.length) :
    ∀ n, n ≤ length → 0 ≤ polynomial data start n := by
  intro n
  induction n with
  | zero => intro _; exact le_refl _
  | succ n ih =>
    intro hn
    have hlt : start + n < data.length := by omega
    have hx := h n (by omega) _ (List.getElem?_eq_getElem hlt)
    unfold polynomial
    rw [List.getD_eq_getElem _ _ hlt]
    have := ih (by omega)
    have : 0 ≤ data[start + n] * 31 ^ n := mul_nonneg hx.1 (by positivity)
    omega

theorem hashLoop_polynomial {data : List Int} {start length : Nat}
    (h : ∀ k < length, ∀ x, data[start + k]? = some x → 0 ≤ x ∧ x < 2 ^ 31)
    (hlen : start + length ≤ data.length) :
    ∀ c k : Nat, k + c ≤ length →
      hashLoop data start (List.range' k c)
          ((polynomial data start k).toNat % modulus, 31 ^ k % modulus) =
        .ok ((polynomial data start (k + c)).toNat % modulus, 31 ^ (k + c) % modulus) := by
  intro c
  induction c with
  | zero => intro k _; rfl
  | succ c ih =>
    intro k hk
    have hlt : start + k < data.length := by omega
    have hx := h k (by omega) _ (List.getElem?_eq_getElem hlt)
    obtain ⟨_, _, _, _, e5, e6⟩ := step_nonneg hx.1 hx.2
      (Nat.mod_lt (polynomial data start k).toNat (show 0 < modulus by decide))
      (Nat.mod_lt (31 ^ k) (show 0 < modulus by decide))
    rw [List.range'_succ]
    simp only [hashLoop, readAt_of_lt hlt, ok_bind]
    rw [e5, e6]
    have hp0 := polynomial_nonneg h hlen k (by omega)
    have e7 : ((polynomial data start k).toNat % modulus + data[start + k].toNat *
        (31 ^ k % modulus)) % modulus = (polynomial data start (k + 1)).toNat % modulus := by
      have : polynomial data start (k + 1) =
          polynomial data start k + data[start + k] * 31 ^ k := by
        conv_lhs => unfold polynomial
        rw [List.getD_eq_getElem _ _ hlt]
      rw [this]
      have hcast : (polynomial data start k + data[start + k] * 31 ^ k).toNat =
          (polynomial data start k).toNat + data[start + k].toNat * 31 ^ k := by
        obtain ⟨X, hX⟩ := Int.eq_ofNat_of_zero_le hx.1
        obtain ⟨P, hP⟩ := Int.eq_ofNat_of_zero_le hp0
        rw [hX, hP]
        have hsum : ((P : Int) + (X : Int) * 31 ^ k) = ((P + X * 31 ^ k : Nat) : Int) := by
          push_cast; ring
        rw [hsum]
        simp only [Int.toNat_ofNat]
      rw [hcast]
      simp [Nat.add_mod, Nat.mul_mod]
    have e8 : 31 ^ k % modulus * 31 % modulus = 31 ^ (k + 1) % modulus := by
      rw [Nat.pow_succ]; simp [Nat.mul_mod]
    rw [e7, e8]
    have := ih (k + 1) (by omega)
    rw [show k + 1 + c = k + (c + 1) by omega] at this
    exact this

theorem hashIntermediates_lt {data : List Int} {start : Nat} :
    ∀ (is : List Nat) (hp : Nat × Nat), hp.1 < modulus → hp.2 < modulus →
      (∀ i ∈ is, ∀ x, data[start + i]? = some x → 0 ≤ x ∧ x < 2 ^ 31) →
      ∀ v ∈ hashIntermediates data start is hp, v < 2 ^ 64 := by
  intro is
  induction is with
  | nil => intro hp _ _ _ v hv; simp [hashIntermediates] at hv
  | cons i rest ih =>
    intro hp h1 h2 h v hv
    unfold hashIntermediates at hv
    cases hx : data[start + i]? with
    | none => rw [hx] at hv; simp at hv
    | some x =>
      rw [hx] at hv
      have hxx := h i (List.mem_cons_self _ _) x hx
      obtain ⟨_, r2, r3, r4, _, _⟩ := step_nonneg hxx.1 hxx.2 h1 h2
      simp only [List.mem_cons] at hv
      rcases hv with rfl | rfl | rfl | hv
      · exact r2
      · exact r3
      · exact r4
      · exact ih _ (Nat.mod_lt _ (by decide)) (Nat.mod_lt _ (by decide))
          (fun k hk => h k (List.mem_cons_of_mem _ hk)) v hv


/-- The fingerprint of a range inside `data` is below 1000000009, whatever the sign of the
tokens.  When every token of the range is in `[0, 2 ^ 31)`, it is the polynomial
`Σ data[start + i] * 31 ^ i` modulo 1000000009 and none of `data[start + i] * primePower`,
the running sum and `primePower * primeBase` reaches `2 ^ 64`. -/
theorem computeSegmentHash_polynomial (data : List Int) (start length : Nat)
    (hlen : start + length ≤ data.length) :
    (∃ v, computeSegmentHash data start length = .ok v ∧ v < 1000000009) ∧
      ((∀ k < length, 0 ≤ data.getD (start + k) 0 ∧ data.getD (start + k) 0 < 2 ^ 31) →
        computeSegmentHash data start length =
            .ok (polynomial data start length % 1000000009).toNat ∧
          ∀ v ∈ hashIntermediates data start (List.range length) (0, 1), v < 2 ^ 64) := by
  constructor
  · obtain ⟨r, hr⟩ := hashLoop_total data start (List.range length) (0, 1)
      (fun i hi => by have := List.mem_range.1 hi; omega)
    have hlt := hashLoop_lt data start _ (0, 1) r (by decide) hr
    exact ⟨r.1, by simp [computeSegmentHash, hr], hlt⟩
  · intro htok
    have h : ∀ k < length, ∀ x, data[start + k]? = some x → 0 ≤ x ∧ x < 2 ^ 31 := by
      intro k hk x hx
      have := htok k hk
      rw [List.getD_eq_getElem?_getD, hx] at this
      exact this
    constructor
    · have e := hashLoop_polynomial h hlen length 0 (by omega)
      rw [← List.range_eq_range', Nat.zero_add] at e
      have e0 : ((polynomial data start 0).toNat % modulus, 31 ^ 0 % modulus) = (0, 1) := by
        simp [polynomial, modulus]
      rw [e0] at e
      have hp0 := polynomial_nonneg h hlen length (Nat.le_refl _)
      have hmod : (polynomial data start length % 1000000009).toNat =
          (polynomial data start length).toNat % modulus := by
        unfold modulus; omega
      simp only [computeSegmentHash, e, ok_bind, pure_eq_ok, hmod]
    · exact hashIntermediates_lt _ _ (by decide) (by decide)
        (fun i hi => h i (List.mem_range.1 hi))

/-- C11. Segment hash: the code at the failing inputs.  In `[0, -1]` the token `-1` enters
the product as `2 ^ 64 - 1`, the product with the power 31 is above `2 ^ 64` and wraps, and
the fingerprint 688856422 is not the value 999999978 of the polynomial `-31` modulo
1000000009.  The two sequences `[1000000008, 1, ..., 29]` and `[-1, 1, ..., 29]` have the same
polynomial modulo 1000000009 and agree in 29 of their 30 positions, but their fingerprints
differ, so that the fallback scanner never compares them and `match_submissions` reports the
approximate-match length 0. -/
theorem C11_segment_hash :
    computeSegmentHash negativeSubmission 0 2 = .ok 688856422 ∧
      (polynomial negativeSubmission 0 2 % 1000000009).toNat = 999999978 ∧
      toU64 (-1) = 2 ^ 64 - 1 ∧
      (∃ v ∈ hashIntermediates negativeSubmission 0 (List.range 2) (0, 1), 2 ^ 64 ≤ v) ∧
      polynomial wrappedSubmission1 0 30 % 1000000009 = 825192683 ∧
      polynomial wrappedSubmission2 0 30 % 1000000009 = 825192683 ∧
      computeSegmentHash wrappedSubmission1 0 30 = .ok 825192683 ∧
      computeSegmentHash wrappedSubmission2 0 30 = .ok 514049127 ∧
      agreement wrappedSubmission1 wrappedSubmission2 0 0 30 = 29 ∧
      match_submissions wrappedSubmission1 wrappedSubmission2 = .ok [1, 20, 0, 0, 0] := by
  refine ⟨by decide, by decide, by decide, by decide, by decide, by decide, by decide,
    by decide, by decide, by decide⟩

/-! ## The usage masks -/

theorem getElem?_markRange (start : Nat) :
    ∀ (ks : List Nat) (used : List Bool) (p : Nat),
      (markRange used start ks)[p]? =
        if (∃ k ∈ ks, start + k = p) ∧ p < used.length then some true else used[p]? := by
  intro ks
  induction ks with
  | nil => intro used p; simp [markRange]
  | cons k rest ih =>
    intro used p
    have e : markRange used start (k :: rest) = markRange (used.set (start + k) true) start rest :=
      rfl
    rw [e, ih, List.getElem?_set, List.length_set]
    have hex : (∃ k' ∈ k :: rest, start + k' = p) ↔
        (start + k = p ∨ ∃ k' ∈ rest, start + k' = p) := by
      constructor
      · rintro ⟨k', hk', e'⟩
        rcases List.mem_cons.1 hk' with rfl | hk'
        · exact Or.inl e'
        · exact Or.inr ⟨k', hk', e'⟩
      · rintro (e' | ⟨k', hk', e'⟩)
        · exact ⟨k, List.mem_cons_self _ _, e'⟩
        · exact ⟨k', List.mem_cons_of_mem _ hk', e'⟩
    simp only [hex]
    by_cases hk : start + k = p <;> by_cases hr : (∃ k' ∈ rest, start + k' = p) <;>
      by_cases hp : p < used.length
    all_goals simp [hk, hr, hp]
    all_goals omega

/-- The mask after a window has been marked. -/
theorem getElem?_markRange_range (used : List Bool) (start len p : Nat) :
    (markRange used start (List.range len))[p]? =
      if start ≤ p ∧ p < start + len ∧ p < used.length then some true else used[p]? := by
  rw [getElem?_markRange]
  have hiff : ((∃ k ∈ List.range len, start + k = p) ∧ p < used.length) ↔
      (start ≤ p ∧ p < start + len ∧ p < used.length) := by
    constructor
    · rintro ⟨⟨k, hk, rfl⟩, h⟩
      have := List.mem_range.1 hk
      exact ⟨by omega, by omega, h⟩
    · rintro ⟨h1, h2, h3⟩
      exact ⟨⟨p - start, List.mem_range.2 (by omega), by omega⟩, h3⟩
  by_cases h : start ≤ p ∧ p < start + len ∧ p < used.length
  · rw [if_pos h, if_pos (hiff.2 h)]
  · rw [if_neg h, if_neg (fun h' => h (hiff.1 h'))]

theorem count_set_true {used : List Bool} {p : Nat} (h : used[p]? = some false) :
    (used.set p true).count true = used.count true + 1 := by
  have hp : p < used.length := by
    by_contra hcon
    rw [List.getElem?_eq_none (by omega)] at h
    simp at h
  rw [List.count_set _ _ _ _ hp]
  rw [List.getElem?_eq_getElem hp] at h
  have h' : used[p] = false := Option.some.inj h
  simp [h']

/-- Marking a window of unused positions adds its length to the number of used positions. -/
theorem count_markRange {used : List Bool} {start : Nat} :
    ∀ len : Nat, (∀ k < len, used[start + k]? = some false) →
      (markRange used start (List.range len)).count true = used.count true + len := by
  intro len
  induction len with
  | zero => intro _; rfl
  | succ len ih =>
    intro h
    have e : markRange used start (List.range (len + 1)) =
        (markRange used start (List.range len)).set (start + len) true := by
      unfold markRange
      rw [List.range_succ, List.foldl_append]
      rfl
    have hfalse : (markRange used start (List.range len))[start + len]? = some false := by
      rw [getElem?_markRange_range, if_neg (by omega)]
      exact h len (Nat.lt_succ_self len)
    rw [e, count_set_true hfalse, ih (fun k hk => h k (by omega))]
    omega

/-! ## The confirmed matches -/

theorem traceWindow_fst (A B : List Int) (len : Nat) (sl : ExactState × List (Nat × Nat × Nat))
    (i : Nat) : (traceWindow A B len sl i).1 = stepWindow A B len sl.1 i := by
  unfold traceWindow stepWindow claimFirst
  split
  · rfl
  · split <;> rfl

theorem foldl_traceWindow_fst (A B : List Int) (len : Nat) :
    ∀ (is : List Nat) (sl : ExactState × List (Nat × Nat × Nat)),
      (is.foldl (traceWindow A B len) sl).1 = is.foldl (stepWindow A B len) sl.1 := by
  intro is
  induction is with
  | nil => intro sl; rfl
  | cons i rest ih =>
    intro sl
    rw [List.foldl_cons, List.foldl_cons, ih, traceWindow_fst]

theorem traceLength_fst (A B : List Int) (sl : ExactState × List (Nat × Nat × Nat))
    (len : Nat) : (traceLength A B sl len).1 = stepLength A B sl.1 len :=
  foldl_traceWindow_fst A B len _ sl

theorem foldl_traceLength_fst (A B : List Int) :
    ∀ (lens : List Nat) (sl : ExactState × List (Nat × Nat × Nat)),
      (lens.foldl (traceLength A B) sl).1 = lens.foldl (stepLength A B) sl.1 := by
  intro lens
  induction lens with
  | nil => intro sl; rfl
  | cons len rest ih =>
    intro sl
    rw [List.foldl_cons, List.foldl_cons, ih, traceLength_fst]

/-- The state of the reading with the list of matches is the state of the reading without. -/
theorem exactTrace_fst (A B : List Int) (st : ExactState) :
    (exactTrace A B st).1 = exactMatches A B st :=
  foldl_traceLength_fst A B candidateLengths (st, [])

/-- A window that passes the usage test of `submission1` has only unused positions. -/
theorem window_unused {used : List Bool} {i len : Nat} (hlen : i + len ≤ used.length)
    (h : ¬ (List.range' i len).any (fun k => decide (used[k]? = some true)) = true) :
    ∀ k < len, used[i + k]? = some false := by
  intro k hk
  have hlt : i + k < used.length := by omega
  rw [List.getElem?_eq_getElem hlt]
  cases hv : used[i + k] with
  | false => rfl
  | true =>
    exfalso
    apply h
    rw [List.any_eq_true]
    refine ⟨i + k, List.mem_range'_1.2 (by omega), ?_⟩
    rw [List.getElem?_eq_getElem hlt, hv]
    rfl

theorem traceInv_init (A B : List Int) :
    TraceInv A B (exactInit A.length B.length, []) where
  fit := exactInit_masksFit A B
  run := fun m hm => absurd hm (List.not_mem_nil _)
  used1 := fun p => by
    simp only [exactInit, List.getElem?_replicate]
    constructor
    · intro h; split at h <;> simp at h
    · rintro ⟨m, hm, _⟩; exact absurd hm (List.not_mem_nil _)
  used2 := fun p => by
    simp only [exactInit, List.getElem?_replicate]
    constructor
    · intro h; split at h <;> simp at h
    · rintro ⟨m, hm, _⟩; exact absurd hm (List.not_mem_nil _)
  disjoint := List.Pairwise.nil
  total := by simp [exactInit]
  count := by simp [exactInit, List.count_replicate]

/-- The invariant after a confirmed match. -/
theorem traceInv_claim {A B : List Int} {sl : ExactState × List (Nat × Nat × Nat)}
    {i j len : Nat} (inv : TraceInv A B sl) (h10 : 10 ≤ len) (h20 : len ≤ 20)
    (hrun : CommonRun A B i j len)
    (hwin : ∀ k < len, sl.1.usedInSubmission1[i + k]? = some false) :
    TraceInv A B (claim sl.1 i j len, sl.2 ++ [(i, j, len)]) where
  fit := claim_masksFit inv.fit i j len
  run := fun m hm => by
    rcases List.mem_append.1 hm with hm | hm
    · exact inv.run m hm
    · rw [List.mem_singleton.1 hm]; exact ⟨h10, h20, hrun⟩
  used1 := fun p => by
    simp only [claim, getElem?_markRange_range]
    have hA := inv.fit.1
    have := hrun.1
    constructor
    · intro h
      by_cases hc : i ≤ p ∧ p < i + len ∧ p < sl.1.usedInSubmission1.length
      · exact ⟨(i, j, len), List.mem_append_right _ (List.mem_singleton_self _), hc.1, hc.2.1⟩
      · rw [if_neg hc] at h
        obtain ⟨m, hm, hp⟩ := (inv.used1 p).1 h
        exact ⟨m, List.mem_append_left _ hm, hp⟩
    · rintro ⟨m, hm, hp⟩
      rcases List.mem_append.1 hm with hm | hm
      · have := (inv.used1 p).2 ⟨m, hm, hp⟩
        split
        · rfl
        · exact this
      · rw [List.mem_singleton.1 hm] at hp
        rw [if_pos ⟨hp.1, hp.2, by simp only at hp; omega⟩]
  used2 := fun p => by
    simp only [claim, getElem?_markRange_range]
    have hB := inv.fit.2
    have := hrun.2.1
    constructor
    · intro h
      by_cases hc : j ≤ p ∧ p < j + len ∧ p < sl.1.usedInSubmission2.length
      · exact ⟨(i, j, len), List.mem_append_right _ (List.mem_singleton_self _), hc.1, hc.2.1⟩
      · rw [if_neg hc] at h
        obtain ⟨m, hm, hp⟩ := (inv.used2 p).1 h
        exact ⟨m, List.mem_append_left _ hm, hp⟩
    · rintro ⟨m, hm, hp⟩
      rcases List.mem_append.1 hm with hm | hm
      · have := (inv.used2 p).2 ⟨m, hm, hp⟩
        split
        · rfl
        · exact this
      · rw [List.mem_singleton.1 hm] at hp
        rw [if_pos ⟨hp.1, hp.2, by simp only at hp; omega⟩]
  disjoint := by
    rw [List.pairwise_append]
    refine ⟨inv.disjoint, List.pairwise_singleton _ _, fun m hm m' hm' => ?_⟩
    rw [List.mem_singleton.1 hm']
    simp only
    by_contra hcon
    have hm10 := (inv.run m hm).1
    have hused := (inv.used1 (max m.1 i)).2 ⟨m, hm, by omega, by omega⟩
    have hfree := hwin (max m.1 i - i) (by omega)
    rw [show i + (max m.1 i - i) = max m.1 i by omega, hused] at hfree
    simp at hfree
  total := by
    simp only [claim, List.map_append, List.sum_append, List.map_cons, List.map_nil,
      List.sum_cons, List.sum_nil]
    rw [inv.total]
    push_cast
    omega
  count := by
    simp only [claim]
    rw [count_markRange len hwin, inv.count]
    push_cast
    rfl

theorem traceInv_traceWindow {A B : List Int} {sl : ExactState × List (Nat × Nat × Nat)}
    {i len : Nat} (inv : TraceInv A B sl) (h10 : 10 ≤ len) (h20 : len ≤ 20)
    (hi : i + len ≤ A.length) : TraceInv A B (traceWindow A B len sl i) := by
  unfold traceWindow
  split
  · exact inv
  · rename_i hany
    split
    · rename_i j hj
      have hmem := List.mem_of_find?_eq_some hj
      have hc : Claimable A B sl.1.usedInSubmission2 i len j := by
        have := List.find?_some hj
        exact of_decide_eq_true this
      have hjB : j + len ≤ B.length := by have := List.mem_range.1 hmem; omega
      exact traceInv_claim inv h10 h20 ⟨hi, hjB, hc.2⟩
        (window_unused (by rw [inv.fit.1]; exact hi) hany)
    · exact inv

theorem traceInv_traceLength {A B : List Int} {sl : ExactState × List (Nat × Nat × Nat)}
    {len : Nat} (inv : TraceInv A B sl) (h10 : 10 ≤ len) (h20 : len ≤ 20) :
    TraceInv A B (traceLength A B sl len) := by
  unfold traceLength
  have key : ∀ (is : List Nat) (sl : ExactState × List (Nat × Nat × Nat)),
      (∀ i ∈ is, i + len ≤ A.length) → TraceInv A B sl →
      TraceInv A B (is.foldl (traceWindow A B len) sl) := by
    intro is
    induction is with
    | nil => intro sl _ h; exact h
    | cons i rest ih =>
      intro sl hb h
      exact ih _ (fun k hk => hb k (List.mem_cons_of_mem _ hk))
        (traceInv_traceWindow h h10 h20 (hb i (List.mem_cons_self _ _)))
  exact key _ sl (fun i hi => by have := List.mem_range.1 hi; omega) inv

theorem traceInv_foldl {A B : List Int} :
    ∀ (lens : List Nat) (sl : ExactState × List (Nat × Nat × Nat)),
      (∀ len ∈ lens, 10 ≤ len ∧ len ≤ 20) → TraceInv A B sl →
      TraceInv A B (lens.foldl (traceLength A B) sl) := by
  intro lens
  induction lens with
  | nil => intro sl _ h; exact h
  | cons len rest ih =>
    intro sl hb h
    have := hb len (List.mem_cons_self _ _)
    exact ih _ (fun k hk => hb k (List.mem_cons_of_mem _ hk))
      (traceInv_traceLength h this.1 this.2)

theorem candidateLengths_bounds : ∀ len ∈ candidateLengths, 10 ≤ len ∧ len ≤ 20 := by
  decide

/-- The invariant holds when `detectExactMatches` ends. -/
theorem traceInv_exactTrace (A B : List Int) :
    TraceInv A B (exactTrace A B (exactInit A.length B.length)) :=
  traceInv_foldl candidateLengths _ candidateLengths_bounds (traceInv_init A B)


/-! ## Consequences of the invariant -/

theorem trace_total_nonneg {A B : List Int} {sl : ExactState × List (Nat × Nat × Nat)}
    (inv : TraceInv A B sl) : 0 ≤ sl.1.totalExactMatchLength := by
  rw [inv.total]; exact Int.natCast_nonneg _

/-- A total of zero means that no match has been confirmed. -/
theorem trace_nil_of_total {A B : List Int} {sl : ExactState × List (Nat × Nat × Nat)}
    (inv : TraceInv A B sl) (h : sl.1.totalExactMatchLength = 0) : sl.2 = [] := by
  cases hl : sl.2 with
  | nil => rfl
  | cons m rest =>
    exfalso
    have h10 := (inv.run m (by rw [hl]; exact List.mem_cons_self _ _)).1
    have ht := inv.total
    rw [hl, h] at ht
    simp only [List.map_cons, List.sum_cons] at ht
    omega

/-- A confirmed match makes the total at least 10 and gives a common window of 10 tokens. -/
theorem trace_of_mem {A B : List Int} {sl : ExactState × List (Nat × Nat × Nat)}
    (inv : TraceInv A B sl) {m : Nat × Nat × Nat} (hm : m ∈ sl.2) :
    10 ≤ sl.1.totalExactMatchLength ∧ CommonRun A B m.1 m.2.1 10 := by
  obtain ⟨h10, _, hrun⟩ := inv.run m hm
  constructor
  · rw [inv.total]
    have : m.2.2 ≤ (sl.2.map (fun m => m.2.2)).sum :=
      List.single_le_sum (fun _ _ => Nat.zero_le _) _ (List.mem_map_of_mem _ hm)
    omega
  · exact ⟨by have := hrun.1; omega, by have := hrun.2.1; omega,
      fun k hk => hrun.2.2 k (by omega)⟩

theorem foldl_traceWindow_total_le (A B : List Int) (len : Nat) (is : List Nat)
    (sl : ExactState × List (Nat × Nat × Nat)) :
    sl.1.totalExactMatchLength ≤
      (is.foldl (traceWindow A B len) sl).1.totalExactMatchLength := by
  rw [foldl_traceWindow_fst]
  exact foldl_stepWindow_total_le A B len is sl.1

/-- A window of `A` that has an equal window in `B` makes the total positive in the stage of
its length. -/
theorem stage_complete {A B : List Int} {i j len : Nat} (h10 : 10 ≤ len) (h20 : len ≤ 20)
    (hrun : CommonRun A B i j len) :
    ∀ (is : List Nat) (sl : ExactState × List (Nat × Nat × Nat)), TraceInv A B sl →
      (∀ i' ∈ is, i' + len ≤ A.length) → i ∈ is →
      0 < (is.foldl (traceWindow A B len) sl).1.totalExactMatchLength := by
  intro is
  induction is with
  | nil => intro sl _ _ hi; exact absurd hi (List.not_mem_nil _)
  | cons i0 rest ih =>
    intro sl inv hb hi
    have inv' := traceInv_traceWindow inv h10 h20 (hb i0 (List.mem_cons_self _ _))
    rw [List.foldl_cons]
    rcases List.mem_cons.1 hi with rfl | hi
    · refine lt_of_lt_of_le ?_ (foldl_traceWindow_total_le A B len rest _)
      have hnn := trace_total_nonneg inv
      by_cases hpos : 0 < sl.1.totalExactMatchLength
      · rw [traceWindow_fst]
        exact lt_of_lt_of_le hpos (stepWindow_total_le A B len sl.1 i)
      · have hzero : sl.1.totalExactMatchLength = 0 := by omega
        have hnil := trace_nil_of_total inv hzero
        have hfree1 : ∀ p : Nat, sl.1.usedInSubmission1[p]? ≠ some true := by
          intro p hp
          obtain ⟨m, hm, _⟩ := (inv.used1 p).1 hp
          rw [hnil] at hm
          exact absurd hm (List.not_mem_nil _)
        have hfree2 : ∀ p : Nat, sl.1.usedInSubmission2[p]? ≠ some true := by
          intro p hp
          obtain ⟨m, hm, _⟩ := (inv.used2 p).1 hp
          rw [hnil] at hm
          exact absurd hm (List.not_mem_nil _)
        have hany : ¬ (List.range' i len).any
            (fun k => decide (sl.1.usedInSubmission1[k]? = some true)) = true := by
          rw [List.any_eq_true]
          rintro ⟨k, _, hk⟩
          exact hfree1 k (of_decide_eq_true hk)
        have hj : j < sl.1.usedInSubmission2.length := by
          rw [inv.fit.2]; have := hrun.2.1; omega
        have hc : Claimable A B sl.1.usedInSubmission2 i len j := by
          refine ⟨?_, hrun.2.2⟩
          have := hfree2 j
          rw [List.getElem?_eq_getElem hj] at this ⊢
          cases hv : sl.1.usedInSubmission2[j] with
          | false => rfl
          | true => rw [hv] at this; exact absurd rfl this
        unfold traceWindow
        rw [if_neg hany]
        cases hfind : (List.range (B.length + 1 - len)).find?
            (fun j => decide (Claimable A B sl.1.usedInSubmission2 i len j)) with
        | none =>
          exfalso
          rw [List.find?_eq_none] at hfind
          have := hfind j (List.mem_range.2 (by have := hrun.2.1; omega))
          exact this (decide_eq_true hc)
        | some j' =>
          simp only [claim]
          omega
    · exact ih _ inv' (fun k hk => hb k (List.mem_cons_of_mem _ hk)) hi

/-- A common window of 10 tokens makes the total positive. -/
theorem exactTrace_complete {A B : List Int} {i j : Nat} (hrun : CommonRun A B i j 10) :
    0 < (exactTrace A B (exactInit A.length B.length)).1.totalExactMatchLength := by
  have e : candidateLengths = [20, 19, 18, 17, 16, 15, 14, 13, 12, 11] ++ [10] := rfl
  unfold exactTrace
  rw [e, List.foldl_append, List.foldl_cons, List.foldl_nil]
  have inv := traceInv_foldl (A := A) (B := B) [20, 19, 18, 17, 16, 15, 14, 13, 12, 11]
    (exactInit A.length B.length, []) (by decide) (traceInv_init A B)
  unfold traceLength
  exact stage_complete (Nat.le_refl 10) (by norm_num) hrun _ _ inv
    (fun i' hi' => by have := List.mem_range.1 hi'; omega)
    (List.mem_range.2 (by have := hrun.1; omega))

/-! ## Only growth of the masks -/

theorem claim_mask_mono (st : ExactState) (i j len p : Nat) :
    (st.usedInSubmission1[p]? = some true → (claim st i j len).usedInSubmission1[p]? = some true) ∧
      (st.usedInSubmission2[p]? = some true →
        (claim st i j len).usedInSubmission2[p]? = some true) := by
  simp only [claim, getElem?_markRange_range]
  constructor <;> intro h <;> split
  · rfl
  · exact h
  · rfl
  · exact h

theorem stepWindow_mask_mono (A B : List Int) (len : Nat) (st : ExactState) (i p : Nat) :
    (st.usedInSubmission1[p]? = some true →
        (stepWindow A B len st i).usedInSubmission1[p]? = some true) ∧
      (st.usedInSubmission2[p]? = some true →
        (stepWindow A B len st i).usedInSubmission2[p]? = some true) := by
  unfold stepWindow claimFirst
  split
  · exact ⟨id, id⟩
  · split
    · exact claim_mask_mono st _ _ _ p
    · exact ⟨id, id⟩

theorem foldl_stepWindow_mask_mono (A B : List Int) (len p : Nat) :
    ∀ (is : List Nat) (st : ExactState),
      (st.usedInSubmission1[p]? = some true →
          (is.foldl (stepWindow A B len) st).usedInSubmission1[p]? = some true) ∧
        (st.usedInSubmission2[p]? = some true →
          (is.foldl (stepWindow A B len) st).usedInSubmission2[p]? = some true) := by
  intro is
  induction is with
  | nil => intro st; exact ⟨id, id⟩
  | cons i rest ih =>
    intro st
    have h1 := stepWindow_mask_mono A B len st i p
    have h2 := ih (stepWindow A B len st i)
    exact ⟨fun h => h2.1 (h1.1 h), fun h => h2.2 (h1.2 h)⟩

/-- A position that is marked used stays marked. -/
theorem exactMatches_mask_mono (A B : List Int) (p : Nat) (st : ExactState) :
    (st.usedInSubmission1[p]? = some true →
        (exactMatches A B st).usedInSubmission1[p]? = some true) ∧
      (st.usedInSubmission2[p]? = some true →
        (exactMatches A B st).usedInSubmission2[p]? = some true) := by
  unfold exactMatches
  have key : ∀ (lens : List Nat) (st : ExactState),
      (st.usedInSubmission1[p]? = some true →
          (lens.foldl (stepLength A B) st).usedInSubmission1[p]? = some true) ∧
        (st.usedInSubmission2[p]? = some true →
          (lens.foldl (stepLength A B) st).usedInSubmission2[p]? = some true) := by
    intro lens
    induction lens with
    | nil => intro st; exact ⟨id, id⟩
    | cons len rest ih =>
      intro st
      have h1 := foldl_stepWindow_mask_mono A B len p (List.range (A.length + 1 - len)) st
      have h2 := ih (stepLength A B st len)
      exact ⟨fun h => h2.1 (h1.1 h), fun h => h2.2 (h1.2 h)⟩
  exact key candidateLengths st


/-! ## Soundness, completeness and accounting of the exact detector -/

/-- C16. Sound and complete at the floor of 10 tokens: with at least 19 tokens in `B`,
`detectExactMatches` (from all-unused masks and total 0) completes; its total is nonzero if
and only if `A` and `B` share a window of 10 identical tokens, a nonzero total is at least
10, the total is the sum of the lengths of the confirmed matches, and every confirmed match
`(i, j, len)` passes `isExactMatch`. -/
theorem C16_sound_complete (A B : List Int) (h19 : 19 ≤ B.length) (hsize : B.length < 2 ^ 31) :
    ∃ st, detectExactMatches A B (exactInit A.length B.length) = .ok st ∧
      (st.totalExactMatchLength ≠ 0 ↔ ∃ i j, CommonRun A B i j 10) ∧
      (st.totalExactMatchLength ≠ 0 → 10 ≤ st.totalExactMatchLength) ∧
      st.totalExactMatchLength =
        ((((exactTrace A B (exactInit A.length B.length)).2.map (fun m => m.2.2)).sum : Nat) :
          Int) ∧
      ∀ m ∈ (exactTrace A B (exactInit A.length B.length)).2,
        isExactMatch A B m.1 m.2.1 m.2.2 = .ok true := by
  have hd := detectExactMatches_eq (A := A) (B := B) h19
    (by norm_num at hsize ⊢; omega) (exactInit_masksFit A B)
  have inv := traceInv_exactTrace A B
  have hfst := exactTrace_fst A B (exactInit A.length B.length)
  refine ⟨_, hd, ?_, ?_, ?_, ?_⟩
  · rw [← hfst]
    constructor
    · intro hne
      cases hl : (exactTrace A B (exactInit A.length B.length)).2 with
      | nil =>
        exfalso
        apply hne
        rw [inv.total, hl]
        rfl
      | cons m rest =>
        have := trace_of_mem inv (show m ∈ _ by rw [hl]; exact List.mem_cons_self _ _)
        exact ⟨m.1, m.2.1, this.2⟩
    · rintro ⟨i, j, hrun⟩
      have := exactTrace_complete hrun
      omega
  · rw [← hfst]
    intro hne
    cases hl : (exactTrace A B (exactInit A.length B.length)).2 with
    | nil =>
      exfalso
      apply hne
      rw [inv.total, hl]
      rfl
    | cons m rest =>
      exact (trace_of_mem inv (show m ∈ _ by rw [hl]; exact List.mem_cons_self _ _)).1
  · rw [← hfst]; exact inv.total
  · intro m hm
    obtain ⟨_, _, hrun⟩ := inv.run m hm
    rw [isExactMatch_spec hrun.1 hrun.2.1, decide_eq_true hrun.2.2]

/-- Witness of C16: the two submissions of the sample driver. -/
theorem C16_sound_complete_witness :
    ∃ st, detectExactMatches sampleSubmission1 sampleSubmission2
        (exactInit sampleSubmission1.length sampleSubmission2.length) = .ok st ∧
      (st.totalExactMatchLength ≠ 0 ↔
        ∃ i j, CommonRun sampleSubmission1 sampleSubmission2 i j 10) ∧
      (st.totalExactMatchLength ≠ 0 → 10 ≤ st.totalExactMatchLength) ∧
      st.totalExactMatchLength =
        ((((exactTrace sampleSubmission1 sampleSubmission2
          (exactInit sampleSubmission1.length sampleSubmission2.length)).2.map
            (fun m => m.2.2)).sum : Nat) : Int) ∧
      ∀ m ∈ (exactTrace sampleSubmission1 sampleSubmission2
          (exactInit sampleSubmission1.length sampleSubmission2.length)).2,
        isExactMatch sampleSubmission1 sampleSubmission2 m.1 m.2.1 m.2.2 = .ok true :=
  C16_sound_complete sampleSubmission1 sampleSubmission2 (by decide) (by decide)

/-- C19. A-side accounting: with at least 19 tokens in `B`, after `detectExactMatches` (from
all-unused masks and total 0) the total is the number of positions marked in
`usedInSubmission1`, hence at most `len(A)`; the windows of the confirmed matches are
pairwise disjoint in `A`; a position of `A` is marked exactly when it lies in the window
`A[i, i + len)` of a confirmed match, which has `10 ≤ len ≤ 20` and is element-wise equal to
`B[j, j + len)`; and from every start state a marked position of either mask stays marked. -/
theorem C19_accounting (A B : List Int) (h19 : 19 ≤ B.length) (hsize : B.length < 2 ^ 31) :
    ∃ st, detectExactMatches A B (exactInit A.length B.length) = .ok st ∧
      st.totalExactMatchLength = ((st.usedInSubmission1.count true : Nat) : Int) ∧
      st.totalExactMatchLength ≤ A.length ∧
      (exactTrace A B (exactInit A.length B.length)).2.Pairwise
        (fun m m' => m.1 + m.2.2 ≤ m'.1 ∨ m'.1 + m'.2.2 ≤ m.1) ∧
      (∀ p, st.usedInSubmission1[p]? = some true ↔
        ∃ m ∈ (exactTrace A B (exactInit A.length B.length)).2, m.1 ≤ p ∧ p < m.1 + m.2.2) ∧
      (∀ m ∈ (exactTrace A B (exactInit A.length B.length)).2,
        10 ≤ m.2.2 ∧ m.2.2 ≤ 20 ∧ CommonRun A B m.1 m.2.1 m.2.2) ∧
      ∀ st0, MasksFit A B st0 → ∃ st1, detectExactMatches A B st0 = .ok st1 ∧
        ∀ p : Nat,
          (st0.usedInSubmission1[p]? = some true → st1.usedInSubmission1[p]? = some true) ∧
          (st0.usedInSubmission2[p]? = some true → st1.usedInSubmission2[p]? = some true) := by
  have hB : B.length < 2 ^ 60 - 1 := by norm_num at hsize ⊢; omega
  have hd := detectExactMatches_eq (A := A) (B := B) h19 hB (exactInit_masksFit A B)
  have inv := traceInv_exactTrace A B
  have hfst := exactTrace_fst A B (exactInit A.length B.length)
  refine ⟨_, hd, ?_, ?_, inv.disjoint, ?_, inv.run, fun st0 hfit => ?_⟩
  · rw [← hfst]; exact inv.count
  · rw [← hfst, inv.count]
    have hc := List.count_le_length true
      (exactTrace A B (exactInit A.length B.length)).1.usedInSubmission1
    have hf := inv.fit.1
    omega
  · rw [← hfst]; exact inv.used1
  · exact ⟨_, detectExactMatches_eq h19 hB hfit, fun p => exactMatches_mask_mono A B p st0⟩

/-- Witness of C19: the two submissions of the sample driver. -/
theorem C19_accounting_witness :
    ∃ st, detectExactMatches sampleSubmission1 sampleSubmission2
        (exactInit sampleSubmission1.length sampleSubmission2.length) = .ok st ∧
      st.totalExactMatchLength = ((st.usedInSubmission1.count true : Nat) : Int) ∧
      st.totalExactMatchLength ≤ sampleSubmission1.length ∧
      (exactTrace sampleSubmission1 sampleSubmission2
          (exactInit sampleSubmission1.length sampleSubmission2.length)).2.Pairwise
        (fun m m' => m.1 + m.2.2 ≤ m'.1 ∨ m'.1 + m'.2.2 ≤ m.1) ∧
      (∀ p, st.usedInSubmission1[p]? = some true ↔
        ∃ m ∈ (exactTrace sampleSubmission1 sampleSubmission2
          (exactInit sampleSubmission1.length sampleSubmission2.length)).2,
          m.1 ≤ p ∧ p < m.1 + m.2.2) ∧
      (∀ m ∈ (exactTrace sampleSubmission1 sampleSubmission2
          (exactInit sampleSubmission1.length sampleSubmission2.length)).2,
        10 ≤ m.2.2 ∧ m.2.2 ≤ 20 ∧
          CommonRun sampleSubmission1 sampleSubmission2 m.1 m.2.1 m.2.2) ∧
      ∀ st0, MasksFit sampleSubmission1 sampleSubmission2 st0 →
        ∃ st1, detectExactMatches sampleSubmission1 sampleSubmission2 st0 = .ok st1 ∧
          ∀ p : Nat,
            (st0.usedInSubmission1[p]? = some true →
              st1.usedInSubmission1[p]? = some true) ∧
            (st0.usedInSubmission2[p]? = some true →
              st1.usedInSubmission2[p]? = some true) :=
  C19_accounting sampleSubmission1 sampleSubmission2 (by decide) (by decide)

/-! ## Self-comparison of a long sequence -/

/-- C20. Self-comparison of at least 30 tokens: `match_submissions(S, S)` returns the flag 1,
the approximate-match length `len(S)`, the start offsets 0 and 0, and an exact-match total of
at most `len(S)`, repeated tokens allowed. -/
theorem C20_long_self_comparison (S : List Int) (h30 : 30 ≤ S.length)
    (hsize : S.length < 2 ^ 31) :
    ∃ total : Int, match_submissions S S = .ok [1, total, (S.length : Int), 0, 0] ∧
      total ≤ S.length := by
  have hB : S.length < 2 ^ 60 - 1 := by norm_num at hsize ⊢; omega
  have hd := detectExactMatches_eq (A := S) (B := S) (by omega) hB (exactInit_masksFit S S)
  have inv := traceInv_exactTrace S S
  have hfst := exactTrace_fst S S (exactInit S.length S.length)
  refine ⟨(exactMatches S S (exactInit S.length S.length)).totalExactMatchLength, ?_, ?_⟩
  · unfold match_submissions
    rw [hd, findLongestCommonSubsequence_self]
    simp only [ok_bind]
    rw [combine_eq (by simpa using hsize)]
    norm_num at hsize
    simp only [h30, if_true, min_self]
    rw [if_pos (Or.inr (by omega))]
  · rw [← hfst, inv.count]
    have hc := List.count_le_length true
      (exactTrace S S (exactInit S.length S.length)).1.usedInSubmission1
    have hf := inv.fit.1
    omega

/-- Witness of C20: a sequence of 45 equal tokens. -/
theorem C20_long_self_comparison_witness :
    ∃ total : Int, match_submissions constantSubmission constantSubmission =
        .ok [1, total, (constantSubmission.length : Int), 0, 0] ∧
      total ≤ constantSubmission.length :=
  C20_long_self_comparison constantSubmission (by decide) (by decide)


/-! ## Greedy claiming in a self-comparison of distinct tokens -/

theorem tiles_succ (m len k : Nat) :
    tiles m len (k + 1) = (m, m, len) :: tiles (m + len) len k := by
  unfold tiles
  rw [List.range_succ_eq_map]
  simp only [List.map_cons, List.map_map, Nat.mul_zero, Nat.add_zero, List.cons.injEq, true_and]
  apply List.map_congr_left
  intro t _
  have e : m + len * (t + 1) = m + len + len * t := by rw [Nat.mul_add]; omega
  simp only [Function.comp, Nat.succ_eq_add_one, e]

theorem prefixUsed_init (n : Nat) : PrefixUsed n 0 (exactInit n n) := by
  refine ⟨by simp [exactInit], by simp [exactInit], fun p hp => ?_, fun p hp => ?_, rfl⟩
  · simp [exactInit, List.getElem?_replicate, hp]
  · simp [exactInit, List.getElem?_replicate, hp]

theorem prefixUsed_claim {n m len : Nat} {st : ExactState} (h : PrefixUsed n m st) :
    PrefixUsed n (m + len) (claim st m m len) := by
  obtain ⟨h1, h2, h3, h4, h5⟩ := h
  refine ⟨by simp [claim, markRange_length, h1], by simp [claim, markRange_length, h2],
    fun p hp => ?_, fun p hp => ?_, ?_⟩
  · simp only [claim, getElem?_markRange_range, h1]
    by_cases hc : m ≤ p ∧ p < m + len ∧ p < n
    · rw [if_pos hc, decide_eq_true hc.2.1]
    · rw [if_neg hc, h3 p hp]
      congr 1
      by_cases hpm : p < m
      · rw [decide_eq_true hpm, decide_eq_true (show p < m + len by omega)]
      · rw [decide_eq_false hpm, decide_eq_false (show ¬ p < m + len by omega)]
  · simp only [claim, getElem?_markRange_range, h2]
    by_cases hc : m ≤ p ∧ p < m + len ∧ p < n
    · rw [if_pos hc, decide_eq_true hc.2.1]
    · rw [if_neg hc, h4 p hp]
      congr 1
      by_cases hpm : p < m
      · rw [decide_eq_true hpm, decide_eq_true (show p < m + len by omega)]
      · rw [decide_eq_false hpm, decide_eq_false (show ¬ p < m + len by omega)]
  · simp only [claim, h5]
    push_cast
    rfl

/-- A window that begins inside the used prefix is skipped. -/
theorem traceWindow_skip {S : List Int} {m len i : Nat}
    {sl : ExactState × List (Nat × Nat × Nat)} (h : PrefixUsed S.length m sl.1)
    (hlen : 1 ≤ len) (hi : i + len ≤ S.length) (him : i < m) :
    traceWindow S S len sl i = sl := by
  unfold traceWindow
  rw [if_pos]
  rw [List.any_eq_true]
  refine ⟨i, List.mem_range'_1.2 (by omega), ?_⟩
  rw [h.2.2.1 i (by omega), decide_eq_true him]
  rfl

/-- The window at the end of the used prefix is claimed, with the window of `B` at the same
offset, the only equal one when the tokens are pairwise distinct. -/
theorem traceWindow_claim {S : List Int} (hS : S.Nodup) {m len : Nat}
    {sl : ExactState × List (Nat × Nat × Nat)} (h : PrefixUsed S.length m sl.1)
    (hlen : 1 ≤ len) (hm : m + len ≤ S.length) :
    traceWindow S S len sl m = (claim sl.1 m m len, sl.2 ++ [(m, m, len)]) := by
  unfold traceWindow
  have hany : ¬ (List.range' m len).any
      (fun k => decide (sl.1.usedInSubmission1[k]? = some true)) = true := by
    rw [List.any_eq_true]
    rintro ⟨k, hk, hv⟩
    have hk' := List.mem_range'_1.1 hk
    have := of_decide_eq_true hv
    rw [h.2.2.1 k (by omega), decide_eq_false (show ¬ k < m by omega)] at this
    simp at this
  rw [if_neg hany]
  have hc : Claimable S S sl.1.usedInSubmission2 m len m := by
    refine ⟨?_, fun _ _ => rfl⟩
    rw [h.2.2.2.1 m (by omega), decide_eq_false (Nat.lt_irrefl m)]
  cases hfind : (List.range (S.length + 1 - len)).find?
      (fun j => decide (Claimable S S sl.1.usedInSubmission2 m len j)) with
  | none =>
    exfalso
    rw [List.find?_eq_none] at hfind
    exact hfind m (List.mem_range.2 (by omega)) (decide_eq_true hc)
  | some j =>
    have hcj : Claimable S S sl.1.usedInSubmission2 m len j := by
      have := List.find?_some hfind
      exact of_decide_eq_true this
    have h0 := hcj.2 0 (by omega)
    simp only [Nat.add_zero] at h0
    have hjm : m = j := List.getElem?_inj (by omega) hS h0
    subst hjm
    rfl

/-- One stage on a state with a used prefix: the windows of the stage's length are claimed
one after the other from the end of the prefix on, as long as they fit. -/
theorem stage_fold {S : List Int} (hS : S.Nodup) {len : Nat} (hlen : 1 ≤ len) :
    ∀ (c I : Nat) (sl : ExactState × List (Nat × Nat × Nat)) (m : Nat),
      PrefixUsed S.length m sl.1 → I ≤ m → m ≤ S.length →
      (c ≠ 0 → I + c + len ≤ S.length + 1) →
      ∃ k, PrefixUsed S.length (m + len * k)
          ((List.range' I c).foldl (traceWindow S S len) sl).1 ∧
        ((List.range' I c).foldl (traceWindow S S len) sl).2 = sl.2 ++ tiles m len k ∧
        m + len * k ≤ S.length ∧ I + c ≤ m + len * k := by
  intro c
  induction c with
  | zero =>
    intro I sl m h hI hm _
    exact ⟨0, by simpa using h, by simp [tiles], by simpa using hm, by simpa using hI⟩
  | succ c ih =>
    intro I sl m h hI hm hb
    have hb' := hb (Nat.succ_ne_zero c)
    rw [List.range'_succ, List.foldl_cons]
    by_cases hlt : I < m
    · rw [traceWindow_skip h hlen (by omega) hlt]
      obtain ⟨k, r1, r2, r3, r4⟩ := ih (I + 1) sl m h (by omega) hm (fun _ => by omega)
      exact ⟨k, r1, r2, r3, by omega⟩
    · have hIm : I = m := by omega
      subst hIm
      rw [traceWindow_claim hS h hlen (by omega)]
      obtain ⟨k, r1, r2, r3, r4⟩ := ih (I + 1) (claim sl.1 I I len, sl.2 ++ [(I, I, len)])
        (I + len) (prefixUsed_claim h) (by omega) (by omega) (fun _ => by omega)
      have e : I + len * (k + 1) = I + len + len * k := by rw [Nat.mul_add]; omega
      refine ⟨k + 1, by rw [e]; exact r1, ?_, by rw [e]; exact r3, by rw [e]; omega⟩
      rw [r2, tiles_succ, List.append_assoc]
      rfl

/-- The result of one stage in terms of the number `k` of windows that it claims. -/
theorem stage_spec {S : List Int} (hS : S.Nodup) {len : Nat} (hlen : 1 ≤ len)
    (sl : ExactState × List (Nat × Nat × Nat)) {m : Nat} (h : PrefixUsed S.length m sl.1)
    (hm : m ≤ S.length) :
    ∃ k, PrefixUsed S.length (m + len * k) (traceLength S S sl len).1 ∧
      (traceLength S S sl len).2 = sl.2 ++ tiles m len k ∧
      m + len * k ≤ S.length ∧ S.length < m + len * k + len := by
  unfold traceLength
  rw [List.range_eq_range']
  obtain ⟨k, r1, r2, r3, r4⟩ := stage_fold hS hlen (S.length + 1 - len) 0 sl m h
    (Nat.zero_le _) hm (fun _ => by omega)
  exact ⟨k, r1, r2, r3, by omega⟩

/-- The stage of the length 20 from the start state claims the windows at the offsets
0, 20, 40, ... -/
theorem stage20 {S : List Int} (hS : S.Nodup) :
    Tail S.length 19 (traceLength S S (exactInit S.length S.length, []) 20) := by
  obtain ⟨k, r1, r2, r3, r4⟩ := stage_spec hS (show 1 ≤ 20 by norm_num)
    (exactInit S.length S.length, []) (prefixUsed_init S.length) (Nat.zero_le _)
  have hk : k = S.length / 20 := by omega
  have hm : 0 + 20 * k = S.length - S.length % 20 := by omega
  left
  refine ⟨by omega, by rw [← hm]; exact r1, ?_⟩
  rw [r2, hk]
  rfl

/-- A stage of a shorter length claims the remainder when it has exactly that length. -/
theorem tail_step {S : List Int} (hS : S.Nodup) {l : Nat} (hl : 1 ≤ l)
    {sl : ExactState × List (Nat × Nat × Nat)} (h : Tail S.length l sl) :
    Tail S.length (l - 1) (traceLength S S sl l) := by
  rcases h with ⟨hr, hp, hlog⟩ | ⟨hr, hp, hlog⟩
  · obtain ⟨k, r1, r2, r3, r4⟩ := stage_spec hS hl sl hp (by omega)
    rcases Nat.lt_or_ge (S.length % 20) l with hlt | hge
    · have hk : k = 0 := by
        rcases Nat.eq_zero_or_pos k with h0 | h0
        · exact h0
        · have : l * 1 ≤ l * k := Nat.mul_le_mul_left l h0
          omega
      subst hk
      left
      refine ⟨by omega, by simpa using r1, ?_⟩
      rw [r2, hlog]
      simp [tiles]
    · have hk : k = 1 := by
        rcases Nat.lt_or_ge k 2 with h2 | h2
        · rcases Nat.eq_zero_or_pos k with h0 | h0
          · subst h0; omega
          · omega
        · have : l * 2 ≤ l * k := Nat.mul_le_mul_left l h2
          omega
      subst hk
      right
      have e : S.length - S.length % 20 + l * 1 = S.length := by omega
      refine ⟨by omega, by rw [e] at r1; exact r1, ?_⟩
      rw [r2, hlog]
      have hl' : l = S.length % 20 := by omega
      subst hl'
      rw [tiles_succ]
      rfl
  · obtain ⟨k, r1, r2, r3, r4⟩ := stage_spec hS hl sl hp (Nat.le_refl _)
    have hk : k = 0 := by
      rcases Nat.eq_zero_or_pos k with h0 | h0
      · exact h0
      · have : l * 1 ≤ l * k := Nat.mul_le_mul_left l h0
        omega
    subst hk
    right
    refine ⟨by omega, by simpa using r1, ?_⟩
    rw [r2, hlog]
    simp [tiles]

/-- All stages of a self-comparison of pairwise distinct tokens. -/
theorem exactTrace_self {S : List Int} (hS : S.Nodup) :
    Tail S.length 9 (exactTrace S S (exactInit S.length S.length)) := by
  unfold exactTrace candidateLengths
  simp only [List.foldl_cons, List.foldl_nil]
  have h19 := stage20 hS
  have h18 := tail_step hS (show 1 ≤ 19 by norm_num) h19
  have h17 := tail_step hS (show 1 ≤ 18 by norm_num) h18
  have h16 := tail_step hS (show 1 ≤ 17 by norm_num) h17
  have h15 := tail_step hS (show 1 ≤ 16 by norm_num) h16
  have h14 := tail_step hS (show 1 ≤ 15 by norm_num) h15
  have h13 := tail_step hS (show 1 ≤ 14 by norm_num) h14
  have h12 := tail_step hS (show 1 ≤ 13 by norm_num) h13
  have h11 := tail_step hS (show 1 ≤ 12 by norm_num) h12
  have h10 := tail_step hS (show 1 ≤ 11 by norm_num) h11
  exact tail_step hS (show 1 ≤ 10 by norm_num) h10


/-- C18. Greedy claiming on a single shared run: for a sequence `S` of `n ≥ 19` pairwise
distinct tokens, `detectExactMatches(S, S)` (from all-unused masks and total 0) produces the
total `n` if `n mod 20 ≥ 10` and `n - n mod 20` otherwise; the confirmed matches are the
windows of length 20 at the offsets 0, 20, 40, ..., each with itself, followed by the
remainder as one window if and only if it has at least 10 tokens. -/
theorem C18_greedy_claiming (S : List Int) (hS : S.Nodup) (h19 : 19 ≤ S.length)
    (hsize : S.length < 2 ^ 31) :
    ∃ st, detectExactMatches S S (exactInit S.length S.length) = .ok st ∧
      st.totalExactMatchLength =
        (if 10 ≤ S.length % 20 then (S.length : Int)
          else ((S.length - S.length % 20 : Nat) : Int)) ∧
      (exactTrace S S (exactInit S.length S.length)).2 =
        tiles 0 20 (S.length / 20) ++
          (if 10 ≤ S.length % 20
            then [(S.length - S.length % 20, S.length - S.length % 20, S.length % 20)]
            else []) := by
  have hd := detectExactMatches_eq (A := S) (B := S) h19
    (by norm_num at hsize ⊢; omega) (exactInit_masksFit S S)
  have hfst := exactTrace_fst S S (exactInit S.length S.length)
  refine ⟨_, hd, ?_, ?_⟩
  · rw [← hfst]
    rcases exactTrace_self hS with ⟨hr, hp, _⟩ | ⟨hr, hp, _⟩
    · rw [if_neg (by omega)]; exact hp.2.2.2.2
    · rw [if_pos (by omega)]; exact hp.2.2.2.2
  · rcases exactTrace_self hS with ⟨hr, _, hlog⟩ | ⟨hr, _, hlog⟩
    · rw [if_neg (by omega), hlog, List.append_nil]
    · rw [if_pos (by omega), hlog]

/-- Witness of C18: a sequence of 30 pairwise distinct tokens. -/
theorem C18_greedy_claiming_witness :
    ∃ st, detectExactMatches longSubmission longSubmission
        (exactInit longSubmission.length longSubmission.length) = .ok st ∧
      st.totalExactMatchLength =
        (if 10 ≤ longSubmission.length % 20 then (longSubmission.length : Int)
          else ((longSubmission.length - longSubmission.length % 20 : Nat) : Int)) ∧
      (exactTrace longSubmission longSubmission
          (exactInit longSubmission.length longSubmission.length)).2 =
        tiles 0 20 (longSubmission.length / 20) ++
          (if 10 ≤ longSubmission.length % 20
            then [(longSubmission.length - longSubmission.length % 20,
              longSubmission.length - longSubmission.length % 20, longSubmission.length % 20)]
            else []) :=
  C18_greedy_claiming longSubmission (by decide) (by decide) (by decide)


/-! ## A single shared run -/

theorem traceWindow_mem (A B : List Int) (len : Nat) (sl : ExactState × List (Nat × Nat × Nat))
    (i : Nat) {m : Nat × Nat × Nat} (hm : m ∈ sl.2) : m ∈ (traceWindow A B len sl i).2 := by
  unfold traceWindow
  split
  · exact hm
  · split
    · exact List.mem_append_left _ hm
    · exact hm

theorem foldl_traceWindow_mem (A B : List Int) (len : Nat) {m : Nat × Nat × Nat} :
    ∀ (is : List Nat) (sl : ExactState × List (Nat × Nat × Nat)), m ∈ sl.2 →
      m ∈ (is.foldl (traceWindow A B len) sl).2 := by
  intro is
  induction is with
  | nil => intro sl h; exact h
  | cons i rest ih => intro sl h; exact ih _ (traceWindow_mem A B len sl i h)

theorem foldl_traceLength_mem (A B : List Int) {m : Nat × Nat × Nat} :
    ∀ (lens : List Nat) (sl : ExactState × List (Nat × Nat × Nat)), m ∈ sl.2 →
      m ∈ (lens.foldl (traceLength A B) sl).2 := by
  intro lens
  induction lens with
  | nil => intro sl h; exact h
  | cons len rest ih => intro sl h; exact ih _ (foldl_traceWindow_mem A B len _ sl h)

/-- A window of `A` that is equal to no window of `B` is passed over. -/
theorem traceWindow_idle {A B : List Int} {len i : Nat}
    (h : ∀ j, ¬ CommonRun A B i j len) (hi : i + len ≤ A.length)
    (sl : ExactState × List (Nat × Nat × Nat)) : traceWindow A B len sl i = sl := by
  unfold traceWindow
  split
  · rfl
  · cases hfind : (List.range (B.length + 1 - len)).find?
        (fun j => decide (Claimable A B sl.1.usedInSubmission2 i len j)) with
    | none => rfl
    | some j =>
      exfalso
      have hc : Claimable A B sl.1.usedInSubmission2 i len j := by
        have := List.find?_some hfind
        exact of_decide_eq_true this
      have hj := List.mem_range.1 (List.mem_of_find?_eq_some hfind)
      exact h j ⟨hi, by omega, hc.2⟩

theorem foldl_traceWindow_idle {A B : List Int} {len : Nat} :
    ∀ (is : List Nat) (sl : ExactState × List (Nat × Nat × Nat)),
      (∀ i ∈ is, i + len ≤ A.length ∧ ∀ j, ¬ CommonRun A B i j len) →
      is.foldl (traceWindow A B len) sl = sl := by
  intro is
  induction is with
  | nil => intro sl _; rfl
  | cons i rest ih =>
    intro sl h
    rw [List.foldl_cons, traceWindow_idle (h i (List.mem_cons_self _ _)).2
      (h i (List.mem_cons_self _ _)).1]
    exact ih sl (fun k hk => h k (List.mem_cons_of_mem _ hk))

theorem foldl_traceLength_idle {A B : List Int} :
    ∀ (lens : List Nat) (sl : ExactState × List (Nat × Nat × Nat)),
      (∀ len ∈ lens, ∀ i j, ¬ CommonRun A B i j len) →
      lens.foldl (traceLength A B) sl = sl := by
  intro lens
  induction lens with
  | nil => intro sl _; rfl
  | cons len rest ih =>
    intro sl h
    rw [List.foldl_cons]
    have : traceLength A B sl len = sl := by
      unfold traceLength
      apply foldl_traceWindow_idle
      intro i hi
      have := List.mem_range.1 hi
      exact ⟨by omega, h len (List.mem_cons_self _ _) i⟩
    rw [this]
    exact ih sl (fun k hk => h k (List.mem_cons_of_mem _ hk))

theorem candidateLengths_split : ∀ r : Nat, 10 ≤ r → r ≤ 20 →
    ∃ pre post : List Nat, candidateLengths = pre ++ r :: post ∧
      ∀ l ∈ pre, r < l ∧ l ≤ 20 := by
  intro r h10 h20
  interval_cases r
  · exact ⟨[20, 19, 18, 17, 16, 15, 14, 13, 12, 11], [], rfl, by decide⟩
  · exact ⟨[20, 19, 18, 17, 16, 15, 14, 13, 12], [10], rfl, by decide⟩
  · exact ⟨[20, 19, 18, 17, 16, 15, 14, 13], [11, 10], rfl, by decide⟩
  · exact ⟨[20, 19, 18, 17, 16, 15, 14], [12, 11, 10], rfl, by decide⟩
  · exact ⟨[20, 19, 18, 17, 16, 15], [13, 12, 11, 10], rfl, by decide⟩
  · exact ⟨[20, 19, 18, 17, 16], [14, 13, 12, 11, 10], rfl, by decide⟩
  · exact ⟨[20, 19, 18, 17], [15, 14, 13, 12, 11, 10], rfl, by decide⟩
  · exact ⟨[20, 19, 18], [16, 15, 14, 13, 12, 11, 10], rfl, by decide⟩
  · exact ⟨[20, 19], [17, 16, 15, 14, 13, 12, 11, 10], rfl, by decide⟩
  · exact ⟨[20], [18, 17, 16, 15, 14, 13, 12, 11, 10], rfl, by decide⟩
  · exact ⟨[], [19, 18, 17, 16, 15, 14, 13, 12, 11, 10], rfl, by decide⟩

/-- The first confirmed match: when no longer window and no earlier window of the same
length is common to `A` and `B`, the window `A[a, a + r)` is claimed. -/
theorem first_claim {A B : List Int} {a j r : Nat} (h10 : 10 ≤ r) (h20 : r ≤ 20)
    (hrun : CommonRun A B a j r)
    (hbefore : ∀ i, i < a → ∀ j, ¬ CommonRun A B i j r)
    (hlonger : ∀ l, r < l → l ≤ 20 → ∀ i j, ¬ CommonRun A B i j l) :
    ∃ j', (a, j', r) ∈ (exactTrace A B (exactInit A.length B.length)).2 := by
  have hA := hrun.1
  have hB := hrun.2.1
  obtain ⟨pre, post, hsplit, hpre⟩ := candidateLengths_split r h10 h20
  obtain ⟨k, hk⟩ : ∃ k, A.length + 1 - r = a + (k + 1) := ⟨A.length - r - a, by omega⟩
  have hany : ¬ (List.range' a r).any (fun k =>
      decide ((exactInit A.length B.length).usedInSubmission1[k]? = some true)) = true := by
    rw [List.any_eq_true]
    rintro ⟨x, _, hx⟩
    have := of_decide_eq_true hx
    simp only [exactInit, List.getElem?_replicate] at this
    split at this <;> simp at this
  have hc : Claimable A B (exactInit A.length B.length).usedInSubmission2 a r j := by
    refine ⟨?_, hrun.2.2⟩
    simp only [exactInit]
    rw [List.getElem?_replicate, if_pos (by omega)]
  have hstep : ∃ j', traceWindow A B r (exactInit A.length B.length, []) a =
      (claim (exactInit A.length B.length) a j' r, [(a, j', r)]) := by
    unfold traceWindow
    rw [if_neg hany]
    cases hfind : (List.range (B.length + 1 - r)).find?
        (fun j => decide (Claimable A B (exactInit A.length B.length).usedInSubmission2 a r j))
      with
    | none =>
      exfalso
      rw [List.find?_eq_none] at hfind
      exact hfind j (List.mem_range.2 (by omega)) (decide_eq_true hc)
    | some j' => exact ⟨j', rfl⟩
  obtain ⟨j', hj'⟩ := hstep
  refine ⟨j', ?_⟩
  unfold exactTrace
  rw [hsplit, List.foldl_append, List.foldl_cons,
    foldl_traceLength_idle pre _ (fun l hl => hlonger l (hpre l hl).1 (hpre l hl).2)]
  apply foldl_traceLength_mem
  unfold traceLength
  rw [hk, List.range_add, List.foldl_append,
    foldl_traceWindow_idle (List.range a) _ (fun i hi => by
      have := List.mem_range.1 hi
      exact ⟨by omega, hbefore i this⟩),
    List.range_succ_eq_map, List.map_cons, List.foldl_cons, Nat.add_zero, hj']
  apply foldl_traceWindow_mem
  exact List.mem_singleton_self _

theorem count_true_le : ∀ (l : List Bool) (c : Nat),
    (∀ p : Nat, l[p]? = some true → p < c) → l.count true ≤ c := by
  intro l
  induction l with
  | nil => intro c _; exact Nat.zero_le _
  | cons a rest ih =>
    intro c h
    cases c with
    | zero =>
      have ha : a = false := by
        cases a with
        | false => rfl
        | true => exact absurd (h 0 (by simp)) (Nat.lt_irrefl 0)
      have := ih 0 (fun p hp => absurd (h (p + 1) (by simpa using hp)) (Nat.not_lt_zero _))
      rw [ha, List.count_cons]
      simpa using this
    | succ c =>
      have := ih c (fun p hp => by
        have := h (p + 1) (by simpa using hp)
        omega)
      rw [List.count_cons]
      split <;> omega

theorem count_true_interval (l : List Bool) (a c : Nat)
    (h : ∀ p : Nat, l[p]? = some true → a ≤ p ∧ p < a + c) : l.count true ≤ c := by
  rw [← List.take_append_drop a l, List.count_append]
  have h1 : (l.take a).count true = 0 := by
    rw [List.count_eq_zero]
    intro hmem
    obtain ⟨p, hp, hv⟩ := List.mem_iff_getElem.1 hmem
    rw [List.getElem_take] at hv
    rw [List.length_take] at hp
    have := (h p (by rw [List.getElem?_eq_getElem (by omega), hv])).1
    omega
  have h2 := count_true_le (l.drop a) c (fun p hp => by
    rw [List.getElem?_drop] at hp
    have := (h (a + p) hp).2
    omega)
  omega

theorem commonRun_within {A B : List Int} {a c : Nat} (h : SharedWithin A B a c)
    {p q l : Nat} (hrun : CommonRun A B p q l) (hl : 0 < l) : a ≤ p ∧ p + l ≤ a + c := by
  obtain ⟨h1, h2, h3⟩ := hrun
  have e0 := h3 0 hl
  have e1 := h3 (l - 1) (by omega)
  have r0 := h (p + 0) (q + 0) (by omega) (by omega) e0
  have r1 := h (p + (l - 1)) (q + (l - 1)) (by omega) (by omega) e1
  omega

/-- The total is at most the length of an interval that holds every position of `A` whose
token occurs in `B`. -/
theorem total_le_of_shared {A B : List Int} {a c : Nat} (h : SharedWithin A B a c) :
    (exactTrace A B (exactInit A.length B.length)).1.totalExactMatchLength ≤ c := by
  have inv := traceInv_exactTrace A B
  rw [inv.count]
  have hb : ∀ p : Nat,
      (exactTrace A B (exactInit A.length B.length)).1.usedInSubmission1[p]? = some true →
      a ≤ p ∧ p < a + c := by
    intro p hp
    obtain ⟨m, hm, h1, h2⟩ := (inv.used1 p).1 hp
    obtain ⟨_, _, hrun⟩ := inv.run m hm
    have hkey := hrun.2.2 (p - m.1) (by omega)
    rw [show m.1 + (p - m.1) = p by omega] at hkey
    have hpA : p < A.length := by have := hrun.1; omega
    have hqB : m.2.1 + (p - m.1) < B.length := by have := hrun.2.1; omega
    exact h p _ hpA hqB hkey
  exact_mod_cast count_true_interval _ a c hb

/-- A single shared run of `c ≤ 29` tokens: the total is `min c 20` when `c ≥ 10` and 0
otherwise. -/
theorem total_of_single_run {A B : List Int} {a c j : Nat} (h : SharedWithin A B a c)
    (hc : c ≤ 29) (hrun : CommonRun A B a j (min c 20)) :
    (exactTrace A B (exactInit A.length B.length)).1.totalExactMatchLength =
      if 10 ≤ c then ((min c 20 : Nat) : Int) else 0 := by
  have inv := traceInv_exactTrace A B
  have hle := total_le_of_shared h
  have htotal := inv.total
  by_cases h10 : 10 ≤ c
  · rw [if_pos h10]
    obtain ⟨j', hj'⟩ := first_claim (r := min c 20) (by omega) (by omega) hrun
      (fun i hi j hr => by
        have := commonRun_within h hr (by omega)
        omega)
      (fun l hl hl20 i j hr => by
        have := commonRun_within h hr (by omega)
        omega)
    obtain ⟨l1, l2, hl⟩ := List.append_of_mem hj'
    rw [hl] at htotal
    simp only [List.map_append, List.map_cons, List.sum_append, List.sum_cons] at htotal
    have h1 : l1 = [] := by
      cases hl1 : l1 with
      | nil => rfl
      | cons m rest =>
        exfalso
        have hm := (inv.run m (by rw [hl, hl1]; simp)).1
        rw [hl1] at htotal
        simp only [List.map_cons, List.sum_cons] at htotal
        omega
    have h2 : l2 = [] := by
      cases hl2 : l2 with
      | nil => rfl
      | cons m rest =>
        exfalso
        have hm := (inv.run m (by rw [hl, hl2]; simp)).1
        rw [hl2] at htotal
        simp only [List.map_cons, List.sum_cons] at htotal
        omega
    rw [htotal, h1, h2]
    simp
  · rw [if_neg h10]
    cases hl : (exactTrace A B (exactInit A.length B.length)).2 with
    | nil => rw [htotal, hl]; rfl
    | cons m rest =>
      exfalso
      have hm := (trace_of_mem inv (m := m) (by rw [hl]; exact List.mem_cons_self _ _)).1
      omega

/-- Without a common run of 30 tokens and without an accepted pair of windows the finder
returns the sentinel. -/
theorem findLongestCommonSubsequence_none {A B : List Int}
    (hrun : ∀ p q, ¬ CommonRun A B p q 30) (hacc : ∀ i pos, ¬ Accepted A B 30 i pos) :
    findLongestCommonSubsequence A B = .ok (0, 0, 0) := by
  obtain ⟨L, s1, s2, e, hres⟩ := findLongestCommonSubsequence_spec A B
  rw [e]
  rcases hres with ⟨h30, hb⟩ | ⟨_, hr | ⟨i, pos, ha, _⟩⟩
  · exfalso
    obtain ⟨_, _, r3, _⟩ := best_run h30 hb
    exact hrun s1.toNat s2.toNat
      ⟨by have := r3.1; omega, by have := r3.2.1; omega, fun k hk => r3.2.2 k (by omega)⟩
  · rw [hr]
  · exact absurd ha (hacc i pos)

theorem countP_interval (a c i : Nat) : ∀ l : Nat,
    (List.range l).countP (fun k => decide (a ≤ i + k ∧ i + k < a + c)) ≤
      min c (i + l - a) := by
  intro l
  induction l with
  | zero => simp
  | succ l ih =>
    rw [List.range_succ, List.countP_append, List.countP_singleton]
    by_cases hl : a ≤ i + l ∧ i + l < a + c
    · simp only [hl, and_self, decide_True, if_true]
      omega
    · simp only [hl, decide_False, Bool.false_eq_true, if_false]
      omega

/-- The agreement of two windows is at most the length of an interval that holds every
position of `A` whose token occurs in `B`. -/
theorem agreement_le_of_shared {A B : List Int} {a c : Nat} (h : SharedWithin A B a c)
    (i pos l : Nat) (hi : i + l ≤ A.length) : agreement A B i pos l ≤ c := by
  unfold agreement
  have hp : ∀ k ∈ List.range l, decide (A[i + k]? = B[pos + k]?) = true →
      decide (a ≤ i + k ∧ i + k < a + c) = true := by
    intro k hk hv
    have hk' := List.mem_range.1 hk
    have heq := of_decide_eq_true hv
    have hiA : i + k < A.length := by omega
    have hqB : pos + k < B.length := by
      by_contra hq
      rw [List.getElem?_eq_getElem hiA, List.getElem?_eq_none (by omega)] at heq
      simp at heq
    exact decide_eq_true (h _ _ hiA hqB heq)
  exact le_trans (List.countP_mono_left hp)
    (le_trans (countP_interval a c i l) (Nat.min_le_left _ _))

/-- The result of `match_submissions` on two sequences with a single shared run of at most
23 tokens. -/
theorem match_submissions_single_run {A B : List Int} {a c j : Nat} (h19 : 19 ≤ B.length)
    (hA : A.length < 2 ^ 31) (hB : B.length < 2 ^ 31) (h : SharedWithin A B a c)
    (hc : c ≤ 23) (hrun : CommonRun A B a j (min c 20)) :
    match_submissions A B =
      .ok (if (if 10 ≤ c then ((min c 20 : Nat) : Int) else 0) ≥
              ((min A.length B.length / 5 : Nat) : Int) ∨
            (0 : Int) ≥ ((3 * min A.length B.length / 10 : Nat) : Int)
          then [1, if 10 ≤ c then ((min c 20 : Nat) : Int) else 0, 0, 0, 0]
          else [0, 0, 0, 0, 0]) := by
  have hd := detectExactMatches_eq (A := A) (B := B) h19
    (by norm_num at hB ⊢; omega) (exactInit_masksFit A B)
  have htotal := total_of_single_run h (by omega) hrun
  rw [exactTrace_fst] at htotal
  have hnorun : ∀ p q, ¬ CommonRun A B p q 30 := by
    intro p q hr
    have := commonRun_within h hr (by omega)
    omega
  have hnoacc : ∀ i pos, ¬ Accepted A B 30 i pos := by
    rintro i pos ⟨h1, _, _, _, _, h6⟩
    rw [similarity_ge_c08 _ (agreement_le A B i pos 30)] at h6
    have := agreement_le_of_shared h i pos 30 h1
    have := of_decide_eq_true h6
    omega
  unfold match_submissions
  rw [hd, findLongestCommonSubsequence_none hnorun hnoacc]
  simp only [ok_bind]
  rw [combine_eq (lt_of_le_of_lt (Nat.min_le_left A.length B.length) hA), htotal]

theorem getElem?_middle (P M Q : List Int) {k : Nat} (hk : k < M.length) :
    (P ++ M ++ Q)[P.length + k]? = M[k]? := by
  rw [List.append_assoc, List.getElem?_append_right (by omega),
    show P.length + k - P.length = k by omega, List.getElem?_append_left hk]

theorem commonRun_append (P M Q P' Q' : List Int) :
    CommonRun (P ++ M ++ Q) (P' ++ M ++ Q') P.length P'.length M.length := by
  refine ⟨by simp, by simp, fun k hk => ?_⟩
  rw [getElem?_middle P M Q hk, getElem?_middle P' M Q' hk]

theorem sharedWithin_append {P M Q B : List Int} (hP : ∀ a ∈ P, a ∉ B) (hQ : ∀ a ∈ Q, a ∉ B) :
    SharedWithin (P ++ M ++ Q) B P.length M.length := by
  intro p q hp hq heq
  rw [List.getElem?_eq_getElem hq] at heq
  have hmem : ∀ y, (P ++ M ++ Q)[p]? = some y → y ∈ P → False := by
    intro y hy hyP
    apply hP y hyP
    rw [heq] at hy
    rw [← Option.some.inj hy]
    exact List.getElem_mem _
  have hmemQ : ∀ y, (P ++ M ++ Q)[p]? = some y → y ∈ Q → False := by
    intro y hy hyQ
    apply hQ y hyQ
    rw [heq] at hy
    rw [← Option.some.inj hy]
    exact List.getElem_mem _
  simp only [List.length_append] at hp
  constructor
  · by_contra hcon
    have hlt : p < P.length := by omega
    apply hmem P[p] _ (List.getElem_mem _)
    rw [List.append_assoc, List.getElem?_append_left hlt, List.getElem?_eq_getElem hlt]
  · by_contra hcon
    have hge : P.length + M.length ≤ p := by omega
    have hlt : p - (P ++ M).length < Q.length := by
      rw [List.length_append]; omega
    apply hmemQ Q[p - (P ++ M).length] _ (List.getElem_mem _)
    rw [List.getElem?_append_right (by rw [List.length_append]; omega),
      List.getElem?_eq_getElem hlt]


/-! ## Lengthening a shared run -/

/-- The negation of C14 at two pairs of inputs, both with `P = P' = []` and `x = 500`.
With `R` the 20 tokens 0..19 and `Q`, `Q'` the 84 tokens from 1000 and from 2000, the total 20
is reported before the lengthening (threshold `104 / 5 = 20`) and the all-zero result after it
(threshold `105 / 5 = 21`, the run of 21 tokens still counts 20).  With `R` the 15 tokens
0..14, `Q` the tokens 100..104 and `Q'` the token 900 followed by `R ++ Q`, the reported total
falls from 20 to 16. -/
theorem C14_monotonicity_counterexample :
    (runSubmission1 = [] ++ tokens 0 20 ++ tokens 1000 84 ∧
      runSubmission2 = [] ++ tokens 0 20 ++ tokens 2000 84 ∧
      longerRunSubmission1 = [] ++ tokens 0 20 ++ [500] ++ tokens 1000 84 ∧
      longerRunSubmission2 = [] ++ tokens 0 20 ++ [500] ++ tokens 2000 84 ∧
      19 ≤ runSubmission2.length ∧
      match_submissions runSubmission1 runSubmission2 = .ok [1, 20, 0, 0, 0] ∧
      match_submissions longerRunSubmission1 longerRunSubmission2 = .ok [0, 0, 0, 0, 0]) ∧
    (straddleSubmission1 = [] ++ tokens 0 15 ++ tokens 100 5 ∧
      straddleSubmission2 = [] ++ tokens 0 15 ++ ([900] ++ tokens 0 15 ++ tokens 100 5) ∧
      longerStraddleSubmission1 = [] ++ tokens 0 15 ++ [500] ++ tokens 100 5 ∧
      longerStraddleSubmission2 =
        [] ++ tokens 0 15 ++ [500] ++ ([900] ++ tokens 0 15 ++ tokens 100 5) ∧
      19 ≤ straddleSubmission2.length ∧
      match_submissions straddleSubmission1 straddleSubmission2 = .ok [1, 20, 0, 0, 0] ∧
      match_submissions longerStraddleSubmission1 longerStraddleSubmission2 =
        .ok [1, 16, 0, 0, 0]) := by
  have hs : SharedWithin runSubmission1 runSubmission2 0 20 :=
    @sharedWithin_append [] (tokens 0 20) (tokens 1000 84) runSubmission2
      (fun a ha => absurd ha (List.not_mem_nil a)) (by decide)
  have hl : SharedWithin longerRunSubmission1 longerRunSubmission2 0 21 := by
    have h := @sharedWithin_append [] (tokens 0 20 ++ [500]) (tokens 1000 84)
      longerRunSubmission2 (fun a ha => absurd ha (List.not_mem_nil a)) (by decide)
    have e : (tokens 0 20 ++ [500]).length = 21 := by decide
    rw [e] at h
    exact h
  have hr : CommonRun runSubmission1 runSubmission2 0 0 (min 20 20) :=
    commonRun_append [] (tokens 0 20) (tokens 1000 84) [] (tokens 2000 84)
  have hr' : CommonRun longerRunSubmission1 longerRunSubmission2 0 0 (min 21 20) :=
    ⟨by decide, by decide, by decide⟩
  refine ⟨⟨rfl, rfl, rfl, rfl, by decide, ?_, ?_⟩, ⟨rfl, ?_, rfl, ?_, by decide, ?_, ?_⟩⟩
  · exact (match_submissions_single_run (by decide) (by decide) (by decide) hs (by decide)
      hr).trans (by decide)
  · exact (match_submissions_single_run (by decide) (by decide) (by decide) hl (by decide)
      hr').trans (by decide)
  · decide
  · decide
  · decide
  · decide

theorem reported_total (c : Prop) [Decidable c] (g : Int) :
    (if c then [1, g, 0, 0, 0] else [0, 0, 0, 0, 0])[1]? = some (if c then g else 0) := by
  split <;> rfl

/-- C14, amended. Monotonicity of the reported exact total under lengthening a shared run
that stays within the detector's longest window: for all token lists `P`, `Q`, `P'`, `Q'`,
`R` and every token `x` such that `R ++ [x]` has at most 20 tokens, no token of `P` or of `Q`
occurs in `P' ++ R ++ [x] ++ Q'` and both second arguments have at least 19 tokens, both calls
complete and `result[1]` of `match_submissions(P ++ R ++ [x] ++ Q, P' ++ R ++ [x] ++ Q')` is
at least `result[1]` of `match_submissions(P ++ R ++ Q, P' ++ R ++ Q')`. -/
theorem C14_monotonicity (P P' R Q Q' : List Int) (x : Int) (hlen : R.length + 1 ≤ 20)
    (hP : ∀ a ∈ P, a ∉ P' ++ R ++ [x] ++ Q') (hQ : ∀ a ∈ Q, a ∉ P' ++ R ++ [x] ++ Q')
    (h19 : 19 ≤ (P' ++ R ++ Q').length)
    (hA : (P ++ R ++ [x] ++ Q).length < 2 ^ 31)
    (hB : (P' ++ R ++ [x] ++ Q').length < 2 ^ 31) :
    ∃ r r' : List Int, ∃ t t' : Int,
      match_submissions (P ++ R ++ Q) (P' ++ R ++ Q') = .ok r ∧
      match_submissions (P ++ R ++ [x] ++ Q) (P' ++ R ++ [x] ++ Q') = .ok r' ∧
      r[1]? = some t ∧ r'[1]? = some t' ∧ t ≤ t' := by
  have hsub : ∀ a, a ∈ P' ++ R ++ Q' → a ∈ P' ++ R ++ [x] ++ Q' := by
    intro a ha
    simp only [List.mem_append] at ha ⊢
    tauto
  have e1 : P ++ R ++ [x] ++ Q = P ++ (R ++ [x]) ++ Q := by simp
  have e2 : P' ++ R ++ [x] ++ Q' = P' ++ (R ++ [x]) ++ Q' := by simp
  have hs : SharedWithin (P ++ R ++ Q) (P' ++ R ++ Q') P.length R.length :=
    sharedWithin_append (fun a ha hm => hP a ha (hsub a hm))
      (fun a ha hm => hQ a ha (hsub a hm))
  have hs' : SharedWithin (P ++ (R ++ [x]) ++ Q) (P' ++ (R ++ [x]) ++ Q') P.length
      (R ++ [x]).length :=
    sharedWithin_append (fun a ha => e2 ▸ hP a ha) (fun a ha => e2 ▸ hQ a ha)
  have hr : CommonRun (P ++ R ++ Q) (P' ++ R ++ Q') P.length P'.length
      (min R.length 20) := by
    rw [Nat.min_eq_left (by omega)]
    exact commonRun_append P R Q P' Q'
  have hr' : CommonRun (P ++ (R ++ [x]) ++ Q) (P' ++ (R ++ [x]) ++ Q') P.length P'.length
      (min (R ++ [x]).length 20) := by
    rw [Nat.min_eq_left (by simp; omega)]
    exact commonRun_append P (R ++ [x]) Q P' Q'
  rw [e1] at hA
  rw [e2] at hB
  have hb := match_submissions_single_run (by omega)
    (by simp only [List.length_append, List.length_singleton] at hA ⊢; omega)
    (by simp only [List.length_append, List.length_singleton] at hB ⊢; omega)
    hs (by omega) hr
  have ha := match_submissions_single_run
    (by simp only [List.length_append, List.length_singleton] at h19 ⊢; omega)
    hA hB hs' (by simp; omega) hr'
  rw [e1, e2, hb, ha]
  refine ⟨_, _, _, _, rfl, rfl, reported_total _ _, reported_total _ _, ?_⟩
  simp only [List.length_append, List.length_singleton] at h19 ⊢
  generalize P.length = p
  generalize P'.length = p' at h19 ⊢
  generalize Q.length = q
  generalize Q'.length = q' at h19 ⊢
  generalize R.length = n at hlen h19 ⊢
  split_ifs <;> omega

/-- Witness of C14, amended: a shared run of 12 tokens lengthened to 13, after one other
token and before six other tokens in each sequence. -/
theorem C14_monotonicity_witness :
    ∃ r r' : List Int, ∃ t t' : Int,
      match_submissions ([50] ++ tokens 0 12 ++ tokens 100 6)
        ([60] ++ tokens 0 12 ++ tokens 200 6) = .ok r ∧
      match_submissions ([50] ++ tokens 0 12 ++ [12] ++ tokens 100 6)
        ([60] ++ tokens 0 12 ++ [12] ++ tokens 200 6) = .ok r' ∧
      r[1]? = some t ∧ r'[1]? = some t' ∧ t ≤ t' :=
  C14_monotonicity [50] [60] (tokens 0 12) (tokens 100 6) (tokens 200 6) 12
    (by decide) (by decide) (by decide) (by decide) (by decide) (by decide)

end MatchSubmissions
